import Mathlib

/-!
# Coverage model construction and aggregation (pkg/analysis/swagger_analysis.go)

A shallow embedding of the four functions of swagger_analysis.go:
AnalyzeSwagger, addSwaggerParams, extractDefParams and calculateCoverage.

Modelling conventions.

* A Go map with string keys is an association list (GoMap): an index
  expression reads the first binding of the key, an assignment overwrites that
  binding or appends a new one. Ranging over a map visits the bindings in list
  order (Go leaves the order unspecified).
* Go int is the 64-bit two's complement integer. The arithmetic of
  calculateCoverage works on hit counters that the observer writes, and it
  wraps around (wrapInt). The counts that AnalyzeSwagger builds are the numbers
  of parameters of a document held in memory; they are computed in the
  integers.
* float64 percentages are modelled by exact rationals.
* Pointers to endpoints are modelled by values stored in the map: no two map
  entries share an endpoint.
* extractDefParams is recursive without a guard, so it takes a fuel argument:
  the number of calls of extractDefParams that may be nested, the initial call
  included. With fuel 0 nothing runs; with fuel n + 1 the initial call runs and
  the recursion below it may be n calls deep. It answers none when the fuel is
  used up; the functions that call it pass the answer on.
* The document (go-openapi loads.Document) is external: it is represented by
  the three things the code reads from it.
-/

namespace Analysis

/-! ## Go maps with string keys -/

/-- A Go map with string keys: an association list read at the first binding of a key. -/
abbrev GoMap (V : Type) := List (String × V)

namespace GoMap

variable {V : Type}

/-- The index expression with the comma-ok form: the value bound to the key, if any. -/
def get? : GoMap V → String → Option V
  | [], _ => none
  | (k', v) :: rest, k => if k' = k then some v else get? rest k

/-- The assignment to an index expression: overwrite the binding of the key or add one. -/
def set : GoMap V → String → V → GoMap V
  | [], k, v => [(k, v)]
  | (k', v') :: rest, k, v => if k' = k then (k, v) :: rest else (k', v') :: set rest k v

/-- The keys of the map, in list order. -/
def keys (m : GoMap V) : List String := m.map Prod.fst

/-- Whether the key is bound. -/
def contains (m : GoMap V) (k : String) : Bool := (m.get? k).isSome

end GoMap

/-! ## The Go standard library functions used by the code -/

namespace strings

/-- Splitting a list of runes at every occurrence of the separator rune. -/
def splitRunes (sep : Char) : List Char → List (List Char)
  | [] => [[]]
  | c :: cs =>
    if c = sep then [] :: splitRunes sep cs
    else
      match splitRunes sep cs with
      | [] => [[c]]
      | t :: ts => (c :: t) :: ts

/-- Go strings.Split for a separator of one rune: the substrings between the separators. -/
def Split (s : String) (sep : Char) : List String :=
  (splitRunes sep s.data).map String.mk

/-- Go strings.ToLower: every rune is mapped by the rune lower-casing function
    (unicode.ToLower in Go), which is taken as a parameter. -/
def ToLower (lowerRune : Char → Char) (s : String) : String :=
  String.mk (s.data.map lowerRune)

/-- Go strings.HasPrefix: the string begins with the given string. -/
def HasPrefix (s pre : String) : Bool := pre.data.isPrefixOf s.data

end strings

/-- Lower-casing of the ASCII letters, every other rune unchanged: the rune
    map used for the concrete examples (it agrees with unicode.ToLower on ASCII). -/
def asciiLower (c : Char) : Char :=
  if 65 ≤ c.toNat ∧ c.toNat ≤ 90 then Char.ofNat (c.toNat + 32) else c

/-! ## The contract: schemas, parameters, document -/

/-- The part of spec.Schema the code reads: the decoded tokens of the JSON
    pointer of its reference (empty when the schema has no reference) and its
    properties (a Go map from property name to schema). -/
inductive Schema where
  | mk (Ref : List String) (Properties : List (String × Schema)) : Schema

namespace Schema

/-- The decoded tokens of the reference pointer: schema.Ref.GetPointer().DecodedTokens(). -/
def Ref : Schema → List String
  | mk r _ => r

/-- The properties of the schema. -/
def Properties : Schema → GoMap Schema
  | mk _ ps => ps

end Schema

/-- The type spec.Definitions: definition name to schema. -/
abbrev Definitions := GoMap Schema

/-- The part of spec.Parameter the code reads. -/
structure Parameter where
  Name : String
  In : String
  Schema : Option Schema

/-- The three things the code reads from the loaded document:
    document.Analyzer.OperationMethodPaths(), document.Analyzer.ParamsFor(method, path)
    and document.Spec().Definitions. -/
structure Document where
  OperationMethodPaths : List String
  ParamsFor : String → String → GoMap Parameter
  Definitions : Definitions

/-! ## The statistics structures (package stats) -/

/-- Modelled from the spec: the type stats.ParamsHitsDetails is declared in package
    stats, which is not among the sources; section 3 of the spec gives its two
    mappings from a parameter name or dotted field path to a hit count. -/
structure ParamsHitsDetails where
  Query : GoMap Int
  Body : GoMap Int
  deriving DecidableEq

/-- Modelled from the spec: the type stats.Endpoint is declared in package stats,
    which is not among the sources; section 3 of the spec gives its fields. -/
structure Endpoint where
  ParamsHitsDetails : ParamsHitsDetails
  Percent : ℚ
  MethodCalled : Bool
  Path : String
  Method : String
  ExpectedUniqueHits : Int
  UniqueHits : Int
  deriving DecidableEq

/-- Modelled from the spec: the type stats.Coverage is declared in package stats,
    which is not among the sources; section 3 of the spec gives its fields. -/
structure Coverage where
  Endpoints : GoMap (GoMap Endpoint)
  ExpectedUniqueHits : Int
  UniqueHits : Int
  Percent : ℚ
  deriving DecidableEq

/-! ## extractDefParams -/

/-- One round of the loop over def.Properties in extractDefParams, given the
    function that performs the recursive call. -/
def extractPropStep (recCall : Schema → String → GoMap Int → Option (Int × GoMap Int))
    (paramPath : String) (acc : Int × GoMap Int) (np : String × Schema) :
    Option (Int × GoMap Int) :=
  let path := paramPath ++ "." ++ np.1
  if 0 < np.2.Ref.length then
    (recCall np.2 path acc.2).map (fun r => (acc.1 + r.1, r.2))
  else
    some (acc.1 + 1, acc.2.set path 0)

/-- The function extractDefParams: the number of parameters found by following
    the definition references of the schema, and the params map after the
    registrations; none when the fuel is used up. -/
def extractDefParams : Nat → Schema → Definitions → String → GoMap Int →
    Option (Int × GoMap Int)
  | 0, _, _, _, _ => none
  | fuel + 1, schema, definitions, paramPath, params =>
    match schema.Ref with
    | refType :: refName :: _ =>
      if refType ≠ "definitions" then some (0, params)
      else
        match definitions.get? refName with
        | none => some (0, params)
        | some d =>
          if 0 < d.Properties.length then
            d.Properties.foldlM
              (extractPropStep (fun p path ps => extractDefParams fuel p definitions path ps)
                paramPath)
              (0, params)
          else some (1, params.set paramPath 0)
    | _ => some (0, params)

/-! ## addSwaggerParams -/

/-- The body of the loop of addSwaggerParams for one parameter. -/
def addSwaggerParam (fuel : Nat) (definitions : Definitions) (endpoint : Endpoint)
    (param : Parameter) : Option Endpoint :=
  if param.In = "body" then
    match param.Schema with
    | some schema =>
      (extractDefParams fuel schema definitions param.Name endpoint.ParamsHitsDetails.Body).map
        (fun r => { endpoint with
          ParamsHitsDetails := { endpoint.ParamsHitsDetails with Body := r.2 }
          ExpectedUniqueHits := endpoint.ExpectedUniqueHits + r.1 })
    | none =>
      some { endpoint with
        ParamsHitsDetails := { endpoint.ParamsHitsDetails with
          Body := endpoint.ParamsHitsDetails.Body.set param.Name 0 }
        ExpectedUniqueHits := endpoint.ExpectedUniqueHits + 1 }
  else if param.In = "query" then
    some { endpoint with
      ParamsHitsDetails := { endpoint.ParamsHitsDetails with
        Query := endpoint.ParamsHitsDetails.Query.set param.Name 0 }
      ExpectedUniqueHits := endpoint.ExpectedUniqueHits + 1 }
  else some endpoint

/-- The function addSwaggerParams: every parameter of the map is added to the endpoint. -/
def addSwaggerParams (fuel : Nat) (endpoint : Endpoint) (params : GoMap Parameter)
    (definitions : Definitions) : Option Endpoint :=
  params.foldlM (fun e kp => addSwaggerParam fuel definitions e kp.2) endpoint

/-! ## AnalyzeSwagger -/

/-- The endpoint created at the first occurrence of a path and method. -/
def newEndpoint (path method : String) : Endpoint :=
  { ParamsHitsDetails := { Query := [], Body := [] }
    Percent := 0
    MethodCalled := false
    Path := path
    Method := method
    ExpectedUniqueHits := 1
    UniqueHits := 0 }

/-- The empty coverage AnalyzeSwagger starts from. -/
def emptyCoverage : Coverage :=
  { Endpoints := [], ExpectedUniqueHits := 0, UniqueHits := 0, Percent := 0 }

/-- The outcome of one round of the loop of AnalyzeSwagger. -/
inductive LoopStep where
  | next (coverage : Coverage) : LoopStep
  | fail (err : String) : LoopStep

/-- The body of the loop of AnalyzeSwagger for one operation string. -/
def analyzeOperation (lowerRune : Char → Char) (fuel : Nat) (document : Document)
    (filter : String) (coverage : Coverage) (mp : String) : Option LoopStep :=
  match strings.Split mp ' ' with
  | [v0, v1] =>
    let method := strings.ToLower lowerRune v0
    let path := strings.ToLower lowerRune v1
    if ¬ strings.HasPrefix path filter then some (LoopStep.next coverage)
    else
      let methods := (coverage.Endpoints.get? path).getD []
      let endpoint := (methods.get? method).getD (newEndpoint path method)
      (addSwaggerParams fuel endpoint (document.ParamsFor method path)
          document.Definitions).map
        (fun e => LoopStep.next
          { coverage with Endpoints := coverage.Endpoints.set path (methods.set method e) })
  | _ => some (LoopStep.fail ("Invalid method:path pair \x27" ++ mp ++ "\x27"))

/-- The loop of AnalyzeSwagger over the operation strings, with the two values it returns. -/
def analyzeLoop (lowerRune : Char → Char) (fuel : Nat) (document : Document)
    (filter : String) : Coverage → List String → Option (Option Coverage × Option String)
  | coverage, [] => some (some coverage, none)
  | coverage, mp :: rest =>
    match analyzeOperation lowerRune fuel document filter coverage mp with
    | none => none
    | some (LoopStep.fail err) => some (none, some err)
    | some (LoopStep.next coverage') => analyzeLoop lowerRune fuel document filter coverage' rest

/-- The function AnalyzeSwagger: the pair of the returned coverage pointer and the
    returned error (each nil or not); none when reference resolution uses up the
    fuel. -/
def AnalyzeSwagger (lowerRune : Char → Char) (fuel : Nat) (document : Document)
    (filter : String) : Option (Option Coverage × Option String) :=
  analyzeLoop lowerRune fuel document filter emptyCoverage document.OperationMethodPaths

/-! ## calculateCoverage -/

/-- The least value of a Go int (64 bits). -/
def minInt : Int := -9223372036854775808

/-- The largest value of a Go int (64 bits). -/
def maxInt : Int := 9223372036854775807

/-- The integer is a value of a Go int. -/
def IsGoInt (x : Int) : Prop := minInt ≤ x ∧ x ≤ maxInt

instance (x : Int) : Decidable (IsGoInt x) :=
  inferInstanceAs (Decidable (minInt ≤ x ∧ x ≤ maxInt))

/-- The value a Go int takes for a mathematical result: the result modulo 2^64,
    taken in the range from minInt to maxInt. -/
def wrapInt (x : Int) : Int :=
  (x + 9223372036854775808) % 18446744073709551616 - 9223372036854775808

/-- The statements of calculateCoverage that change the endpoint. -/
def calculateEndpoint (e : Endpoint) : Endpoint :=
  let e1 := if e.MethodCalled then { e with UniqueHits := wrapInt (e.UniqueHits + 1) } else e
  let e2 := if e1.UniqueHits > e1.ExpectedUniqueHits then
      { e1 with UniqueHits := e1.ExpectedUniqueHits } else e1
  if e2.ExpectedUniqueHits > 0 then
    { e2 with Percent := (e2.UniqueHits : ℚ) * 100 / (e2.ExpectedUniqueHits : ℚ) }
  else { e2 with Percent := 0 }

/-- The running totals of a coverage: ExpectedUniqueHits and UniqueHits. -/
abbrev Totals := Int × Int

/-- The statements of calculateCoverage that change the totals, for an endpoint
    already updated. -/
def addTotals (t : Totals) (e : Endpoint) : Totals :=
  if e.ExpectedUniqueHits > 0 then
    (wrapInt (t.1 + e.ExpectedUniqueHits), wrapInt (t.2 + e.UniqueHits))
  else t

/-- The inner loop of calculateCoverage over the methods of one path. -/
def calculateMethods : Totals → GoMap Endpoint → Totals × GoMap Endpoint
  | t, [] => (t, [])
  | t, (m, e) :: rest =>
    let e' := calculateEndpoint e
    let r := calculateMethods (addTotals t e') rest
    (r.1, (m, e') :: r.2)

/-- The outer loop of calculateCoverage over the paths. -/
def calculatePaths : Totals → GoMap (GoMap Endpoint) → Totals × GoMap (GoMap Endpoint)
  | t, [] => (t, [])
  | t, (p, es) :: rest =>
    let r1 := calculateMethods t es
    let r2 := calculatePaths r1.1 rest
    (r2.1, (p, r1.2) :: r2.2)

/-- The function calculateCoverage: the coverage after the call. -/
def calculateCoverage (coverage : Coverage) : Coverage :=
  let r := calculatePaths (coverage.ExpectedUniqueHits, coverage.UniqueHits) coverage.Endpoints
  { Endpoints := r.2
    ExpectedUniqueHits := r.1.1
    UniqueHits := r.1.2
    Percent := if r.1.1 > 0 then (r.1.2 : ℚ) * 100 / (r.1.1 : ℚ) else 0 }

/-! ## Reading a coverage -/

/-- Every entry of the two-level endpoint map with its path and method, in range order. -/
def entriesOf : GoMap (GoMap Endpoint) → List ((String × String) × Endpoint)
  | [] => []
  | (p, es) :: rest => es.map (fun me => ((p, me.1), me.2)) ++ entriesOf rest

/-- Every entry of the endpoint map of a coverage with its path and method. -/
def Coverage.entries (c : Coverage) : List ((String × String) × Endpoint) :=
  entriesOf c.Endpoints

/-- The index expression coverage.Endpoints[path][method], when both keys are bound. -/
def Coverage.endpoint? (c : Coverage) (path method : String) : Option Endpoint :=
  (c.Endpoints.get? path).bind (fun es => es.get? method)

/-- The sum of a field over the entries whose ExpectedUniqueHits is positive. -/
def sumPositive (f : Endpoint → Int) (l : List ((String × String) × Endpoint)) : Int :=
  ((l.filter (fun a => decide (a.2.ExpectedUniqueHits > 0))).map (fun a => f a.2)).sum

/-! ## Specification-side notions for reference resolution -/

/-- Registering every path of the list with count 0, in order. -/
def registerAll (m : GoMap Int) (ks : List String) : GoMap Int :=
  ks.foldl (fun acc k => acc.set k 0) m

/-- The paths registered by the loop over the properties of a definition, given
    the paths registered by a recursive call. -/
def propLeaves (recCall : Schema → String → Option (List String)) (paramPath : String) :
    List (String × Schema) → Option (List String)
  | [] => some []
  | np :: rest =>
    (if 0 < np.2.Ref.length then recCall np.2 (paramPath ++ "." ++ np.1)
      else some [paramPath ++ "." ++ np.1]).bind
      (fun a => (propLeaves recCall paramPath rest).map (fun b => a ++ b))

/-- The dotted paths that extractDefParams registers for a schema, in the order
    of registration (with repetitions); none when the fuel is used up. -/
def leafPaths : Nat → Schema → Definitions → String → Option (List String)
  | 0, _, _, _ => none
  | fuel + 1, schema, definitions, paramPath =>
    match schema.Ref with
    | refType :: refName :: _ =>
      if refType ≠ "definitions" then some []
      else
        match definitions.get? refName with
        | none => some []
        | some d =>
          if 0 < d.Properties.length then
            propLeaves (fun p path => leafPaths fuel p definitions path) paramPath d.Properties
          else some [paramPath]
    | _ => some []

/-- The name of the local definition a schema refers to: the second token of a
    reference whose first token is the definitions marker. -/
def refTarget (s : Schema) : Option String :=
  match s.Ref with
  | refType :: refName :: _ => if refType = "definitions" then some refName else none
  | _ => none

/-- One step of the reference graph: definition a has a property whose schema
    refers to definition b. -/
def RefEdge (definitions : Definitions) (a b : String) : Prop :=
  ∃ d, definitions.get? a = some d ∧ ∃ np ∈ d.Properties, refTarget np.2 = some b

/-- The reference graph is acyclic: no definition reaches itself by following
    property references. -/
def Acyclic (definitions : Definitions) : Prop :=
  ∀ a, ¬ Relation.TransGen (RefEdge definitions) a a

/-- Every edge of the reference graph, as computed from the table. -/
def edgesOf (definitions : Definitions) : List (String × String) :=
  (definitions.map (fun ad =>
    ad.2.Properties.filterMap (fun np => (refTarget np.2).map (fun b => (ad.1, b))))).flatten

/-- The body parameter with the given name and schema. -/
def bodyParam (name : String) (schema : Schema) : Parameter :=
  { Name := name, In := "body", Schema := some schema }

/-- Resolving the schema of the body parameter named p registers exactly the
    paths of the list: extractDefParams returns the length of the list and the
    params map afterwards holds count 0 at every path of the list and is unchanged
    at every other key; accordingly addSwaggerParams, for this parameter, adds the
    length of the list to ExpectedUniqueHits and changes the endpoint in no other
    way than these registrations in the body map. -/
def RegistersLeaves (fuel : Nat) (definitions : Definitions) (schema : Schema) (p : String)
    (leaves : List String) : Prop :=
  (∀ params : GoMap Int, ∃ params',
      extractDefParams fuel schema definitions p params = some ((leaves.length : Int), params')
      ∧ ∀ k, params'.get? k = if k ∈ leaves then some 0 else params.get? k)
  ∧ (∀ endpoint : Endpoint, ∃ body',
      addSwaggerParam fuel definitions endpoint (bodyParam p schema)
        = some { endpoint with
            ParamsHitsDetails := { endpoint.ParamsHitsDetails with Body := body' }
            ExpectedUniqueHits := endpoint.ExpectedUniqueHits + (leaves.length : Int) }
      ∧ ∀ k, body'.get? k
          = if k ∈ leaves then some 0 else endpoint.ParamsHitsDetails.Body.get? k)

/-! ## Concrete contracts -/

/-- The schema that refers to the local definition of the given name. -/
def refTo (name : String) : Schema := Schema.mk ["definitions", name] []

/-- A schema without reference and without properties. -/
def plainSchema : Schema := Schema.mk [] []

/-- The definitions of the widgets contract: Widget with the properties name and size. -/
def widgetDefinitions : Definitions :=
  [("Widget", Schema.mk [] [("name", plainSchema), ("size", plainSchema)])]

/-- The widgets contract: GET /widgets without parameters and POST /widgets with
    the query parameter limit and the body parameter body that refers to Widget. -/
def widgetDocument : Document :=
  { OperationMethodPaths := ["GET /widgets", "POST /widgets"]
    ParamsFor := fun method path =>
      if method = "post" ∧ path = "/widgets" then
        [("query#Limit", { Name := "limit", In := "query", Schema := none }),
         ("body#Body", bodyParam "body" (refTo "Widget"))]
      else []
    Definitions := widgetDefinitions }

/-- A definitions table with a definition without properties. -/
def emptyDefinitions : Definitions := [("Empty", Schema.mk [] [])]

/-- The schema of the definition Order: a property id without reference and a
    property item that refers to Item. -/
def orderSchema : Schema := Schema.mk [] [("id", plainSchema), ("item", refTo "Item")]

/-- A nested definitions table: Order refers to Item, which has the properties sku and qty. -/
def nestedDefinitions : Definitions :=
  [("Order", orderSchema),
   ("Item", Schema.mk [] [("sku", plainSchema), ("qty", plainSchema)])]

/-- The observer's write to one endpoint of the coverage (the recorder itself is
    outside the analysed file): the endpoint stored at the path and method is
    replaced by its image; nothing happens when it does not exist. -/
def Coverage.update (c : Coverage) (path method : String) (f : Endpoint → Endpoint) :
    Coverage :=
  match c.Endpoints.get? path with
  | none => c
  | some es =>
    match es.get? method with
    | none => c
    | some e => { c with Endpoints := c.Endpoints.set path (es.set method (f e)) }

/-- The model AnalyzeSwagger builds for the widgets contract. -/
def widgetCoverage : Coverage :=
  { Endpoints :=
      [("/widgets",
        [("get", newEndpoint "/widgets" "get"),
         ("post",
          { newEndpoint "/widgets" "post" with
            ParamsHitsDetails :=
              { Query := [("limit", 0)], Body := [("body.name", 0), ("body.size", 0)] }
            ExpectedUniqueHits := 4 })])]
    ExpectedUniqueHits := 0
    UniqueHits := 0
    Percent := 0 }

/-- The observations of the widgets example: get called once without parameter
    hits; post called once with limit and body.name hit. -/
def observeWidgets (c : Coverage) : Coverage :=
  (c.update "/widgets" "get"
      (fun e => { e with MethodCalled := true, UniqueHits := 0 })).update "/widgets" "post"
    (fun e => { e with
      MethodCalled := true
      UniqueHits := 2
      ParamsHitsDetails :=
        { Query := e.ParamsHitsDetails.Query.set "limit" 1
          Body := e.ParamsHitsDetails.Body.set "body.name" 1 } })

/-- The names addSwaggerParams registers in the query map, in the order of
    registration (with repetitions): the names of the query parameters. -/
def queryRegs (params : GoMap Parameter) : List String :=
  (params.filter (fun kp => decide (kp.2.In = "query"))).map (fun kp => kp.2.Name)

/-- The paths addSwaggerParams registers in the body map for one parameter. -/
def paramBodyRegs (fuel : Nat) (definitions : Definitions) (param : Parameter) :
    Option (List String) :=
  if param.In = "body" then
    match param.Schema with
    | some schema => leafPaths fuel schema definitions param.Name
    | none => some [param.Name]
  else some []

/-- The paths addSwaggerParams registers in the body map, in the order of
    registration (with repetitions); none when the fuel is used up. -/
def bodyRegs (fuel : Nat) (definitions : Definitions) : GoMap Parameter → Option (List String)
  | [] => some []
  | kp :: rest =>
    (paramBodyRegs fuel definitions kp.2).bind
      (fun a => (bodyRegs fuel definitions rest).map (fun b => a ++ b))

/-- The endpoint after the given registrations: the names are registered in the
    query map, the paths in the body map, and every registration adds 1 to
    ExpectedUniqueHits. -/
def registerUnits (endpoint : Endpoint) (qs bs : List String) : Endpoint :=
  { endpoint with
    ParamsHitsDetails :=
      { Query := registerAll endpoint.ParamsHitsDetails.Query qs
        Body := registerAll endpoint.ParamsHitsDetails.Body bs }
    ExpectedUniqueHits := endpoint.ExpectedUniqueHits + (qs.length : Int) + (bs.length : Int) }

/-- An operation string is well formed when it splits at the spaces into exactly two tokens. -/
def WellFormedOp (mp : String) : Prop := (strings.Split mp ' ').length = 2

instance (mp : String) : Decidable (WellFormedOp mp) :=
  inferInstanceAs (Decidable ((strings.Split mp ' ').length = 2))

/-- The error AnalyzeSwagger returns for an operation string. -/
def invalidPair (mp : String) : String := "Invalid method:path pair \x27" ++ mp ++ "\x27"

/-- The endpoint the loop of AnalyzeSwagger works on for a path and method: the
    stored one, or the new endpoint at the first occurrence. -/
def currentEndpoint (c : Coverage) (path method : String) : Endpoint :=
  (((c.Endpoints.get? path).getD []).get? method).getD (newEndpoint path method)

/-- The coverage after the loop of AnalyzeSwagger has stored an endpoint at a path
    and method. -/
def storeEndpoint (c : Coverage) (path method : String) (e : Endpoint) : Coverage :=
  { c with Endpoints := c.Endpoints.set path (((c.Endpoints.get? path).getD []).set method e) }

/-- The operation string yields the path p and the method m and passes the filter:
    it is M, a space, P with lower(P) = p and lower(M) = m, and p starts with the
    filter. -/
def OpYields (lowerRune : Char → Char) (filter : String) (mp p m : String) : Prop :=
  ∃ M P, mp = M ++ " " ++ P ∧ strings.ToLower lowerRune P = p
    ∧ strings.ToLower lowerRune M = m ∧ strings.HasPrefix p filter = true

/-- A definitions table with a cycle: the definition A has a property that refers to A. -/
def cyclicDefinitions : Definitions := [("A", Schema.mk [] [("next", refTo "A")])]

/-- A contract whose first operation has a body parameter that refers to the cyclic
    definition A and whose second operation string is malformed. -/
def cyclicDocument : Document :=
  { OperationMethodPaths := ["POST /a", "GET /x EXTRA"]
    ParamsFor := fun method path =>
      if method = "post" ∧ path = "/a" then [("body#Body", bodyParam "body" (refTo "A"))]
      else []
    Definitions := cyclicDefinitions }

/-- The widgets contract with a further, malformed operation string. -/
def malformedDocument : Document :=
  { widgetDocument with OperationMethodPaths := ["GET /widgets", "GET /x EXTRA"] }

/-- The method and path of an operation string as the loop of AnalyzeSwagger
    normalizes them: the lower-cased tokens. -/
def opKey (lowerRune : Char → Char) (mp : String) : List String :=
  (strings.Split mp ' ').map (strings.ToLower lowerRune)

/-- No unit of the document is registered twice: no two operation strings
    lower-case to the same method and path, and for every method and path the names
    of the query parameters are pairwise distinct and so are the paths registered for
    the body parameters. -/
def DistinctUnits (lowerRune : Char → Char) (fuel : Nat) (document : Document) : Prop :=
  (document.OperationMethodPaths.map (opKey lowerRune)).Nodup
  ∧ ∀ method path,
      (queryRegs (document.ParamsFor method path)).Nodup
      ∧ ∀ bs, bodyRegs fuel document.Definitions (document.ParamsFor method path) = some bs →
          bs.Nodup

/-- The number of units of an endpoint that are keys of its maps, plus the base unit:
    1 + (number of keys of Query) + (number of keys of Body). -/
def keyUnits (e : Endpoint) : Int :=
  1 + ((GoMap.keys e.ParamsHitsDetails.Query).length : Int)
    + ((GoMap.keys e.ParamsHitsDetails.Body).length : Int)

/-- A contract with two paths that differ in case only, each with a GET operation;
    the lower-cased path /foo has the query parameter limit. -/
def duplicateDocument : Document :=
  { OperationMethodPaths := ["GET /Foo", "GET /foo"]
    ParamsFor := fun method path =>
      if method = "get" ∧ path = "/foo" then
        [("query#Limit", { Name := "limit", In := "query", Schema := none })]
      else []
    Definitions := [] }

/-- The endpoint AnalyzeSwagger builds for get /foo of the contract with the paths
    /Foo and /foo. -/
def duplicateEndpoint : Endpoint :=
  { newEndpoint "/foo" "get" with
    ParamsHitsDetails := { Query := [("limit", 0)], Body := [] }
    ExpectedUniqueHits := 3 }

/-- The model AnalyzeSwagger builds for the contract with the paths /Foo and /foo. -/
def duplicateCoverage : Coverage :=
  { emptyCoverage with Endpoints := [("/foo", [("get", duplicateEndpoint)])] }

/-- The post endpoint of the widgets model after more hits were recorded than the
    contract declares units: 10 raw hits against 4 expected, method called. -/
def overshootEndpoint : Endpoint :=
  { newEndpoint "/widgets" "post" with
    ParamsHitsDetails :=
      { Query := [("limit", 0)], Body := [("body.name", 0), ("body.size", 0)] }
    ExpectedUniqueHits := 4
    MethodCalled := true
    UniqueHits := 10 }

/-- The widgets model with the overshooting post endpoint. -/
def overshootCoverage : Coverage :=
  widgetCoverage.update "/widgets" "post" (fun _ => overshootEndpoint)

/-- An endpoint without units: ExpectedUniqueHits = 0, with recorded hits. -/
def degenerateEndpoint : Endpoint :=
  { newEndpoint "/ghost" "get" with ExpectedUniqueHits := 0, MethodCalled := true, UniqueHits := 5 }

/-- The observed widgets model with the endpoint without units added. -/
def degenerateCoverage : Coverage :=
  { observeWidgets widgetCoverage with
    Endpoints := (observeWidgets widgetCoverage).Endpoints ++
      [("/ghost", [("get", degenerateEndpoint)])] }

/-- The post endpoint of the widgets model, called, with one hit recorded. -/
def calledEndpoint : Endpoint :=
  { newEndpoint "/widgets" "post" with
    ParamsHitsDetails :=
      { Query := [("limit", 1)], Body := [("body.name", 0), ("body.size", 0)] }
    ExpectedUniqueHits := 4
    MethodCalled := true
    UniqueHits := 1 }

/-- The widgets model with the called post endpoint. -/
def calledCoverage : Coverage :=
  widgetCoverage.update "/widgets" "post" (fun _ => calledEndpoint)

/-- A definitions table with a cycle of two: A refers to B and B refers to A. -/
def mutualDefinitions : Definitions :=
  [("A", Schema.mk [] [("id", plainSchema), ("b", refTo "B")]),
   ("B", Schema.mk [] [("a", refTo "A")])]

/-- The query parameter limit. -/
def limitParam : Parameter := { Name := "limit", In := "query", Schema := none }

/-- A body parameter without schema. -/
def rawBodyParam : Parameter := { Name := "payload", In := "body", Schema := none }

/-- A header parameter. -/
def headerParam : Parameter := { Name := "X-Trace", In := "header", Schema := none }

/-- A definitions table with one definition, whose property refers to a name that
    is not in the table. -/
def danglingDefinitions : Definitions := [("A", Schema.mk [] [("x", refTo "Missing")])]

/-- The restriction of a coverage to the path keys that start with the given string. -/
def Coverage.restrict (c : Coverage) (f : String) : Coverage :=
  { c with Endpoints := c.Endpoints.filter (fun pe => strings.HasPrefix pe.1 f) }

/-- A contract with operations below two different roots. -/
def mixedDocument : Document :=
  { widgetDocument with
    OperationMethodPaths := ["GET /widgets", "GET /health", "POST /widgets"] }

/-! ## Sameness up to the order of enumeration -/

/-- Two optional values are both absent, or both present and related. -/
def SameOption {α : Type} (R : α → α → Prop) : Option α → Option α → Prop
  | none, none => True
  | some a, some b => R a b
  | _, _ => False

/-- Two Go maps hold the same bindings: every key is bound to the same value in
    both or in neither. -/
def GoMap.Same {V : Type} (m1 m2 : GoMap V) : Prop := ∀ k, GoMap.get? m1 k = GoMap.get? m2 k

/-- Two endpoints are the same as Go values: equal fields, and maps that hold the
    same bindings. -/
def Endpoint.Same (e1 e2 : Endpoint) : Prop :=
  e1.Percent = e2.Percent ∧ e1.MethodCalled = e2.MethodCalled ∧ e1.Path = e2.Path
  ∧ e1.Method = e2.Method ∧ e1.ExpectedUniqueHits = e2.ExpectedUniqueHits
  ∧ e1.UniqueHits = e2.UniqueHits
  ∧ GoMap.Same e1.ParamsHitsDetails.Query e2.ParamsHitsDetails.Query
  ∧ GoMap.Same e1.ParamsHitsDetails.Body e2.ParamsHitsDetails.Body

/-- Two coverages are the same as Go values: equal totals and percent, and at every
    path and method the same endpoint or none. -/
def Coverage.Same (c1 c2 : Coverage) : Prop :=
  c1.ExpectedUniqueHits = c2.ExpectedUniqueHits ∧ c1.UniqueHits = c2.UniqueHits
  ∧ c1.Percent = c2.Percent
  ∧ ∀ p m, SameOption Endpoint.Same (c1.endpoint? p m) (c2.endpoint? p m)

/-- Two outcomes of AnalyzeSwagger are the same: both do not return, or both return
    the same coverage (or both nil) and both an error or both none. -/
def SameOutcome (r1 r2 : Option (Option Coverage × Option String)) : Prop :=
  SameOption (fun a b => SameOption Coverage.Same a.1 b.1 ∧ (a.2.isSome = b.2.isSome)) r1 r2

/-- The second definitions table holds the definitions of the first with their
    properties enumerated in another order. -/
def PermutedDefinitions (d1 d2 : Definitions) : Prop :=
  ∀ name, SameOption (fun s s' => s'.Properties.Perm s.Properties)
    (GoMap.get? d1 name) (GoMap.get? d2 name)

/-- The second document is the first enumerated in another order: the operation
    strings are permuted, the parameters of every operation are permuted, and the
    properties of every definition are permuted. -/
def Document.Permuted (d1 d2 : Document) : Prop :=
  d2.OperationMethodPaths.Perm d1.OperationMethodPaths
  ∧ (∀ method path, (d2.ParamsFor method path).Perm (d1.ParamsFor method path))
  ∧ PermutedDefinitions d1.Definitions d2.Definitions

/-- Concatenation of the lists computed for the elements of a list, none when one
    of them is none. -/
def concatM {α β : Type} (g : α → Option (List β)) : List α → Option (List β)
  | [] => some []
  | x :: rest => (g x).bind (fun a => (concatM g rest).map (fun b => a ++ b))

/-- What the round of the loop of AnalyzeSwagger for an operation string does to
    the coverage: nothing is returned (none), the coverage is left alone (some none),
    or the endpoint at a path and method receives registrations. -/
def opAction (lowerRune : Char → Char) (fuel : Nat) (document : Document) (filter : String)
    (mp : String) : Option (Option (String × String × List String × List String)) :=
  match strings.Split mp ' ' with
  | [v0, v1] =>
    if strings.HasPrefix (strings.ToLower lowerRune v1) filter = true then
      (bodyRegs fuel document.Definitions
          (document.ParamsFor (strings.ToLower lowerRune v0)
            (strings.ToLower lowerRune v1))).map
        (fun bs => some (strings.ToLower lowerRune v1, strings.ToLower lowerRune v0,
          queryRegs (document.ParamsFor (strings.ToLower lowerRune v0)
            (strings.ToLower lowerRune v1)), bs))
    else some none
  | _ => none

/-- The coverage after an action. -/
def applyAction (c : Coverage) :
    Option (String × String × List String × List String) → Coverage
  | none => c
  | some (path, method, qs, bs) =>
    storeEndpoint c path method (registerUnits (currentEndpoint c path method) qs bs)

/-- The round of the loop of AnalyzeSwagger when it continues with a coverage. -/
def okStep (lowerRune : Char → Char) (fuel : Nat) (document : Document) (filter : String)
    (c : Coverage) (mp : String) : Option Coverage :=
  (opAction lowerRune fuel document filter mp).map (applyAction c)

/-- The cyclic contract with its two operation strings in the other order. -/
def reversedCyclicDocument : Document :=
  { cyclicDocument with OperationMethodPaths := ["GET /x EXTRA", "POST /a"] }

/-- A contract with two malformed operation strings. -/
def twoMalformedDocument : Document :=
  { widgetDocument with OperationMethodPaths := ["GET /x EXTRA", "PUT /y EXTRA"] }

/-- The contract with two malformed operation strings, in the other order. -/
def twoMalformedReversed : Document :=
  { widgetDocument with OperationMethodPaths := ["PUT /y EXTRA", "GET /x EXTRA"] }

/-- The widgets contract enumerated in another order: the operations, the
    parameters of POST /widgets and the properties of Widget are swapped. -/
def permutedWidgetDocument : Document :=
  { OperationMethodPaths := ["POST /widgets", "GET /widgets"]
    ParamsFor := fun method path =>
      if method = "post" ∧ path = "/widgets" then
        [("body#Body", bodyParam "body" (refTo "Widget")),
         ("query#Limit", { Name := "limit", In := "query", Schema := none })]
      else []
    Definitions := [("Widget", Schema.mk [] [("size", plainSchema), ("name", plainSchema)])] }

/-- An endpoint whose hit counter holds the largest int: maxInt raw hits against 4
    expected, method called. -/
def maxedEndpoint : Endpoint :=
  { newEndpoint "/widgets" "post" with
    ParamsHitsDetails :=
      { Query := [("limit", 0)], Body := [("body.name", 0), ("body.size", 0)] }
    ExpectedUniqueHits := 4
    MethodCalled := true
    UniqueHits := 9223372036854775807 }

/-- A coverage with stored totals 0 and the one endpoint whose hit counter holds
    the largest int. -/
def maxedCoverage : Coverage :=
  { emptyCoverage with Endpoints := [("/widgets", [("post", maxedEndpoint)])] }

/-! # Properties -/

/-! ## Aggregation: the loops of calculateCoverage -/

theorem calculateMethods_entries (p : String) (t : Totals) (es : GoMap Endpoint) :
    (calculateMethods t es).2.map (fun me => ((p, me.1), me.2))
      = (es.map (fun me => ((p, me.1), me.2))).map (fun a => (a.1, calculateEndpoint a.2))
    ∧ (calculateMethods t es).1
      = (es.map (fun me => calculateEndpoint me.2)).foldl addTotals t := by
  induction es generalizing t with
  | nil => simp [calculateMethods]
  | cons me rest ih =>
    obtain ⟨m, e⟩ := me
    simp only [calculateMethods, List.map_cons, List.foldl_cons]
    exact ⟨by rw [(ih _).1], (ih _).2⟩

theorem calculatePaths_entries (t : Totals) (eps : GoMap (GoMap Endpoint)) :
    entriesOf (calculatePaths t eps).2
      = (entriesOf eps).map (fun a => (a.1, calculateEndpoint a.2))
    ∧ (calculatePaths t eps).1
      = ((entriesOf eps).map (fun a => calculateEndpoint a.2)).foldl addTotals t := by
  induction eps generalizing t with
  | nil => simp [calculatePaths, entriesOf]
  | cons pe rest ih =>
    obtain ⟨p, es⟩ := pe
    simp only [calculatePaths, entriesOf, List.map_append, List.foldl_append]
    refine ⟨?_, ?_⟩
    · rw [(ih _).1, (calculateMethods_entries p t es).1]
    · rw [(ih _).2, (calculateMethods_entries p t es).2]
      simp [List.map_map, Function.comp_def]

/-! ## The arithmetic of Go int -/

theorem wrapInt_of_isGoInt (x : Int) (h : IsGoInt x) : wrapInt x = x := by
  unfold IsGoInt minInt maxInt at h
  unfold wrapInt
  omega

theorem isGoInt_wrapInt (x : Int) : IsGoInt (wrapInt x) := by
  unfold IsGoInt minInt maxInt wrapInt
  omega

theorem wrapInt_wrapInt_add (a b : Int) : wrapInt (wrapInt a + b) = wrapInt (a + b) := by
  unfold wrapInt
  omega

theorem foldl_addTotals (t : Totals) (l : List ((String × String) × Endpoint)) :
    (l.map (fun a => a.2)).foldl addTotals t
      = if l.filter (fun a => decide (a.2.ExpectedUniqueHits > 0)) = [] then t
        else (wrapInt (t.1 + sumPositive (fun e => e.ExpectedUniqueHits) l),
              wrapInt (t.2 + sumPositive (fun e => e.UniqueHits) l)) := by
  induction l generalizing t with
  | nil => simp
  | cons a rest ih =>
    simp only [List.map_cons, List.foldl_cons]
    rw [ih]
    by_cases h : a.2.ExpectedUniqueHits > 0
    · have hne : ¬ (a :: rest).filter (fun a => decide (a.2.ExpectedUniqueHits > 0)) = [] := by
        simp [List.filter_cons, h]
      rw [if_neg hne]
      have hs : ∀ f : Endpoint → Int, sumPositive f (a :: rest) = f a.2 + sumPositive f rest := by
        intro f
        simp [sumPositive, List.filter_cons, h]
      rw [hs, hs]
      simp only [addTotals, h, if_true]
      split_ifs with hr
      · have h0 : ∀ f : Endpoint → Int, sumPositive f rest = 0 := by
          intro f
          simp [sumPositive, hr]
        rw [h0, h0, add_zero, add_zero]
      · simp only [wrapInt_wrapInt_add, add_assoc]
    · have hf : (a :: rest).filter (fun a => decide (a.2.ExpectedUniqueHits > 0))
          = rest.filter (fun a => decide (a.2.ExpectedUniqueHits > 0)) := by
        simp [List.filter_cons, h]
      have hs : ∀ f : Endpoint → Int, sumPositive f (a :: rest) = sumPositive f rest := by
        intro f
        simp [sumPositive, List.filter_cons, h]
      rw [hf, hs, hs]
      simp only [addTotals, h, if_false]

theorem calculateEndpoint_expected (e : Endpoint) :
    (calculateEndpoint e).ExpectedUniqueHits = e.ExpectedUniqueHits := by
  unfold calculateEndpoint
  simp only
  split_ifs <;> rfl

/-- The hits of an endpoint after calculateCoverage, with the wrap-around of the
    credit for the call. -/
theorem calculateEndpoint_hits_wrap (e : Endpoint) :
    (calculateEndpoint e).UniqueHits
      = min (if e.MethodCalled then wrapInt (e.UniqueHits + 1) else e.UniqueHits)
          e.ExpectedUniqueHits := by
  unfold calculateEndpoint
  simp only
  split_ifs <;> simp_all <;> omega

theorem calculateEndpoint_hits (e : Endpoint)
    (h : e.MethodCalled = true → IsGoInt (e.UniqueHits + 1)) :
    (calculateEndpoint e).UniqueHits
      = min (e.UniqueHits + (if e.MethodCalled then 1 else 0)) e.ExpectedUniqueHits := by
  rw [calculateEndpoint_hits_wrap]
  by_cases hc : e.MethodCalled = true
  · simp only [hc, if_true]
    rw [wrapInt_of_isGoInt _ (h hc)]
  · simp [hc]

theorem calculateEndpoint_percent (e : Endpoint)
    (h : (calculateEndpoint e).ExpectedUniqueHits > 0) :
    (calculateEndpoint e).Percent
      = ((calculateEndpoint e).UniqueHits : ℚ) * 100
          / ((calculateEndpoint e).ExpectedUniqueHits : ℚ) := by
  rw [calculateEndpoint_expected] at h
  unfold calculateEndpoint
  simp only
  split_ifs <;> simp_all

theorem calculateCoverage_entries (c : Coverage) :
    (calculateCoverage c).entries = c.entries.map (fun a => (a.1, calculateEndpoint a.2)) :=
  (calculatePaths_entries _ _).1

/-- The totals after calculateCoverage, with the wrap-around of the additions. -/
theorem calculateCoverage_totals_wrap (c : Coverage) :
    (calculateCoverage c).ExpectedUniqueHits
        = (if (calculateCoverage c).entries.filter
              (fun a => decide (a.2.ExpectedUniqueHits > 0)) = [] then c.ExpectedUniqueHits
            else wrapInt (c.ExpectedUniqueHits
              + sumPositive (fun e => e.ExpectedUniqueHits) (calculateCoverage c).entries))
    ∧ (calculateCoverage c).UniqueHits
        = (if (calculateCoverage c).entries.filter
              (fun a => decide (a.2.ExpectedUniqueHits > 0)) = [] then c.UniqueHits
            else wrapInt (c.UniqueHits
              + sumPositive (fun e => e.UniqueHits) (calculateCoverage c).entries)) := by
  have h := (calculatePaths_entries (c.ExpectedUniqueHits, c.UniqueHits) c.Endpoints).2
  have h2 := foldl_addTotals (c.ExpectedUniqueHits, c.UniqueHits)
    (c.entries.map (fun a => (a.1, calculateEndpoint a.2)))
  rw [List.map_map] at h2
  have h3 : (calculatePaths (c.ExpectedUniqueHits, c.UniqueHits) c.Endpoints).1
      = if (calculateCoverage c).entries.filter
            (fun a => decide (a.2.ExpectedUniqueHits > 0)) = [] then
          (c.ExpectedUniqueHits, c.UniqueHits)
        else (wrapInt (c.ExpectedUniqueHits
            + sumPositive (fun e => e.ExpectedUniqueHits) (calculateCoverage c).entries),
          wrapInt (c.UniqueHits
            + sumPositive (fun e => e.UniqueHits) (calculateCoverage c).entries)) := by
    rw [h, calculateCoverage_entries]
    exact h2
  constructor
  · have := congrArg Prod.fst h3
    rw [apply_ite Prod.fst] at this
    exact this
  · have := congrArg Prod.snd h3
    rw [apply_ite Prod.snd] at this
    exact this

/-- The totals after calculateCoverage when the sums stay within the range of int. -/
theorem calculateCoverage_totals (c : Coverage)
    (hE : IsGoInt (c.ExpectedUniqueHits
      + sumPositive (fun e => e.ExpectedUniqueHits) (calculateCoverage c).entries))
    (hU : IsGoInt (c.UniqueHits
      + sumPositive (fun e => e.UniqueHits) (calculateCoverage c).entries)) :
    (calculateCoverage c).ExpectedUniqueHits
        = c.ExpectedUniqueHits
          + sumPositive (fun e => e.ExpectedUniqueHits) (calculateCoverage c).entries
    ∧ (calculateCoverage c).UniqueHits
        = c.UniqueHits + sumPositive (fun e => e.UniqueHits) (calculateCoverage c).entries := by
  obtain ⟨h1, h2⟩ := calculateCoverage_totals_wrap c
  rw [wrapInt_of_isGoInt _ hE] at h1
  rw [wrapInt_of_isGoInt _ hU] at h2
  have h0 : ∀ f : Endpoint → Int,
      (calculateCoverage c).entries.filter
        (fun a => decide (a.2.ExpectedUniqueHits > 0)) = [] →
      sumPositive f (calculateCoverage c).entries = 0 := by
    intro f hnil
    simp [sumPositive, hnil]
  constructor
  · rw [h1]
    split_ifs with hnil
    · rw [h0 _ hnil, add_zero]
    · rfl
  · rw [h2]
    split_ifs with hnil
    · rw [h0 _ hnil, add_zero]
    · rfl

/-- C2, as stated, fails: for the endpoint with raw UniqueHits = maxInt, MethodCalled
    set and ExpectedUniqueHits = 4, the credit for the call wraps around to minInt, the
    clamp does not fire, and UniqueHits after calculateCoverage is minInt and not
    min (raw + 1) 4 = 4. -/
theorem calculateCoverage_formula_counterexample :
    maxedCoverage.endpoint? "/widgets" "post" = some maxedEndpoint
    ∧ maxedEndpoint.UniqueHits = maxInt ∧ maxedEndpoint.MethodCalled = true
    ∧ ((calculateCoverage maxedCoverage).endpoint? "/widgets" "post").map
        (fun e => e.UniqueHits) = some minInt
    ∧ min (maxedEndpoint.UniqueHits + 1) maxedEndpoint.ExpectedUniqueHits = 4 := by
  refine ⟨by decide, by decide, rfl, by decide, by decide⟩

/-- C2, amended: when no addition of calculateCoverage leaves the range of int (raw
    UniqueHits + 1 of every called endpoint, and the two totals), after
    calculateCoverage every entry keeps its path and method and has
    UniqueHits = min (raw UniqueHits + (1 if MethodCalled else 0)) ExpectedUniqueHits;
    an entry with ExpectedUniqueHits > 0 has Percent = UniqueHits * 100 / ExpectedUniqueHits
    as an exact ratio; the totals of the coverage are the totals stored before the call
    plus the sums of the post-clamp UniqueHits and of ExpectedUniqueHits over exactly the
    entries with ExpectedUniqueHits > 0; and the Percent of the coverage is
    total UniqueHits * 100 / total ExpectedUniqueHits when the total expected is > 0, else 0. -/
theorem calculateCoverage_formula (c : Coverage)
    (hcredit : ∀ a ∈ c.entries, a.2.MethodCalled = true → IsGoInt (a.2.UniqueHits + 1))
    (hE : IsGoInt (c.ExpectedUniqueHits
      + sumPositive (fun e => e.ExpectedUniqueHits) (calculateCoverage c).entries))
    (hU : IsGoInt (c.UniqueHits
      + sumPositive (fun e => e.UniqueHits) (calculateCoverage c).entries)) :
    List.Forall₂
        (fun a b => b.1 = a.1
          ∧ b.2.UniqueHits
              = min (a.2.UniqueHits + (if a.2.MethodCalled then 1 else 0)) a.2.ExpectedUniqueHits
          ∧ (b.2.ExpectedUniqueHits > 0 →
              b.2.Percent = (b.2.UniqueHits : ℚ) * 100 / (b.2.ExpectedUniqueHits : ℚ)))
        c.entries (calculateCoverage c).entries
    ∧ (calculateCoverage c).UniqueHits
        = c.UniqueHits + sumPositive (fun e => e.UniqueHits) (calculateCoverage c).entries
    ∧ (calculateCoverage c).ExpectedUniqueHits
        = c.ExpectedUniqueHits
          + sumPositive (fun e => e.ExpectedUniqueHits) (calculateCoverage c).entries
    ∧ (calculateCoverage c).Percent
        = if (calculateCoverage c).ExpectedUniqueHits > 0 then
            ((calculateCoverage c).UniqueHits : ℚ) * 100
              / ((calculateCoverage c).ExpectedUniqueHits : ℚ)
          else 0 := by
  refine ⟨?_, (calculateCoverage_totals c hE hU).2, (calculateCoverage_totals c hE hU).1, rfl⟩
  rw [calculateCoverage_entries, List.forall₂_map_right_iff]
  exact List.forall₂_same.mpr (fun a ha =>
    ⟨rfl, calculateEndpoint_hits a.2 (hcredit a ha), calculateEndpoint_percent a.2⟩)

theorem calculateCoverage_formula_witness :
    List.Forall₂
        (fun a b => b.1 = a.1
          ∧ b.2.UniqueHits
              = min (a.2.UniqueHits + (if a.2.MethodCalled then 1 else 0)) a.2.ExpectedUniqueHits
          ∧ (b.2.ExpectedUniqueHits > 0 →
              b.2.Percent = (b.2.UniqueHits : ℚ) * 100 / (b.2.ExpectedUniqueHits : ℚ)))
        overshootCoverage.entries (calculateCoverage overshootCoverage).entries
    ∧ (calculateCoverage overshootCoverage).UniqueHits
        = overshootCoverage.UniqueHits
          + sumPositive (fun e => e.UniqueHits) (calculateCoverage overshootCoverage).entries
    ∧ (calculateCoverage overshootCoverage).ExpectedUniqueHits
        = overshootCoverage.ExpectedUniqueHits
          + sumPositive (fun e => e.ExpectedUniqueHits)
              (calculateCoverage overshootCoverage).entries
    ∧ (calculateCoverage overshootCoverage).Percent
        = if (calculateCoverage overshootCoverage).ExpectedUniqueHits > 0 then
            ((calculateCoverage overshootCoverage).UniqueHits : ℚ) * 100
              / ((calculateCoverage overshootCoverage).ExpectedUniqueHits : ℚ)
          else 0 :=
  calculateCoverage_formula overshootCoverage (by decide) (by decide) (by decide)

theorem calculateEndpoint_le (e : Endpoint) :
    (calculateEndpoint e).UniqueHits ≤ (calculateEndpoint e).ExpectedUniqueHits := by
  rw [calculateEndpoint_hits_wrap, calculateEndpoint_expected]
  exact min_le_right _ _

/-- C3: after calculateCoverage every entry of the endpoint map has
    UniqueHits ≤ ExpectedUniqueHits, whatever the values stored before the call. -/
theorem calculateCoverage_saturation (c : Coverage) :
    ∀ a ∈ (calculateCoverage c).entries, a.2.UniqueHits ≤ a.2.ExpectedUniqueHits := by
  intro a ha
  rw [calculateCoverage_entries, List.mem_map] at ha
  obtain ⟨b, _, rfl⟩ := ha
  exact calculateEndpoint_le b.2

theorem calculateCoverage_saturation_witness :
    ((("/widgets", "post"), calculateEndpoint overshootEndpoint)
        ∈ (calculateCoverage overshootCoverage).entries)
    ∧ (calculateEndpoint overshootEndpoint).UniqueHits = 4
    ∧ (calculateEndpoint overshootEndpoint).UniqueHits
        ≤ (calculateEndpoint overshootEndpoint).ExpectedUniqueHits := by
  have hmem : (("/widgets", "post"), calculateEndpoint overshootEndpoint)
      ∈ (calculateCoverage overshootCoverage).entries := by
    rw [calculateCoverage_entries]
    exact List.mem_map_of_mem (fun a => (a.1, calculateEndpoint a.2))
      (by decide : (("/widgets", "post"), overshootEndpoint) ∈ overshootCoverage.entries)
  exact ⟨hmem, by decide, calculateCoverage_saturation overshootCoverage _ hmem⟩

/-! ## Go maps -/

namespace GoMap

variable {V : Type}

theorem get?_set (m : GoMap V) (k k' : String) (v : V) :
    (m.set k v).get? k' = if k = k' then some v else m.get? k' := by
  induction m with
  | nil => simp [set, get?]
  | cons a rest ih =>
    obtain ⟨a1, a2⟩ := a
    by_cases h : a1 = k
    · subst h
      by_cases h' : a1 = k' <;> simp [set, get?, h']
    · by_cases h' : k = k'
      · subst h'
        simp [set, get?, h, ih]
      · simp [set, get?, h, ih, h']

theorem get?_set_self (m : GoMap V) (k : String) (v : V) : (m.set k v).get? k = some v := by
  simp [get?_set]

theorem get?_set_ne (m : GoMap V) {k k' : String} (v : V) (h : k ≠ k') :
    (m.set k v).get? k' = m.get? k' := by
  simp [get?_set, h]

theorem get?_isSome_iff_mem_keys (m : GoMap V) (k : String) :
    (m.get? k).isSome ↔ k ∈ m.keys := by
  induction m with
  | nil => simp [get?, keys]
  | cons a rest ih =>
    obtain ⟨a1, a2⟩ := a
    by_cases h : a1 = k
    · simp [get?, keys, h]
    · have ih' : (get? rest k).isSome = true ↔ k ∈ List.map Prod.fst rest := ih
      simp [get?, keys, h, ih', Ne.symm h]

theorem get?_eq_none_iff (m : GoMap V) (k : String) : m.get? k = none ↔ k ∉ m.keys := by
  rw [← get?_isSome_iff_mem_keys]
  cases m.get? k <;> simp

theorem mem_of_get? (m : GoMap V) (k : String) (v : V) (h : m.get? k = some v) :
    (k, v) ∈ m := by
  induction m with
  | nil => simp [get?] at h
  | cons a rest ih =>
    obtain ⟨a1, a2⟩ := a
    by_cases h' : a1 = k
    · simp [get?, h'] at h
      simp [h, h']
    · simp [get?, h'] at h
      exact List.mem_cons_of_mem _ (ih h)

theorem keys_set (m : GoMap V) (k : String) (v : V) :
    (m.set k v).keys = if k ∈ m.keys then m.keys else m.keys ++ [k] := by
  induction m with
  | nil => simp [set, keys]
  | cons a rest ih =>
    obtain ⟨a1, a2⟩ := a
    have ih' : List.map Prod.fst (set rest k v)
        = if k ∈ List.map Prod.fst rest then List.map Prod.fst rest
          else List.map Prod.fst rest ++ [k] := ih
    by_cases h : a1 = k
    · simp [set, keys, h]
    · by_cases h2 : k ∈ List.map Prod.fst rest
      · simp [set, keys, h, ih', h2]
      · simp [set, keys, h, ih', h2, Ne.symm h]

theorem length_set (m : GoMap V) (k : String) (v : V) :
    (m.set k v).length = if k ∈ m.keys then m.length else m.length + 1 := by
  have h := congrArg List.length (keys_set m k v)
  unfold keys at h
  rw [List.length_map] at h
  rw [h]
  unfold keys
  split_ifs <;> simp

theorem nodup_keys_set (m : GoMap V) (k : String) (v : V) (h : m.keys.Nodup) :
    (m.set k v).keys.Nodup := by
  rw [keys_set]
  split_ifs with hk
  · exact h
  · exact List.Nodup.append h (List.nodup_singleton k) (by simpa using hk)

end GoMap

/-! ## Reference resolution: extractDefParams against the registered paths -/

theorem registerAll_append (m : GoMap Int) (a b : List String) :
    registerAll m (a ++ b) = registerAll (registerAll m a) b := by
  simp [registerAll, List.foldl_append]

theorem foldlM_extractPropStep
    (recCall : Schema → String → GoMap Int → Option (Int × GoMap Int))
    (recLeaves : Schema → String → Option (List String))
    (hrec : ∀ p path m, recCall p path m
      = (recLeaves p path).map (fun ks => ((ks.length : Int), registerAll m ks)))
    (paramPath : String) (l : List (String × Schema)) (c : Int) (m : GoMap Int) :
    l.foldlM (extractPropStep recCall paramPath) (c, m)
      = (propLeaves recLeaves paramPath l).map
          (fun ks => (c + (ks.length : Int), registerAll m ks)) := by
  induction l generalizing c m with
  | nil => simp [propLeaves, registerAll]
  | cons np rest ih =>
    have hstep : extractPropStep recCall paramPath (c, m) np
        = (if 0 < np.2.Ref.length then recLeaves np.2 (paramPath ++ "." ++ np.1)
            else some [paramPath ++ "." ++ np.1]).map
            (fun a => (c + (a.length : Int), registerAll m a)) := by
      unfold extractPropStep
      by_cases href : 0 < np.2.Ref.length
      · simp only [href, if_true, hrec, Option.map_map]
        rfl
      · simp [href, registerAll]
    rw [List.foldlM_cons, hstep]
    unfold propLeaves
    cases (if 0 < np.2.Ref.length then recLeaves np.2 (paramPath ++ "." ++ np.1)
            else some [paramPath ++ "." ++ np.1]) with
    | none => simp
    | some a =>
      simp only [Option.map_some', Option.some_bind, Option.bind_eq_bind, ih]
      cases propLeaves recLeaves paramPath rest with
      | none => simp
      | some b => simp [registerAll_append, add_assoc]

/-- The result of extractDefParams in terms of the registered paths: the count is
    the number of registrations and the map is the old map with every path registered. -/
theorem extractDefParams_eq (fuel : Nat) (schema : Schema) (definitions : Definitions)
    (paramPath : String) (params : GoMap Int) :
    extractDefParams fuel schema definitions paramPath params
      = (leafPaths fuel schema definitions paramPath).map
          (fun ks => ((ks.length : Int), registerAll params ks)) := by
  induction fuel generalizing schema paramPath params with
  | zero => simp [extractDefParams, leafPaths]
  | succ fuel ih =>
    unfold extractDefParams leafPaths
    split
    · split_ifs with h1
      · simp [registerAll]
      · split
        · simp [registerAll]
        · split_ifs with h2
          · rw [foldlM_extractPropStep _ (fun p path => leafPaths fuel p definitions path)
              (fun p path m => ih p path m)]
            simp
          · simp [registerAll]
    · simp [registerAll]

/-! ## Reference resolution: fuel -/

theorem propLeaves_mono (r1 r2 : Schema → String → Option (List String))
    (h : ∀ p path ks, r1 p path = some ks → r2 p path = some ks)
    (paramPath : String) (l : List (String × Schema)) (ks : List String)
    (hl : propLeaves r1 paramPath l = some ks) : propLeaves r2 paramPath l = some ks := by
  induction l generalizing ks with
  | nil => simpa [propLeaves] using hl
  | cons np rest ih =>
    unfold propLeaves at hl ⊢
    by_cases href : 0 < np.2.Ref.length
    · simp only [href, if_true] at hl ⊢
      cases h1 : r1 np.2 (paramPath ++ "." ++ np.1) with
      | none => simp [h1] at hl
      | some a =>
        rw [h1] at hl
        rw [h _ _ _ h1]
        simp only [Option.some_bind, Option.bind_eq_bind] at hl ⊢
        cases h2 : propLeaves r1 paramPath rest with
        | none => simp [h2] at hl
        | some b =>
          rw [h2] at hl
          rw [ih b h2]
          exact hl
    · simp only [href, if_false, Option.some_bind, Option.bind_eq_bind] at hl ⊢
      cases h2 : propLeaves r1 paramPath rest with
      | none => simp [h2] at hl
      | some b =>
        rw [h2] at hl
        rw [ih b h2]
        exact hl

/-- A result obtained with some fuel is obtained with every larger fuel. -/
theorem leafPaths_succ (fuel : Nat) (schema : Schema) (definitions : Definitions)
    (paramPath : String) (ks : List String)
    (h : leafPaths fuel schema definitions paramPath = some ks) :
    leafPaths (fuel + 1) schema definitions paramPath = some ks := by
  induction fuel generalizing schema paramPath ks with
  | zero => simp [leafPaths] at h
  | succ fuel ih =>
    unfold leafPaths at h ⊢
    split
    · rename_i refType refName tl heq
      rw [heq] at h
      simp only at h
      split_ifs with h1
      · simpa [h1] using h
      · simp only [h1, if_false] at h
        split
        · rename_i hget
          simpa [hget] using h
        · rename_i d hget
          rw [hget] at h
          simp only at h
          split_ifs with h2
          · simp only [h2, if_true] at h
            exact propLeaves_mono _ _ (fun p path ks hk => ih p path ks hk) _ _ _ h
          · simpa [h2] using h
    · rename_i hne
      split at h
      · rename_i refType refName tl heq
        exact absurd heq (hne refType refName tl)
      · exact h

theorem leafPaths_mono {fuel fuel' : Nat} (hle : fuel ≤ fuel') (schema : Schema)
    (definitions : Definitions) (paramPath : String) (ks : List String)
    (h : leafPaths fuel schema definitions paramPath = some ks) :
    leafPaths fuel' schema definitions paramPath = some ks := by
  induction hle with
  | refl => exact h
  | step _ ih => exact leafPaths_succ _ _ _ _ _ ih

theorem extractDefParams_mono {fuel fuel' : Nat} (hle : fuel ≤ fuel') (schema : Schema)
    (definitions : Definitions) (paramPath : String) (params : GoMap Int)
    (r : Int × GoMap Int)
    (h : extractDefParams fuel schema definitions paramPath params = some r) :
    extractDefParams fuel' schema definitions paramPath params = some r := by
  rw [extractDefParams_eq] at h ⊢
  cases hl : leafPaths fuel schema definitions paramPath with
  | none => simp [hl] at h
  | some ks =>
    rw [hl] at h
    rw [leafPaths_mono hle _ _ _ _ hl]
    exact h

theorem propLeaves_eq_none (r : Schema → String → Option (List String))
    (paramPath : String) (l : List (String × Schema))
    (h : propLeaves r paramPath l = none) :
    ∃ np ∈ l, 0 < np.2.Ref.length ∧ r np.2 (paramPath ++ "." ++ np.1) = none := by
  induction l with
  | nil => simp [propLeaves] at h
  | cons np rest ih =>
    unfold propLeaves at h
    by_cases href : 0 < np.2.Ref.length
    · simp only [href, if_true] at h
      cases h1 : r np.2 (paramPath ++ "." ++ np.1) with
      | none => exact ⟨np, List.mem_cons_self _ _, href, h1⟩
      | some a =>
        rw [h1] at h
        simp only [Option.some_bind, Option.bind_eq_bind, Option.map_eq_none'] at h
        obtain ⟨np', hmem, h'⟩ := ih h
        exact ⟨np', List.mem_cons_of_mem _ hmem, h'⟩
    · simp only [href, if_false, Option.some_bind, Option.bind_eq_bind,
        Option.map_eq_none'] at h
      obtain ⟨np', hmem, h'⟩ := ih h
      exact ⟨np', List.mem_cons_of_mem _ hmem, h'⟩

/-- When the fuel is used up, the calls in progress follow a path of
    that many definitions in the reference graph, starting at the definition the
    schema refers to. -/
theorem leafPaths_eq_none_chain (fuel : Nat) (schema : Schema) (definitions : Definitions)
    (paramPath : String) (h : leafPaths fuel schema definitions paramPath = none) :
    ∃ chain : List String, chain.length = fuel
      ∧ List.Chain' (RefEdge definitions) chain
      ∧ (∀ x ∈ chain, x ∈ GoMap.keys definitions)
      ∧ (∀ d, chain.head? = some d → refTarget schema = some d) := by
  induction fuel generalizing schema paramPath with
  | zero => exact ⟨[], rfl, List.chain'_nil, by simp, by simp⟩
  | succ fuel ih =>
    unfold leafPaths at h
    split at h
    · rename_i refType refName tl heq
      split_ifs at h with h1
      split at h
      · simp at h
      · rename_i d hget
        split_ifs at h with h2
        obtain ⟨np, hmem, href, hnone⟩ := propLeaves_eq_none _ _ _ h
        obtain ⟨chain, hlen, hchain, hkeys, hhead⟩ := ih np.2 _ hnone
        have htarget : refTarget schema = some refName := by
          unfold refTarget
          rw [heq]
          simp only [ne_eq, not_not] at h1
          simp [h1]
        refine ⟨refName :: chain, by simp [hlen], ?_, ?_, ?_⟩
        · cases chain with
          | nil => exact List.chain'_singleton _
          | cons c rest =>
            refine List.chain'_cons.mpr ⟨?_, hchain⟩
            exact ⟨d, hget, np, hmem, hhead c rfl⟩
        · intro x hx
          rcases List.mem_cons.mp hx with rfl | hx
          · exact (GoMap.get?_isSome_iff_mem_keys _ _).mp (by simp [hget])
          · exact hkeys x hx
        · intro d' hd'
          simp only [List.head?_cons, Option.some.injEq] at hd'
          rw [← hd']
          exact htarget
    · simp at h

/-- On an acyclic definitions table, reference resolution ends with fuel the number
    of definitions plus one. -/
theorem leafPaths_isSome_of_acyclic (definitions : Definitions) (hac : Acyclic definitions)
    (schema : Schema) (paramPath : String) :
    (leafPaths (definitions.length + 1) schema definitions paramPath).isSome := by
  cases h : leafPaths (definitions.length + 1) schema definitions paramPath with
  | some ks => rfl
  | none =>
    exfalso
    obtain ⟨chain, hlen, hchain, hkeys, _⟩ := leafPaths_eq_none_chain _ _ _ _ h
    have hpw : List.Pairwise (Relation.TransGen (RefEdge definitions)) chain :=
      List.chain'_iff_pairwise.mp
        (hchain.imp (fun _ _ hab => Relation.TransGen.single hab))
    have hnd : chain.Nodup := by
      unfold List.Nodup
      refine hpw.imp ?_
      intro a b hab heq
      rw [← heq] at hab
      exact hac a hab
    have hle := (List.subperm_of_subset hnd hkeys).length_le
    simp only [GoMap.keys, List.length_map] at hle
    omega

/-! ## Registered paths -/

theorem get?_registerAll (m : GoMap Int) (ks : List String) (k : String) :
    (registerAll m ks).get? k = if k ∈ ks then some 0 else m.get? k := by
  induction ks generalizing m with
  | nil => simp [registerAll]
  | cons a rest ih =>
    have h : registerAll m (a :: rest) = registerAll (m.set a 0) rest := rfl
    rw [h, ih, GoMap.get?_set]
    by_cases h1 : k ∈ rest
    · simp [h1]
    · by_cases h2 : a = k
      · simp [h2]
      · simp [h1, h2, Ne.symm h2]

theorem length_registerAll_le (m : GoMap Int) (ks : List String) :
    (registerAll m ks).length ≤ m.length + ks.length := by
  induction ks generalizing m with
  | nil => simp [registerAll]
  | cons a rest ih =>
    have h : registerAll m (a :: rest) = registerAll (m.set a 0) rest := rfl
    rw [h]
    have h1 := ih (m.set a 0)
    have h2 : (m.set a 0).length ≤ m.length + 1 := by
      rw [GoMap.length_set]
      split_ifs <;> omega
    simp only [List.length_cons]
    omega

theorem nodup_keys_registerAll (m : GoMap Int) (ks : List String) (h : m.keys.Nodup) :
    (registerAll m ks).keys.Nodup := by
  induction ks generalizing m with
  | nil => simpa [registerAll] using h
  | cons a rest ih => exact ih (m.set a 0) (GoMap.nodup_keys_set m a 0 h)

theorem dotted_injective (p : String) : Function.Injective (fun n : String => p ++ "." ++ n) := by
  intro a b h
  have h' := congrArg String.data h
  simp only [String.data_append] at h'
  exact String.ext (List.append_cancel_left h')

theorem dotted_ne (p n : String) : p ++ "." ++ n ≠ p := by
  intro h
  have h' := congrArg (fun s => s.data.length) h
  simp only [String.data_append, List.length_append] at h'
  have h1 : ".".data.length = 1 := rfl
  rw [h1] at h'
  omega

theorem propLeaves_flat (r : Schema → String → Option (List String)) (paramPath : String)
    (l : List (String × Schema)) (h : ∀ np ∈ l, np.2.Ref = []) :
    propLeaves r paramPath l = some (l.map (fun np => paramPath ++ "." ++ np.1)) := by
  induction l with
  | nil => rfl
  | cons np rest ih =>
    unfold propLeaves
    have h1 : np.2.Ref = [] := h np (List.mem_cons_self _ _)
    rw [ih (fun x hx => h x (List.mem_cons_of_mem _ hx))]
    simp [h1]

/-- The paths registered for a schema that refers to a bound definition, in
    terms of the properties of that definition. -/
theorem leafPaths_resolved (fuel : Nat) (schema : Schema) (definitions : Definitions)
    (paramPath name : String) (tl : List String) (d : Schema)
    (href : schema.Ref = "definitions" :: name :: tl)
    (hget : definitions.get? name = some d) :
    leafPaths (fuel + 1) schema definitions paramPath
      = if 0 < d.Properties.length then
          propLeaves (fun p path => leafPaths fuel p definitions path) paramPath d.Properties
        else some [paramPath] := by
  rw [leafPaths, href]
  simp [hget]

/-- The paths registered for a schema whose reference cannot be resolved: none. -/
theorem leafPaths_unresolved (fuel : Nat) (schema : Schema) (definitions : Definitions)
    (paramPath : String)
    (h : schema.Ref.length < 2 ∨ schema.Ref.head? ≠ some "definitions"
      ∨ ∀ name, schema.Ref.tail.head? = some name → definitions.get? name = none) :
    leafPaths (fuel + 1) schema definitions paramPath = some [] := by
  unfold leafPaths
  split
  · rename_i refType refName tl heq
    rw [heq] at h
    rcases h with h | h | h
    · simp only [List.length_cons] at h
      omega
    · have : refType ≠ "definitions" := by simpa using h
      simp [this]
    · have hn := h refName (by simp)
      split_ifs
      · rfl
      · simp [hn]
  · rfl

/-! ## Acyclic tables -/

theorem mem_edgesOf (definitions : Definitions) (a b : String)
    (h : RefEdge definitions a b) : (a, b) ∈ edgesOf definitions := by
  obtain ⟨d, hget, np, hmem, htarget⟩ := h
  unfold edgesOf
  rw [List.mem_flatten]
  refine ⟨_, List.mem_map.mpr ⟨(a, d), GoMap.mem_of_get? _ _ _ hget, rfl⟩, ?_⟩
  rw [List.mem_filterMap]
  exact ⟨np, hmem, by simp [htarget]⟩

/-- A table whose edges all go down in some rank is acyclic. -/
theorem acyclic_of_rank (definitions : Definitions) (rank : String → Nat)
    (h : ∀ e ∈ edgesOf definitions, rank e.2 < rank e.1) : Acyclic definitions := by
  have hlt : ∀ a b, Relation.TransGen (RefEdge definitions) a b → rank b < rank a := by
    intro a b hab
    induction hab with
    | single hab => exact h _ (mem_edgesOf _ _ _ hab)
    | tail _ hbc ih => exact lt_trans (h _ (mem_edgesOf _ _ _ hbc)) ih
  intro a haa
  exact lt_irrefl _ (hlt a a haa)

/-! ## One body parameter -/

theorem addSwaggerParam_body (fuel : Nat) (definitions : Definitions) (endpoint : Endpoint)
    (p : String) (schema : Schema) :
    addSwaggerParam fuel definitions endpoint (bodyParam p schema)
      = (leafPaths fuel schema definitions p).map (fun ks =>
          { endpoint with
            ParamsHitsDetails :=
              { endpoint.ParamsHitsDetails with
                Body := registerAll endpoint.ParamsHitsDetails.Body ks }
            ExpectedUniqueHits := endpoint.ExpectedUniqueHits + (ks.length : Int) }) := by
  unfold addSwaggerParam bodyParam
  simp only [if_true, extractDefParams_eq, Option.map_map]
  rfl

theorem registersLeaves_of_leafPaths (fuel : Nat) (definitions : Definitions)
    (schema : Schema) (p : String) (leaves : List String)
    (h : leafPaths fuel schema definitions p = some leaves) :
    RegistersLeaves fuel definitions schema p leaves := by
  constructor
  · intro params
    exact ⟨registerAll params leaves, by rw [extractDefParams_eq, h]; rfl,
      get?_registerAll params leaves⟩
  · intro endpoint
    exact ⟨registerAll endpoint.ParamsHitsDetails.Body leaves,
      by rw [addSwaggerParam_body, h]; rfl, get?_registerAll _ leaves⟩

/-! ## Claims on one body parameter -/

theorem addSwaggerParam_body_nil (fuel : Nat) (definitions : Definitions) (endpoint : Endpoint)
    (p : String) (schema : Schema) (h : leafPaths fuel schema definitions p = some []) :
    addSwaggerParam fuel definitions endpoint (bodyParam p schema) = some endpoint := by
  rw [addSwaggerParam_body, h]
  simp [registerAll]

/-- C4: for a body parameter named p whose schema refers to a bound local definition,
    none of whose properties carries a reference: when the definition has N ≥ 1
    properties, the N paths p.<propertyName> are pairwise distinct, extractDefParams
    returns N and registers exactly these paths with count 0, and the endpoint's
    ExpectedUniqueHits grows by N; when the definition has no properties, exactly the
    one path p is registered and counted. -/
theorem extractDefParams_flat_reference (fuel : Nat) (definitions : Definitions)
    (schema d : Schema) (name p : String) (tl : List String)
    (href : schema.Ref = "definitions" :: name :: tl)
    (hget : definitions.get? name = some d)
    (hflat : ∀ np ∈ d.Properties, np.2.Ref = [])
    (hkeys : (GoMap.keys d.Properties).Nodup) :
    (0 < d.Properties.length →
        ((GoMap.keys d.Properties).map (fun n => p ++ "." ++ n)).Nodup
        ∧ ((GoMap.keys d.Properties).map (fun n => p ++ "." ++ n)).length = d.Properties.length
        ∧ RegistersLeaves (fuel + 1) definitions schema p
            ((GoMap.keys d.Properties).map (fun n => p ++ "." ++ n)))
    ∧ (d.Properties.length = 0 → RegistersLeaves (fuel + 1) definitions schema p [p]) := by
  have hres := leafPaths_resolved fuel schema definitions p name tl d href hget
  constructor
  · intro hN
    refine ⟨hkeys.map (dotted_injective p), by simp [GoMap.keys], ?_⟩
    apply registersLeaves_of_leafPaths
    rw [hres, if_pos hN, propLeaves_flat _ _ _ hflat]
    simp [GoMap.keys]
  · intro h0
    apply registersLeaves_of_leafPaths
    rw [hres, if_neg (by omega)]

theorem extractDefParams_flat_reference_witness :
    RegistersLeaves 1 widgetDefinitions (refTo "Widget") "body" ["body.name", "body.size"]
    ∧ RegistersLeaves 1 emptyDefinitions (refTo "Empty") "body" ["body"] :=
  ⟨((extractDefParams_flat_reference 0 widgetDefinitions (refTo "Widget")
        (Schema.mk [] [("name", plainSchema), ("size", plainSchema)]) "Widget" "body" []
        rfl rfl (by decide) (by decide)).1 (by decide)).2.2,
    (extractDefParams_flat_reference 0 emptyDefinitions (refTo "Empty")
        (Schema.mk [] []) "Empty" "body" [] rfl rfl (by decide) (by decide)).2 rfl⟩

/-- C7: for a schema whose reference has fewer than two tokens, or whose first token
    is not the definitions marker, or whose second token is not a key of the definitions
    table, extractDefParams returns 0 and the params map unchanged, and addSwaggerParams
    leaves the endpoint (its ExpectedUniqueHits included) unchanged for a body parameter
    with that schema. -/
theorem extractDefParams_unresolvable (fuel : Nat) (definitions : Definitions)
    (schema : Schema) (p : String)
    (h : schema.Ref.length < 2
      ∨ (∃ refType tl, schema.Ref = refType :: tl ∧ refType ≠ "definitions")
      ∨ (∃ refType refName tl, schema.Ref = refType :: refName :: tl
          ∧ refName ∉ GoMap.keys definitions)) :
    (∀ params : GoMap Int,
      extractDefParams (fuel + 1) schema definitions p params = some (0, params))
    ∧ (∀ endpoint : Endpoint,
      addSwaggerParam (fuel + 1) definitions endpoint (bodyParam p schema) = some endpoint) := by
  have hl : leafPaths (fuel + 1) schema definitions p = some [] := by
    apply leafPaths_unresolved
    rcases h with h | ⟨t0, tl, h1, h2⟩ | ⟨t0, n, tl, h1, h2⟩
    · exact Or.inl h
    · refine Or.inr (Or.inl ?_)
      rw [h1]
      simpa using h2
    · refine Or.inr (Or.inr ?_)
      intro name hname
      rw [h1] at hname
      simp only [List.tail_cons, List.head?_cons, Option.some.injEq] at hname
      rw [← hname]
      exact (GoMap.get?_eq_none_iff _ _).mpr h2
  constructor
  · intro params
    rw [extractDefParams_eq, hl]
    rfl
  · intro endpoint
    exact addSwaggerParam_body_nil _ _ _ _ _ hl

theorem extractDefParams_unresolvable_witness :
    extractDefParams 1 (refTo "Missing") widgetDefinitions "body" [("limit", 0)]
        = some (0, [("limit", 0)])
    ∧ addSwaggerParam 1 widgetDefinitions (newEndpoint "/widgets" "post")
        (bodyParam "body" (refTo "Missing")) = some (newEndpoint "/widgets" "post") :=
  ⟨(extractDefParams_unresolvable 0 widgetDefinitions (refTo "Missing") "body"
      (Or.inr (Or.inr ⟨"definitions", "Missing", [], rfl, by decide⟩))).1 _,
    (extractDefParams_unresolvable 0 widgetDefinitions (refTo "Missing") "body"
      (Or.inr (Or.inr ⟨"definitions", "Missing", [], rfl, by decide⟩))).2 _⟩

/-- C6: the code diverges from the claim. For the body parameter named body with a
    schema without reference, extractDefParams returns 0 and registers nothing (the
    guard on the number of tokens of the reference), at no fuel it returns 1 with the
    path body registered, and the endpoint keeps ExpectedUniqueHits = 1 and an empty
    body map. At the two sibling places the item without reference is one leaf: a
    property without reference is registered and counted by the loop over the
    properties, and a body parameter without schema is registered and counted by
    addSwaggerParams. -/
theorem extractDefParams_inline_divergence :
    extractDefParams 1 plainSchema widgetDefinitions "body" [] = some (0, [])
    ∧ (∀ fuel, extractDefParams fuel plainSchema widgetDefinitions "body" []
        ≠ some (1, [("body", 0)]))
    ∧ (addSwaggerParam 1 widgetDefinitions (newEndpoint "/widgets" "post")
        (bodyParam "body" plainSchema)).map
          (fun e => (e.ExpectedUniqueHits, e.ParamsHitsDetails.Body)) = some (1, [])
    ∧ extractPropStep (fun _ _ _ => none) "body" (0, []) ("name", plainSchema)
        = some (1, [("body.name", 0)])
    ∧ (addSwaggerParam 1 widgetDefinitions (newEndpoint "/widgets" "post")
        rawBodyParam).map
          (fun e => (e.ExpectedUniqueHits, e.ParamsHitsDetails.Body))
        = some (2, [("payload", 0)]) := by
  refine ⟨rfl, ?_, rfl, rfl, rfl⟩
  intro fuel
  cases fuel with
  | zero => simp [extractDefParams]
  | succ n => simp [extractDefParams, plainSchema, Schema.Ref]

/-! ## Nested references -/

/-- The loop over the properties, when it ends: every recursive call ended, the
    number of registered paths is the sum over the properties, and the registered
    paths are those of the properties. -/
theorem propLeaves_spec (r : Schema → String → Option (List String)) (paramPath : String)
    (l : List (String × Schema)) (ks : List String) (h : propLeaves r paramPath l = some ks) :
    (∀ np ∈ l, 0 < np.2.Ref.length → (r np.2 (paramPath ++ "." ++ np.1)).isSome)
    ∧ (ks.length : Int)
        = (l.map (fun np => if 0 < np.2.Ref.length then
            (((r np.2 (paramPath ++ "." ++ np.1)).getD []).length : Int) else 1)).sum
    ∧ (∀ k, k ∈ ks ↔ ∃ np ∈ l, (np.2.Ref.length = 0 ∧ k = paramPath ++ "." ++ np.1)
        ∨ (0 < np.2.Ref.length ∧ k ∈ (r np.2 (paramPath ++ "." ++ np.1)).getD [])) := by
  induction l generalizing ks with
  | nil =>
    simp only [propLeaves, Option.some.injEq] at h
    subst h
    simp
  | cons np rest ih =>
    unfold propLeaves at h
    by_cases href : 0 < np.2.Ref.length
    · simp only [href, if_true] at h
      cases h1 : r np.2 (paramPath ++ "." ++ np.1) with
      | none => simp [h1] at h
      | some a =>
        rw [h1] at h
        simp only [Option.some_bind, Option.bind_eq_bind] at h
        cases h2 : propLeaves r paramPath rest with
        | none => simp [h2] at h
        | some b =>
          rw [h2] at h
          simp only [Option.map_some', Option.some.injEq] at h
          subst h
          obtain ⟨i1, i2, i3⟩ := ih b h2
          refine ⟨?_, ?_, ?_⟩
          · intro x hx hxr
            rcases List.mem_cons.mp hx with rfl | hx
            · simp [h1]
            · exact i1 x hx hxr
          · simp only [List.length_append, Nat.cast_add, List.map_cons, List.sum_cons, href,
              if_true, h1, Option.getD_some, i2]
          · intro k
            simp only [List.mem_append, i3 k, List.mem_cons, exists_eq_or_imp, h1,
              Option.getD_some, href, true_and]
            constructor
            · rintro (hk | hk)
              · exact Or.inl (Or.inr hk)
              · exact Or.inr hk
            · rintro ((⟨h0, _⟩ | hk) | hk)
              · omega
              · exact Or.inl hk
              · exact Or.inr hk
    · simp only [href, if_false, Option.some_bind, Option.bind_eq_bind] at h
      cases h2 : propLeaves r paramPath rest with
      | none => simp [h2] at h
      | some b =>
        rw [h2] at h
        simp only [Option.map_some', Option.some.injEq] at h
        subst h
        obtain ⟨i1, i2, i3⟩ := ih b h2
        have h0 : np.2.Ref.length = 0 := by omega
        refine ⟨?_, ?_, ?_⟩
        · intro x hx hxr
          rcases List.mem_cons.mp hx with rfl | hx
          · exact absurd hxr href
          · exact i1 x hx hxr
        · simp only [List.length_append, Nat.cast_add, List.map_cons, List.sum_cons, href,
            if_false, i2, List.length_singleton, Nat.cast_one]
        · intro k
          simp only [List.mem_append, i3 k, List.mem_cons, exists_eq_or_imp, href, h0,
            List.mem_singleton, true_and, false_and, or_false, List.not_mem_nil,
            lt_self_iff_false]

/-- Every path registered below a path begins with that path. -/
theorem leafPaths_begins (fuel : Nat) (schema : Schema) (definitions : Definitions)
    (paramPath : String) (ks : List String)
    (h : leafPaths fuel schema definitions paramPath = some ks) :
    ∀ k ∈ ks, paramPath.data <+: k.data := by
  induction fuel generalizing schema paramPath ks with
  | zero => simp [leafPaths] at h
  | succ fuel ih =>
    unfold leafPaths at h
    split at h
    · split_ifs at h with h1
      · simp only [Option.some.injEq] at h
        subst h
        simp
      · split at h
        · simp only [Option.some.injEq] at h
          subst h
          simp
        · split_ifs at h with h2
          · intro k hk
            obtain ⟨np, hmem, hcase⟩ := ((propLeaves_spec _ _ _ _ h).2.2 k).mp hk
            have hpre : paramPath.data <+: (paramPath ++ "." ++ np.1).data := by
              simp only [String.data_append, List.append_assoc]
              exact List.prefix_append _ _
            rcases hcase with ⟨_, rfl⟩ | ⟨hr, hk'⟩
            · exact hpre
            · cases h3 : leafPaths fuel np.2 definitions (paramPath ++ "." ++ np.1) with
              | none => simp [h3] at hk'
              | some ks' =>
                simp only [h3, Option.getD_some] at hk'
                exact hpre.trans (ih _ _ _ h3 k hk')
          · simp only [Option.some.injEq] at h
            subst h
            simp
    · simp only [Option.some.injEq] at h
      subst h
      simp

/-- Resolving a reference to a definition that has properties never registers the
    path it is resolved at. -/
theorem leafPaths_not_mem_self (fuel : Nat) (schema : Schema) (definitions : Definitions)
    (paramPath name : String) (tl : List String) (d : Schema) (ks : List String)
    (href : schema.Ref = "definitions" :: name :: tl)
    (hget : definitions.get? name = some d) (hprops : 0 < d.Properties.length)
    (h : leafPaths fuel schema definitions paramPath = some ks) : paramPath ∉ ks := by
  cases fuel with
  | zero => simp [leafPaths] at h
  | succ fuel =>
    rw [leafPaths_resolved fuel schema definitions paramPath name tl d href hget,
      if_pos hprops] at h
    intro hk
    obtain ⟨np, hmem, hcase⟩ := ((propLeaves_spec _ _ _ _ h).2.2 paramPath).mp hk
    have hlen : ∀ k : String, (paramPath ++ "." ++ np.1).data <+: k.data → k ≠ paramPath := by
      intro k hpre heq
      have h1 := hpre.length_le
      rw [heq] at h1
      simp only [String.data_append, List.length_append] at h1
      have h2 : ".".data.length = 1 := rfl
      rw [h2] at h1
      omega
    rcases hcase with ⟨_, heq⟩ | ⟨hr, hk'⟩
    · exact dotted_ne paramPath np.1 heq.symm
    · cases h3 : leafPaths fuel np.2 definitions (paramPath ++ "." ++ np.1) with
      | none => simp [h3] at hk'
      | some ks' =>
        simp only [h3, Option.getD_some] at hk'
        exact hlen paramPath (leafPaths_begins _ _ _ _ _ h3 _ hk') rfl

/-- C5: on an acyclic definitions table, resolving at the dotted path P a reference
    to a bound definition D that has properties returns, with fuel
    the number of definitions plus one, the sum over the properties of D of a count
    that is 1 for a property without reference and the result of resolving the
    property's schema at P.<name> for a property with a reference; every property
    without reference is registered at P.<name> with count 0; and resolving a property
    that refers to a definition with properties does not register the path P.<name>. -/
theorem extractDefParams_nested_reference (definitions : Definitions)
    (hac : Acyclic definitions) (schema d : Schema) (name P : String) (tl : List String)
    (href : schema.Ref = "definitions" :: name :: tl)
    (hget : definitions.get? name = some d)
    (hprops : 0 < d.Properties.length) :
    ∃ count : String × Schema → Int,
      (∀ np ∈ d.Properties, np.2.Ref = [] → count np = 1)
      ∧ (∀ np ∈ d.Properties, np.2.Ref ≠ [] → ∀ params : GoMap Int, ∃ params',
          extractDefParams (definitions.length + 1) np.2 definitions (P ++ "." ++ np.1) params
            = some (count np, params'))
      ∧ (∀ params : GoMap Int, ∃ params',
          extractDefParams (definitions.length + 1) schema definitions P params
            = some ((d.Properties.map count).sum, params')
          ∧ ∀ np ∈ d.Properties, np.2.Ref = [] → params'.get? (P ++ "." ++ np.1) = some 0)
      ∧ (∀ np ∈ d.Properties, ∀ name' tl' d', np.2.Ref = "definitions" :: name' :: tl' →
          definitions.get? name' = some d' → 0 < d'.Properties.length →
          ∀ fuel params r,
            extractDefParams fuel np.2 definitions (P ++ "." ++ np.1) params = some r →
            r.2.get? (P ++ "." ++ np.1) = params.get? (P ++ "." ++ np.1)) := by
  obtain ⟨ks, hks⟩ := Option.isSome_iff_exists.mp
    (leafPaths_isSome_of_acyclic definitions hac schema P)
  have hks' := hks
  rw [leafPaths_resolved _ schema definitions P name tl d href hget, if_pos hprops] at hks'
  obtain ⟨s1, s2, s3⟩ := propLeaves_spec _ _ _ _ hks'
  refine ⟨fun np => if 0 < np.2.Ref.length then
      (((leafPaths definitions.length np.2 definitions (P ++ "." ++ np.1)).getD []).length : Int)
      else 1, ?_, ?_, ?_, ?_⟩
  · intro np _ hr
    simp [hr]
  · intro np hmem hr params
    have hpos : 0 < np.2.Ref.length := List.length_pos.mpr hr
    obtain ⟨ks', hks'⟩ := Option.isSome_iff_exists.mp (s1 np hmem hpos)
    refine ⟨registerAll params ks', ?_⟩
    rw [extractDefParams_eq, leafPaths_succ _ _ _ _ _ hks']
    simp [hpos, hks']
  · intro params
    refine ⟨registerAll params ks, ?_, ?_⟩
    · rw [extractDefParams_eq, hks, ← s2]
      rfl
    · intro np hmem hr
      rw [get?_registerAll, if_pos]
      exact (s3 _).mpr ⟨np, hmem, Or.inl ⟨by simp [hr], rfl⟩⟩
  · intro np _ name' tl' d' hr' hget' hprops' fuel params r hres
    rw [extractDefParams_eq] at hres
    cases hl : leafPaths fuel np.2 definitions (P ++ "." ++ np.1) with
    | none => simp [hl] at hres
    | some ks' =>
      rw [hl] at hres
      simp only [Option.map_some', Option.some.injEq] at hres
      rw [← hres]
      show (registerAll params ks').get? _ = _
      rw [get?_registerAll, if_neg]
      exact leafPaths_not_mem_self _ _ _ _ _ _ _ _ hr' hget' hprops' hl

theorem nestedDefinitions_acyclic : Acyclic nestedDefinitions :=
  acyclic_of_rank nestedDefinitions (fun a => if a = "Order" then 1 else 0) (by decide)

theorem extractDefParams_nested_reference_witness :
    ∃ count : String × Schema → Int,
      (∀ np ∈ orderSchema.Properties, np.2.Ref = [] → count np = 1)
      ∧ (∀ np ∈ orderSchema.Properties, np.2.Ref ≠ [] → ∀ params : GoMap Int, ∃ params',
          extractDefParams (nestedDefinitions.length + 1) np.2 nestedDefinitions
            ("body" ++ "." ++ np.1) params = some (count np, params'))
      ∧ (∀ params : GoMap Int, ∃ params',
          extractDefParams (nestedDefinitions.length + 1) (refTo "Order") nestedDefinitions
            "body" params = some ((orderSchema.Properties.map count).sum, params')
          ∧ ∀ np ∈ orderSchema.Properties, np.2.Ref = [] →
              params'.get? ("body" ++ "." ++ np.1) = some 0)
      ∧ (∀ np ∈ orderSchema.Properties, ∀ name' tl' d',
          np.2.Ref = "definitions" :: name' :: tl' →
          nestedDefinitions.get? name' = some d' → 0 < d'.Properties.length →
          ∀ fuel params r,
            extractDefParams fuel np.2 nestedDefinitions ("body" ++ "." ++ np.1) params
              = some r →
            r.2.get? ("body" ++ "." ++ np.1) = params.get? ("body" ++ "." ++ np.1)) :=
  extractDefParams_nested_reference nestedDefinitions nestedDefinitions_acyclic
    (refTo "Order") orderSchema "Order" "body" [] rfl rfl (by decide)

/-! ## addSwaggerParams against the registrations -/

theorem registerUnits_nil (e : Endpoint) : registerUnits e [] [] = e := by
  simp [registerUnits, registerAll]

theorem registerUnits_append (e : Endpoint) (q1 q2 b1 b2 : List String) :
    registerUnits (registerUnits e q1 b1) q2 b2 = registerUnits e (q1 ++ q2) (b1 ++ b2) := by
  simp only [registerUnits, registerAll_append, List.length_append, Nat.cast_add]
  congr 1
  ring

theorem addSwaggerParam_eq (fuel : Nat) (definitions : Definitions) (e : Endpoint)
    (param : Parameter) :
    addSwaggerParam fuel definitions e param
      = (paramBodyRegs fuel definitions param).map
          (fun bs => registerUnits e (if param.In = "query" then [param.Name] else []) bs) := by
  unfold addSwaggerParam paramBodyRegs
  by_cases hb : param.In = "body"
  · have hq : ¬ param.In = "query" := by rw [hb]; decide
    simp only [hb, if_true, hq, if_false]
    cases hs : param.Schema with
    | none =>
      simp [registerUnits, registerAll]
    | some schema =>
      simp only [extractDefParams_eq, Option.map_map]
      congr 1
      funext ks
      simp [registerUnits, registerAll]
  · by_cases hq : param.In = "query"
    · simp [hb, hq, registerUnits, registerAll]
    · simp [hb, hq, registerUnits, registerAll]

theorem addSwaggerParams_eq (fuel : Nat) (e : Endpoint) (params : GoMap Parameter)
    (definitions : Definitions) :
    addSwaggerParams fuel e params definitions
      = (bodyRegs fuel definitions params).map
          (fun bs => registerUnits e (queryRegs params) bs) := by
  unfold addSwaggerParams
  induction params generalizing e with
  | nil => simp [bodyRegs, queryRegs, registerUnits_nil]
  | cons kp rest ih =>
    rw [List.foldlM_cons, addSwaggerParam_eq]
    unfold bodyRegs
    cases paramBodyRegs fuel definitions kp.2 with
    | none => simp
    | some a =>
      simp only [Option.map_some', Option.some_bind, Option.bind_eq_bind, ih]
      cases bodyRegs fuel definitions rest with
      | none => simp
      | some b =>
        simp only [Option.map_some', registerUnits_append, Option.some.injEq]
        congr 1
        by_cases hq : kp.2.In = "query"
        · simp [queryRegs, hq, List.filter_cons]
        · simp [queryRegs, hq, List.filter_cons]

theorem paramBodyRegs_mono {fuel fuel' : Nat} (hle : fuel ≤ fuel') (definitions : Definitions)
    (param : Parameter) (bs : List String)
    (h : paramBodyRegs fuel definitions param = some bs) :
    paramBodyRegs fuel' definitions param = some bs := by
  unfold paramBodyRegs at h ⊢
  split_ifs with hb
  · rw [if_pos hb] at h
    cases hs : param.Schema with
    | none => simpa [hs] using h
    | some schema =>
      rw [hs] at h
      exact leafPaths_mono hle _ _ _ _ h
  · rw [if_neg hb] at h
    exact h

theorem bodyRegs_mono {fuel fuel' : Nat} (hle : fuel ≤ fuel') (definitions : Definitions)
    (params : GoMap Parameter) (bs : List String)
    (h : bodyRegs fuel definitions params = some bs) :
    bodyRegs fuel' definitions params = some bs := by
  induction params generalizing bs with
  | nil => exact h
  | cons kp rest ih =>
    unfold bodyRegs at h ⊢
    cases h1 : paramBodyRegs fuel definitions kp.2 with
    | none => simp [h1] at h
    | some a =>
      rw [h1] at h
      rw [paramBodyRegs_mono hle _ _ _ h1]
      simp only [Option.some_bind, Option.bind_eq_bind] at h ⊢
      cases h2 : bodyRegs fuel definitions rest with
      | none => simp [h2] at h
      | some b =>
        rw [h2] at h
        rw [ih b h2]
        exact h

theorem bodyRegs_isSome_of_acyclic (definitions : Definitions) (hac : Acyclic definitions)
    (params : GoMap Parameter) :
    (bodyRegs (definitions.length + 1) definitions params).isSome := by
  induction params with
  | nil => rfl
  | cons kp rest ih =>
    unfold bodyRegs
    have h1 : (paramBodyRegs (definitions.length + 1) definitions kp.2).isSome := by
      unfold paramBodyRegs
      split_ifs
      · cases kp.2.Schema with
        | none => rfl
        | some schema => exact leafPaths_isSome_of_acyclic definitions hac schema _
      · rfl
    obtain ⟨a, ha⟩ := Option.isSome_iff_exists.mp h1
    obtain ⟨b, hb⟩ := Option.isSome_iff_exists.mp ih
    simp [ha, hb]

theorem addSwaggerParams_mono {fuel fuel' : Nat} (hle : fuel ≤ fuel') (e : Endpoint)
    (params : GoMap Parameter) (definitions : Definitions) (e' : Endpoint)
    (h : addSwaggerParams fuel e params definitions = some e') :
    addSwaggerParams fuel' e params definitions = some e' := by
  rw [addSwaggerParams_eq] at h ⊢
  cases hb : bodyRegs fuel definitions params with
  | none => simp [hb] at h
  | some bs =>
    rw [hb] at h
    rw [bodyRegs_mono hle _ _ _ hb]
    exact h

/-! ## The loop of AnalyzeSwagger -/

theorem wellFormedOp_iff (mp : String) :
    WellFormedOp mp ↔ ∃ v0 v1, strings.Split mp ' ' = [v0, v1] := by
  unfold WellFormedOp
  constructor
  · intro h
    match hs : strings.Split mp ' ', h with
    | [a, b], _ => exact ⟨a, b, rfl⟩
  · rintro ⟨a, b, h⟩
    rw [h]
    rfl

theorem analyzeOperation_malformed (lowerRune : Char → Char) (fuel : Nat)
    (document : Document) (filter : String) (c : Coverage) (mp : String)
    (h : ¬ WellFormedOp mp) :
    analyzeOperation lowerRune fuel document filter c mp
      = some (LoopStep.fail (invalidPair mp)) := by
  unfold analyzeOperation
  split
  · rename_i v0 v1 heq
    exact absurd ((wellFormedOp_iff mp).mpr ⟨v0, v1, heq⟩) h
  · rfl

theorem analyzeOperation_wellFormed (lowerRune : Char → Char) (fuel : Nat)
    (document : Document) (filter : String) (c : Coverage) (mp v0 v1 : String)
    (h : strings.Split mp ' ' = [v0, v1]) :
    analyzeOperation lowerRune fuel document filter c mp
      = if strings.HasPrefix (strings.ToLower lowerRune v1) filter = true then
          (bodyRegs fuel document.Definitions
              (document.ParamsFor (strings.ToLower lowerRune v0)
                (strings.ToLower lowerRune v1))).map
            (fun bs => LoopStep.next
              (storeEndpoint c (strings.ToLower lowerRune v1) (strings.ToLower lowerRune v0)
                (registerUnits
                  (currentEndpoint c (strings.ToLower lowerRune v1)
                    (strings.ToLower lowerRune v0))
                  (queryRegs (document.ParamsFor (strings.ToLower lowerRune v0)
                    (strings.ToLower lowerRune v1))) bs)))
        else some (LoopStep.next c) := by
  unfold analyzeOperation
  rw [h]
  simp only [addSwaggerParams_eq, Option.map_map]
  split_ifs with h1
  · rfl
  · rfl

theorem endpoint?_storeEndpoint (c : Coverage) (path method : String) (e : Endpoint)
    (p m : String) :
    (storeEndpoint c path method e).endpoint? p m
      = if path = p ∧ method = m then some e else c.endpoint? p m := by
  unfold storeEndpoint Coverage.endpoint?
  simp only [GoMap.get?_set]
  by_cases hp : path = p
  · subst hp
    simp only [true_and, if_true, Option.some_bind, GoMap.get?_set]
    by_cases hm : method = m
    · simp [hm]
    · simp only [hm, if_false]
      cases c.Endpoints.get? path with
      | none => simp [GoMap.get?]
      | some es => simp
  · simp [hp]

theorem outer_storeEndpoint (c : Coverage) (path method : String) (e : Endpoint)
    (p : String) :
    ((storeEndpoint c path method e).Endpoints.get? p).isSome
      = (decide (path = p) || (c.Endpoints.get? p).isSome) := by
  unfold storeEndpoint
  simp only [GoMap.get?_set]
  by_cases hp : path = p <;> simp [hp]

theorem currentEndpoint_eq (c : Coverage) (path method : String) :
    currentEndpoint c path method = (c.endpoint? path method).getD (newEndpoint path method) := by
  unfold currentEndpoint Coverage.endpoint?
  cases c.Endpoints.get? path with
  | none => simp [GoMap.get?]
  | some es => simp

theorem analyzeOperation_mono (lowerRune : Char → Char) {fuel fuel' : Nat} (hle : fuel ≤ fuel')
    (document : Document) (filter : String) (c : Coverage) (mp : String) (s : LoopStep)
    (h : analyzeOperation lowerRune fuel document filter c mp = some s) :
    analyzeOperation lowerRune fuel' document filter c mp = some s := by
  by_cases hwf : WellFormedOp mp
  · obtain ⟨v0, v1, hs⟩ := (wellFormedOp_iff mp).mp hwf
    rw [analyzeOperation_wellFormed _ _ _ _ _ _ _ _ hs] at h ⊢
    split_ifs with hp
    · rw [if_pos hp] at h
      cases hb : bodyRegs fuel document.Definitions
          (document.ParamsFor (strings.ToLower lowerRune v0) (strings.ToLower lowerRune v1)) with
      | none => simp [hb] at h
      | some bs =>
        rw [hb] at h
        rw [bodyRegs_mono hle _ _ _ hb]
        exact h
    · rw [if_neg hp] at h
      exact h
  · rw [analyzeOperation_malformed _ _ _ _ _ _ hwf] at h ⊢
    exact h

theorem analyzeLoop_mono (lowerRune : Char → Char) {fuel fuel' : Nat} (hle : fuel ≤ fuel')
    (document : Document) (filter : String) (c : Coverage) (l : List String)
    (r : Option Coverage × Option String)
    (h : analyzeLoop lowerRune fuel document filter c l = some r) :
    analyzeLoop lowerRune fuel' document filter c l = some r := by
  induction l generalizing c with
  | nil => exact h
  | cons mp rest ih =>
    unfold analyzeLoop at h ⊢
    cases hs : analyzeOperation lowerRune fuel document filter c mp with
    | none => simp [hs] at h
    | some s =>
      rw [hs] at h
      rw [analyzeOperation_mono lowerRune hle _ _ _ _ _ hs]
      cases s with
      | fail err => exact h
      | next c' => exact ih c' h

/-- A result of AnalyzeSwagger obtained with some fuel is obtained
    with every larger fuel. -/
theorem AnalyzeSwagger_mono (lowerRune : Char → Char) {fuel fuel' : Nat} (hle : fuel ≤ fuel')
    (document : Document) (filter : String) (r : Option Coverage × Option String)
    (h : AnalyzeSwagger lowerRune fuel document filter = some r) :
    AnalyzeSwagger lowerRune fuel' document filter = some r :=
  analyzeLoop_mono lowerRune hle _ _ _ _ _ h

/-- Two results of AnalyzeSwagger, at whatever fuel, are the same. -/
theorem AnalyzeSwagger_unique (lowerRune : Char → Char) (fuel fuel' : Nat)
    (document : Document) (filter : String) (r r' : Option Coverage × Option String)
    (h : AnalyzeSwagger lowerRune fuel document filter = some r)
    (h' : AnalyzeSwagger lowerRune fuel' document filter = some r') : r' = r := by
  have h1 := AnalyzeSwagger_mono lowerRune (Nat.le_max_left fuel fuel') _ _ _ h
  have h2 := AnalyzeSwagger_mono lowerRune (Nat.le_max_right fuel fuel') _ _ _ h'
  rw [h1] at h2
  exact (Option.some.inj h2).symm

theorem analyzeOperation_isSome_of_acyclic (lowerRune : Char → Char) (document : Document)
    (hac : Acyclic document.Definitions) (filter : String) (c : Coverage) (mp : String) :
    (analyzeOperation lowerRune (document.Definitions.length + 1) document filter c mp).isSome := by
  by_cases hwf : WellFormedOp mp
  · obtain ⟨v0, v1, hs⟩ := (wellFormedOp_iff mp).mp hwf
    rw [analyzeOperation_wellFormed _ _ _ _ _ _ _ _ hs]
    split_ifs
    · obtain ⟨bs, hbs⟩ := Option.isSome_iff_exists.mp
        (bodyRegs_isSome_of_acyclic document.Definitions hac
          (document.ParamsFor (strings.ToLower lowerRune v0) (strings.ToLower lowerRune v1)))
      rw [hbs]
      rfl
    · rfl
  · rw [analyzeOperation_malformed _ _ _ _ _ _ hwf]
    rfl

theorem analyzeLoop_isSome_of_acyclic (lowerRune : Char → Char) (document : Document)
    (hac : Acyclic document.Definitions) (filter : String) (c : Coverage) (l : List String) :
    (analyzeLoop lowerRune (document.Definitions.length + 1) document filter c l).isSome := by
  induction l generalizing c with
  | nil => rfl
  | cons mp rest ih =>
    unfold analyzeLoop
    obtain ⟨s, hs⟩ := Option.isSome_iff_exists.mp
      (analyzeOperation_isSome_of_acyclic lowerRune document hac filter c mp)
    rw [hs]
    cases s with
    | fail err => rfl
    | next c' => exact ih c'

/-- The two values returned by the loop, when it returns: either a coverage and no
    error, every operation string being well formed, or no coverage and the error
    of a malformed operation string. -/
theorem analyzeLoop_result (lowerRune : Char → Char) (fuel : Nat) (document : Document)
    (filter : String) (c : Coverage) (l : List String) (r : Option Coverage × Option String)
    (h : analyzeLoop lowerRune fuel document filter c l = some r) :
    (r.2 = none ∧ r.1.isSome ∧ ∀ mp ∈ l, WellFormedOp mp)
    ∨ (r.1 = none ∧ ∃ mp ∈ l, ¬ WellFormedOp mp ∧ r.2 = some (invalidPair mp)) := by
  induction l generalizing c with
  | nil =>
    simp only [analyzeLoop, Option.some.injEq] at h
    subst h
    exact Or.inl ⟨rfl, rfl, by simp⟩
  | cons mp rest ih =>
    unfold analyzeLoop at h
    by_cases hwf : WellFormedOp mp
    · cases hs : analyzeOperation lowerRune fuel document filter c mp with
      | none => simp [hs] at h
      | some s =>
        rw [hs] at h
        cases s with
        | fail err =>
          obtain ⟨v0, v1, hsp⟩ := (wellFormedOp_iff mp).mp hwf
          rw [analyzeOperation_wellFormed _ _ _ _ _ _ _ _ hsp] at hs
          split_ifs at hs
          · cases hb : bodyRegs fuel document.Definitions
              (document.ParamsFor (strings.ToLower lowerRune v0)
                (strings.ToLower lowerRune v1)) with
            | none => simp [hb] at hs
            | some bs => simp [hb] at hs
          · simp at hs
        | next c' =>
          rcases ih c' h with ⟨h1, h2, h3⟩ | ⟨h1, mp', hmem, h2, h3⟩
          · refine Or.inl ⟨h1, h2, ?_⟩
            intro x hx
            rcases List.mem_cons.mp hx with rfl | hx
            · exact hwf
            · exact h3 x hx
          · exact Or.inr ⟨h1, mp', List.mem_cons_of_mem _ hmem, h2, h3⟩
    · rw [analyzeOperation_malformed _ _ _ _ _ _ hwf] at h
      simp only [Option.some.injEq] at h
      subst h
      exact Or.inr ⟨rfl, mp, List.mem_cons_self _ _, hwf, rfl⟩

/-- Induction along a run of the loop that returns a coverage: an operation
    string either is skipped by the filter or stores the endpoint with the
    registrations of its parameters. -/
theorem analyzeLoop_ok_rec (lowerRune : Char → Char) (fuel : Nat) (document : Document)
    (filter : String) (Q : Coverage → List String → Coverage → Prop)
    (hnil : ∀ c, Q c [] c)
    (hskip : ∀ c mp rest cov v0 v1, strings.Split mp ' ' = [v0, v1] →
      strings.HasPrefix (strings.ToLower lowerRune v1) filter = false →
      Q c rest cov → Q c (mp :: rest) cov)
    (hstep : ∀ c mp rest cov v0 v1 bs, strings.Split mp ' ' = [v0, v1] →
      strings.HasPrefix (strings.ToLower lowerRune v1) filter = true →
      bodyRegs fuel document.Definitions
        (document.ParamsFor (strings.ToLower lowerRune v0) (strings.ToLower lowerRune v1))
        = some bs →
      Q (storeEndpoint c (strings.ToLower lowerRune v1) (strings.ToLower lowerRune v0)
          (registerUnits
            (currentEndpoint c (strings.ToLower lowerRune v1) (strings.ToLower lowerRune v0))
            (queryRegs (document.ParamsFor (strings.ToLower lowerRune v0)
              (strings.ToLower lowerRune v1))) bs)) rest cov →
      Q c (mp :: rest) cov)
    (c : Coverage) (l : List String) (cov : Coverage)
    (h : analyzeLoop lowerRune fuel document filter c l = some (some cov, none)) :
    Q c l cov := by
  induction l generalizing c with
  | nil =>
    simp only [analyzeLoop, Option.some.injEq, Prod.mk.injEq, and_true] at h
    subst h
    exact hnil c
  | cons mp rest ih =>
    unfold analyzeLoop at h
    by_cases hwf : WellFormedOp mp
    · obtain ⟨v0, v1, hsp⟩ := (wellFormedOp_iff mp).mp hwf
      rw [analyzeOperation_wellFormed _ _ _ _ _ _ _ _ hsp] at h
      by_cases hp : strings.HasPrefix (strings.ToLower lowerRune v1) filter = true
      · rw [if_pos hp] at h
        cases hb : bodyRegs fuel document.Definitions
            (document.ParamsFor (strings.ToLower lowerRune v0)
              (strings.ToLower lowerRune v1)) with
        | none => simp [hb] at h
        | some bs =>
          rw [hb] at h
          exact hstep c mp rest cov v0 v1 bs hsp hp hb (ih _ h)
      · rw [if_neg hp] at h
        exact hskip c mp rest cov v0 v1 hsp (by simpa using hp) (ih _ h)
    · rw [analyzeOperation_malformed _ _ _ _ _ _ hwf] at h
      simp at h

/-! ## The concrete contracts -/

theorem widgetDefinitions_acyclic : Acyclic widgetDefinitions :=
  acyclic_of_rank widgetDefinitions (fun _ => 0) (by decide)

/-- On the cyclic table no fuel suffices to resolve a reference to A. -/
theorem leafPaths_cyclic (fuel : Nat) (paramPath : String) :
    leafPaths fuel (refTo "A") cyclicDefinitions paramPath = none := by
  induction fuel generalizing paramPath with
  | zero => rfl
  | succ fuel ih =>
    rw [leafPaths_resolved fuel (refTo "A") cyclicDefinitions paramPath "A" []
      (Schema.mk [] [("next", refTo "A")]) rfl rfl]
    simp only [Schema.Properties, List.length_cons, List.length_nil, Nat.zero_add,
      Nat.lt_one_iff, if_true, propLeaves]
    have h : 0 < (refTo "A").Ref.length := by decide
    simp [h, ih]

theorem AnalyzeSwagger_cyclicDocument (fuel : Nat) :
    AnalyzeSwagger asciiLower fuel cyclicDocument "" = none := by
  have hs : strings.Split "POST /a" ' ' = ["POST", "/a"] := by decide
  have hop : analyzeOperation asciiLower fuel cyclicDocument "" emptyCoverage "POST /a"
      = none := by
    rw [analyzeOperation_wellFormed _ _ _ _ _ _ _ _ hs]
    have h1 : strings.ToLower asciiLower "POST" = "post" := by decide
    have h2 : strings.ToLower asciiLower "/a" = "/a" := by decide
    have h3 : strings.HasPrefix "/a" "" = true := by decide
    have h4 : cyclicDocument.ParamsFor "post" "/a"
        = [("body#Body", bodyParam "body" (refTo "A"))] := by
      simp [cyclicDocument]
    rw [h1, h2, if_pos h3, h4]
    have h5 : bodyRegs fuel cyclicDocument.Definitions
        [("body#Body", bodyParam "body" (refTo "A"))] = none := by
      simp only [bodyRegs, paramBodyRegs, bodyParam, if_true]
      have := leafPaths_cyclic fuel "body"
      simp [cyclicDocument, this]
    rw [h5]
    rfl
  show analyzeLoop asciiLower fuel cyclicDocument "" emptyCoverage
    ["POST /a", "GET /x EXTRA"] = none
  unfold analyzeLoop
  rw [hop]

/-! ## Claims on AnalyzeSwagger -/

theorem calculateCoverage_percent (c : Coverage) :
    (calculateCoverage c).Percent
      = if (calculateCoverage c).ExpectedUniqueHits > 0 then
          ((calculateCoverage c).UniqueHits : ℚ) * 100
            / ((calculateCoverage c).ExpectedUniqueHits : ℚ)
        else 0 := rfl

/-- C1: for the widgets contract and the empty filter, AnalyzeSwagger returns, at
    every fuel of at least one, a model in which get has
    ExpectedUniqueHits = 1 and post has ExpectedUniqueHits = 4 with the body keys
    body.name and body.size; after the observer has marked get called with 0 hits and
    post called with 2 hits, calculateCoverage yields get: UniqueHits 1, Percent 100;
    post: UniqueHits 3, ExpectedUniqueHits 4, Percent 75; overall: UniqueHits 4,
    ExpectedUniqueHits 5, Percent 80. -/
theorem widgets_end_to_end :
    ∃ cov : Coverage,
      (∀ fuel, AnalyzeSwagger asciiLower (fuel + 1) widgetDocument "" = some (some cov, none))
      ∧ (cov.endpoint? "/widgets" "get").map (fun e => e.ExpectedUniqueHits) = some 1
      ∧ (cov.endpoint? "/widgets" "post").map (fun e => e.ExpectedUniqueHits) = some 4
      ∧ (cov.endpoint? "/widgets" "post").map (fun e => GoMap.keys e.ParamsHitsDetails.Body)
          = some ["body.name", "body.size"]
      ∧ ((calculateCoverage (observeWidgets cov)).endpoint? "/widgets" "get").map
          (fun e => (e.UniqueHits, e.Percent)) = some (1, 100)
      ∧ ((calculateCoverage (observeWidgets cov)).endpoint? "/widgets" "post").map
          (fun e => (e.UniqueHits, e.ExpectedUniqueHits, e.Percent)) = some (3, 4, 75)
      ∧ (calculateCoverage (observeWidgets cov)).UniqueHits = 4
      ∧ (calculateCoverage (observeWidgets cov)).ExpectedUniqueHits = 5
      ∧ (calculateCoverage (observeWidgets cov)).Percent = 80 := by
  refine ⟨widgetCoverage, ?_, by decide, by decide, by decide, ?_, ?_, by decide, by decide, ?_⟩
  · intro fuel
    exact AnalyzeSwagger_mono asciiLower (Nat.succ_le_succ (Nat.zero_le fuel)) _ _ _
      (by decide)
  · have h : ∃ e, (observeWidgets widgetCoverage).endpoint? "/widgets" "get" = some e
        ∧ (calculateCoverage (observeWidgets widgetCoverage)).endpoint? "/widgets" "get"
            = some (calculateEndpoint e)
        ∧ (calculateEndpoint e).UniqueHits = 1 ∧ (calculateEndpoint e).ExpectedUniqueHits = 1 :=
      ⟨_, rfl, rfl, by decide, by decide⟩
    obtain ⟨e, _, h2, h3, h4⟩ := h
    rw [h2]
    simp only [Option.map_some', Option.some.injEq, Prod.mk.injEq]
    refine ⟨h3, ?_⟩
    rw [calculateEndpoint_percent e (by rw [h4]; decide), h3, h4]
    norm_num
  · have h : ∃ e, (observeWidgets widgetCoverage).endpoint? "/widgets" "post" = some e
        ∧ (calculateCoverage (observeWidgets widgetCoverage)).endpoint? "/widgets" "post"
            = some (calculateEndpoint e)
        ∧ (calculateEndpoint e).UniqueHits = 3 ∧ (calculateEndpoint e).ExpectedUniqueHits = 4 :=
      ⟨_, rfl, rfl, by decide, by decide⟩
    obtain ⟨e, _, h2, h3, h4⟩ := h
    rw [h2]
    simp only [Option.map_some', Option.some.injEq, Prod.mk.injEq]
    refine ⟨h3, h4, ?_⟩
    rw [calculateEndpoint_percent e (by rw [h4]; decide), h3, h4]
    norm_num
  · have h1 : (calculateCoverage (observeWidgets widgetCoverage)).UniqueHits = 4 := by decide
    have h2 : (calculateCoverage (observeWidgets widgetCoverage)).ExpectedUniqueHits = 5 := by
      decide
    rw [calculateCoverage_percent, h1, h2]
    norm_num

/-- C8, as stated, fails: the cyclic contract has a malformed operation string, yet
    AnalyzeSwagger returns no error for it: the operation processed before sends
    reference resolution into a cycle, so at no fuel anything is returned. -/
theorem AnalyzeSwagger_error_counterexample :
    (∃ mp ∈ cyclicDocument.OperationMethodPaths, ¬ WellFormedOp mp)
    ∧ ∀ fuel, AnalyzeSwagger asciiLower fuel cyclicDocument "" = none :=
  ⟨⟨"GET /x EXTRA", by decide, by decide⟩, AnalyzeSwagger_cyclicDocument⟩

/-- C8, amended: for every document whose definitions are acyclic and every filter,
    AnalyzeSwagger returns (with fuel the number of definitions plus
    one, and with the same values at every depth at which it returns); it returns an
    error if and only if at least one operation string does not split into exactly two
    tokens, whatever the filter; the error names such a string; when it returns an
    error the returned coverage is nil, and otherwise a coverage is returned. -/
theorem AnalyzeSwagger_error_iff (lowerRune : Char → Char) (document : Document)
    (filter : String) (hac : Acyclic document.Definitions) :
    ∃ r : Option Coverage × Option String,
      AnalyzeSwagger lowerRune (document.Definitions.length + 1) document filter = some r
      ∧ (∀ fuel r', AnalyzeSwagger lowerRune fuel document filter = some r' → r' = r)
      ∧ (r.2.isSome ↔ ∃ mp ∈ document.OperationMethodPaths, ¬ WellFormedOp mp)
      ∧ (∀ err, r.2 = some err →
          ∃ mp ∈ document.OperationMethodPaths, ¬ WellFormedOp mp ∧ err = invalidPair mp)
      ∧ (r.2.isSome → r.1 = none)
      ∧ (r.2 = none → r.1.isSome) := by
  obtain ⟨r, hr⟩ := Option.isSome_iff_exists.mp
    (analyzeLoop_isSome_of_acyclic lowerRune document hac filter emptyCoverage
      document.OperationMethodPaths)
  refine ⟨r, hr, fun fuel r' h' => AnalyzeSwagger_unique lowerRune _ _ _ _ _ _ hr h', ?_⟩
  rcases analyzeLoop_result _ _ _ _ _ _ _ hr with ⟨h1, h2, h3⟩ | ⟨h1, mp, hmem, h2, h3⟩
  · refine ⟨?_, ?_, ?_, fun _ => h2⟩
    · rw [h1]
      simp only [Option.isSome_none, Bool.false_eq_true, false_iff, not_exists, not_and,
        not_not]
      exact h3
    · intro err herr
      rw [h1] at herr
      exact absurd herr (by simp)
    · intro h
      rw [h1] at h
      exact absurd h (by simp)
  · refine ⟨?_, ?_, fun _ => h1, ?_⟩
    · rw [h3]
      simp only [Option.isSome_some, true_iff]
      exact ⟨mp, hmem, h2⟩
    · intro err herr
      rw [h3] at herr
      exact ⟨mp, hmem, h2, (Option.some.inj herr).symm⟩
    · intro h
      rw [h3] at h
      exact absurd h (by simp)

theorem AnalyzeSwagger_error_iff_witness :
    ∃ r : Option Coverage × Option String,
      AnalyzeSwagger asciiLower (malformedDocument.Definitions.length + 1) malformedDocument
        "/none" = some r
      ∧ (∀ fuel r', AnalyzeSwagger asciiLower fuel malformedDocument "/none" = some r' → r' = r)
      ∧ (r.2.isSome ↔ ∃ mp ∈ malformedDocument.OperationMethodPaths, ¬ WellFormedOp mp)
      ∧ (∀ err, r.2 = some err →
          ∃ mp ∈ malformedDocument.OperationMethodPaths,
            ¬ WellFormedOp mp ∧ err = invalidPair mp)
      ∧ (r.2.isSome → r.1 = none)
      ∧ (r.2 = none → r.1.isSome) :=
  AnalyzeSwagger_error_iff asciiLower malformedDocument "/none" widgetDefinitions_acyclic

/-! ## Splitting an operation string -/

namespace strings

theorem splitRunes_ne_nil (sep : Char) (cs : List Char) : splitRunes sep cs ≠ [] := by
  cases cs with
  | nil => simp [splitRunes]
  | cons c cs =>
    unfold splitRunes
    split_ifs
    · simp
    · split <;> simp

theorem splitRunes_of_not_mem (sep : Char) (b : List Char) (h : sep ∉ b) :
    splitRunes sep b = [b] := by
  induction b with
  | nil => rfl
  | cons c cs ih =>
    have hc : ¬ c = sep := fun hc => h (by simp [hc])
    have hcs : sep ∉ cs := fun hm => h (List.mem_cons_of_mem _ hm)
    unfold splitRunes
    rw [if_neg hc, ih hcs]

theorem splitRunes_append (sep : Char) (a b : List Char) (h : sep ∉ a) :
    splitRunes sep (a ++ sep :: b) = a :: splitRunes sep b := by
  induction a with
  | nil => simp [splitRunes]
  | cons c cs ih =>
    have hc : ¬ c = sep := fun hc => h (by simp [hc])
    have hcs : sep ∉ cs := fun hm => h (List.mem_cons_of_mem _ hm)
    rw [List.cons_append, splitRunes, if_neg hc, ih hcs]

theorem length_splitRunes (sep : Char) (cs : List Char) :
    (splitRunes sep cs).length = cs.count sep + 1 := by
  induction cs with
  | nil => rfl
  | cons c cs ih =>
    unfold splitRunes
    by_cases hc : c = sep
    · subst hc
      simp [ih]
    · rw [if_neg hc]
      have hcount : (c :: cs).count sep = cs.count sep := by
        rw [List.count_cons]
        simp [hc]
      rw [hcount, ← ih]
      split
      · rename_i heq
        exact absurd heq (splitRunes_ne_nil sep cs)
      · rename_i t ts heq
        simp [heq]

theorem splitRunes_eq_pair (sep : Char) (cs a b : List Char)
    (h : splitRunes sep cs = [a, b]) : cs = a ++ sep :: b := by
  induction cs generalizing a with
  | nil => simp [splitRunes] at h
  | cons c cs ih =>
    unfold splitRunes at h
    by_cases hc : c = sep
    · subst hc
      rw [if_pos rfl] at h
      simp only [List.cons.injEq] at h
      obtain ⟨ha, hb⟩ := h
      subst ha
      have hlen := length_splitRunes c cs
      rw [hb] at hlen
      simp only [List.length_singleton, self_eq_add_left, List.count_eq_zero] at hlen
      have := splitRunes_of_not_mem c cs hlen
      rw [this] at hb
      simp only [List.cons.injEq, and_true] at hb
      simp [hb]
    · rw [if_neg hc] at h
      split at h
      · simp at h
      · rename_i t ts heq
        simp only [List.cons.injEq] at h
        obtain ⟨ha, hb⟩ := h
        subst ha hb
        rw [ih t heq]
        rfl

/-- An operation string that splits into exactly two tokens is M, a space, P
    precisely for the two tokens M and P. -/
theorem Split_eq_pair_iff (mp M P : String) (hwf : (Split mp ' ').length = 2) :
    Split mp ' ' = [M, P] ↔ mp = M ++ " " ++ P := by
  unfold Split at hwf ⊢
  constructor
  · intro h
    have h' : splitRunes ' ' mp.data = [M.data, P.data] := by
      have := congrArg (List.map String.data) h
      simpa [List.map_map, Function.comp_def] using this
    apply String.ext
    rw [splitRunes_eq_pair _ _ _ _ h']
    simp [String.data_append]
  · intro h
    have hd : mp.data = M.data ++ ' ' :: P.data := by
      rw [h]
      simp [String.data_append]
    rw [List.length_map, length_splitRunes, hd] at hwf
    simp only [List.count_append, List.count_cons_self] at hwf
    have hM : ' ' ∉ M.data := List.count_eq_zero.mp (by omega)
    have hP : ' ' ∉ P.data := List.count_eq_zero.mp (by omega)
    rw [hd, splitRunes_append _ _ _ hM, splitRunes_of_not_mem _ _ hP]
    rfl

end strings

theorem opYields_iff (lowerRune : Char → Char) (filter : String) (mp p m : String)
    (hwf : WellFormedOp mp) :
    OpYields lowerRune filter mp p m
      ↔ ∃ M P, strings.Split mp ' ' = [M, P] ∧ strings.ToLower lowerRune P = p
          ∧ strings.ToLower lowerRune M = m ∧ strings.HasPrefix p filter = true := by
  unfold OpYields
  constructor
  · rintro ⟨M, P, h, hr⟩
    exact ⟨M, P, (strings.Split_eq_pair_iff mp M P hwf).mpr h, hr⟩
  · rintro ⟨M, P, h, hr⟩
    exact ⟨M, P, (strings.Split_eq_pair_iff mp M P hwf).mp h, hr⟩

/-! ## Which endpoints the loop stores -/

theorem analyzeLoop_membership (lowerRune : Char → Char) (fuel : Nat) (document : Document)
    (filter : String) (c : Coverage) (l : List String) (cov : Coverage)
    (h : analyzeLoop lowerRune fuel document filter c l = some (some cov, none)) :
    ∀ p m, (cov.endpoint? p m).isSome
      ↔ ((c.endpoint? p m).isSome ∨ ∃ mp ∈ l, ∃ M P, strings.Split mp ' ' = [M, P]
          ∧ strings.ToLower lowerRune P = p ∧ strings.ToLower lowerRune M = m
          ∧ strings.HasPrefix p filter = true) := by
  refine analyzeLoop_ok_rec lowerRune fuel document filter
    (fun c l cov => ∀ p m, (cov.endpoint? p m).isSome
      ↔ ((c.endpoint? p m).isSome ∨ ∃ mp ∈ l, ∃ M P, strings.Split mp ' ' = [M, P]
          ∧ strings.ToLower lowerRune P = p ∧ strings.ToLower lowerRune M = m
          ∧ strings.HasPrefix p filter = true)) ?_ ?_ ?_ c l cov h
  · intro c p m
    simp
  · intro c mp rest cov v0 v1 hsp hpre ih p m
    rw [ih p m]
    constructor
    · rintro (h1 | ⟨mp', hmem, h2⟩)
      · exact Or.inl h1
      · exact Or.inr ⟨mp', List.mem_cons_of_mem _ hmem, h2⟩
    · rintro (h1 | ⟨mp', hmem, M, P, h2, h3, h4, h5⟩)
      · exact Or.inl h1
      · rcases List.mem_cons.mp hmem with rfl | hmem
        · rw [hsp] at h2
          simp only [List.cons.injEq, and_true] at h2
          obtain ⟨rfl, rfl⟩ := h2
          rw [h3, h5] at hpre
          exact absurd hpre (by simp)
        · exact Or.inr ⟨mp', hmem, M, P, h2, h3, h4, h5⟩
  · intro c mp rest cov v0 v1 bs hsp hpre _ ih p m
    rw [ih p m, endpoint?_storeEndpoint]
    constructor
    · rintro (h1 | ⟨mp', hmem, h2⟩)
      · by_cases hpm : strings.ToLower lowerRune v1 = p ∧ strings.ToLower lowerRune v0 = m
        · refine Or.inr ⟨mp, List.mem_cons_self _ _, v0, v1, hsp, hpm.1, hpm.2, ?_⟩
          rw [← hpm.1]
          exact hpre
        · rw [if_neg hpm] at h1
          exact Or.inl h1
      · exact Or.inr ⟨mp', List.mem_cons_of_mem _ hmem, h2⟩
    · rintro (h1 | ⟨mp', hmem, M, P, h2, h3, h4, h5⟩)
      · left
        split_ifs
        · rfl
        · exact h1
      · rcases List.mem_cons.mp hmem with rfl | hmem
        · rw [hsp] at h2
          simp only [List.cons.injEq, and_true] at h2
          obtain ⟨rfl, rfl⟩ := h2
          left
          rw [if_pos ⟨h3, h4⟩]
          rfl
        · exact Or.inr ⟨mp', hmem, M, P, h2, h3, h4, h5⟩

theorem analyzeLoop_outer_keys (lowerRune : Char → Char) (fuel : Nat) (document : Document)
    (filter : String) (c : Coverage) (l : List String) (cov : Coverage)
    (h : analyzeLoop lowerRune fuel document filter c l = some (some cov, none))
    (hc : ∀ p, (c.Endpoints.get? p).isSome → strings.HasPrefix p filter = true) :
    ∀ p, (cov.Endpoints.get? p).isSome → strings.HasPrefix p filter = true := by
  refine analyzeLoop_ok_rec lowerRune fuel document filter
    (fun c _ cov => (∀ p, (c.Endpoints.get? p).isSome → strings.HasPrefix p filter = true) →
      ∀ p, (cov.Endpoints.get? p).isSome → strings.HasPrefix p filter = true)
    ?_ ?_ ?_ c l cov h hc
  · intro c hc
    exact hc
  · intro c mp rest cov v0 v1 _ _ ih hc
    exact ih hc
  · intro c mp rest cov v0 v1 bs _ hpre _ ih hc
    apply ih
    intro p hp
    rw [outer_storeEndpoint] at hp
    by_cases hpp : strings.ToLower lowerRune v1 = p
    · rw [← hpp]
      exact hpre
    · simp only [hpp, decide_False, Bool.false_or] at hp
      exact hc p hp

theorem registerUnits_path (e : Endpoint) (qs bs : List String) :
    (registerUnits e qs bs).Path = e.Path ∧ (registerUnits e qs bs).Method = e.Method :=
  ⟨rfl, rfl⟩

theorem analyzeLoop_path_method (lowerRune : Char → Char) (fuel : Nat) (document : Document)
    (filter : String) (c : Coverage) (l : List String) (cov : Coverage)
    (h : analyzeLoop lowerRune fuel document filter c l = some (some cov, none))
    (hc : ∀ p m e, c.endpoint? p m = some e → e.Path = p ∧ e.Method = m) :
    ∀ p m e, cov.endpoint? p m = some e → e.Path = p ∧ e.Method = m := by
  refine analyzeLoop_ok_rec lowerRune fuel document filter
    (fun c _ cov => (∀ p m e, c.endpoint? p m = some e → e.Path = p ∧ e.Method = m) →
      ∀ p m e, cov.endpoint? p m = some e → e.Path = p ∧ e.Method = m)
    ?_ ?_ ?_ c l cov h hc
  · intro c hc
    exact hc
  · intro c mp rest cov v0 v1 _ _ ih hc
    exact ih hc
  · intro c mp rest cov v0 v1 bs _ _ _ ih hc
    apply ih
    intro p m e he
    rw [endpoint?_storeEndpoint] at he
    split_ifs at he with hpm
    · obtain ⟨rfl, rfl⟩ := hpm
      rw [← Option.some.inj he]
      rw [(registerUnits_path _ _ _).1, (registerUnits_path _ _ _).2, currentEndpoint_eq]
      cases hcur : c.endpoint? (strings.ToLower lowerRune v1) (strings.ToLower lowerRune v0) with
      | none => exact ⟨rfl, rfl⟩
      | some e0 => exact hc _ _ e0 hcur
    · exact hc p m e he

/-- C9: for every document whose operation strings are well formed and whose
    definitions are acyclic, and every filter, AnalyzeSwagger returns a coverage and no
    error, and in that coverage Endpoints[p][m] exists if and only if some operation
    string M, space, P of the document has lower(P) = p, lower(M) = m and p starts with
    the filter (which is compared as given); a path that does not start with the filter
    is not a key of the map; and every stored endpoint has Path = p and Method = m. -/
theorem AnalyzeSwagger_membership (lowerRune : Char → Char) (document : Document)
    (filter : String) (hwf : ∀ mp ∈ document.OperationMethodPaths, WellFormedOp mp)
    (hac : Acyclic document.Definitions) :
    ∃ cov : Coverage,
      AnalyzeSwagger lowerRune (document.Definitions.length + 1) document filter
        = some (some cov, none)
      ∧ (∀ fuel r, AnalyzeSwagger lowerRune fuel document filter = some r →
          r = (some cov, none))
      ∧ (∀ p m, (cov.endpoint? p m).isSome
          ↔ ∃ mp ∈ document.OperationMethodPaths, OpYields lowerRune filter mp p m)
      ∧ (∀ p, strings.HasPrefix p filter = false → cov.Endpoints.get? p = none)
      ∧ (∀ p m e, cov.endpoint? p m = some e → e.Path = p ∧ e.Method = m) := by
  obtain ⟨r, hr⟩ := Option.isSome_iff_exists.mp
    (analyzeLoop_isSome_of_acyclic lowerRune document hac filter emptyCoverage
      document.OperationMethodPaths)
  have hok : ∃ cov, r = (some cov, none) := by
    rcases analyzeLoop_result _ _ _ _ _ _ _ hr with ⟨h1, h2, _⟩ | ⟨_, mp, hmem, h2, _⟩
    · obtain ⟨cov, hcov⟩ := Option.isSome_iff_exists.mp h2
      exact ⟨cov, Prod.ext hcov h1⟩
    · exact absurd (hwf mp hmem) h2
  obtain ⟨cov, rfl⟩ := hok
  refine ⟨cov, hr, fun fuel r' h' => AnalyzeSwagger_unique lowerRune _ _ _ _ _ _ hr h',
    ?_, ?_, ?_⟩
  · intro p m
    rw [analyzeLoop_membership _ _ _ _ _ _ _ hr p m]
    have hempty : (emptyCoverage.endpoint? p m).isSome = false := rfl
    simp only [hempty, Bool.false_eq_true, false_or]
    constructor
    · rintro ⟨mp, hmem, hy⟩
      exact ⟨mp, hmem, (opYields_iff _ _ _ _ _ (hwf mp hmem)).mpr hy⟩
    · rintro ⟨mp, hmem, hy⟩
      exact ⟨mp, hmem, (opYields_iff _ _ _ _ _ (hwf mp hmem)).mp hy⟩
  · intro p hp
    cases hget : cov.Endpoints.get? p with
    | none => rfl
    | some es =>
      have := analyzeLoop_outer_keys _ _ _ _ _ _ _ hr
        (by intro p hp; simp [emptyCoverage, GoMap.get?] at hp) p
        (by simp [hget])
      rw [hp] at this
      exact absurd this (by simp)
  · exact analyzeLoop_path_method _ _ _ _ _ _ _ hr
      (by intro p m e he; simp [emptyCoverage, Coverage.endpoint?, GoMap.get?] at he)

theorem AnalyzeSwagger_membership_witness :
    ∃ cov : Coverage,
      AnalyzeSwagger asciiLower (widgetDocument.Definitions.length + 1) widgetDocument "/wid"
        = some (some cov, none)
      ∧ (∀ fuel r, AnalyzeSwagger asciiLower fuel widgetDocument "/wid" = some r →
          r = (some cov, none))
      ∧ (∀ p m, (cov.endpoint? p m).isSome
          ↔ ∃ mp ∈ widgetDocument.OperationMethodPaths, OpYields asciiLower "/wid" mp p m)
      ∧ (∀ p, strings.HasPrefix p "/wid" = false → cov.Endpoints.get? p = none)
      ∧ (∀ p m e, cov.endpoint? p m = some e → e.Path = p ∧ e.Method = m) :=
  AnalyzeSwagger_membership asciiLower widgetDocument "/wid" (by decide)
    widgetDefinitions_acyclic

/-! ## Units and keys -/

theorem length_registerAll_of_nodup (m : GoMap Int) (ks : List String) (hnd : ks.Nodup)
    (hdisj : ∀ k ∈ ks, k ∉ GoMap.keys m) :
    (registerAll m ks).length = m.length + ks.length := by
  induction ks generalizing m with
  | nil => simp [registerAll]
  | cons a rest ih =>
    have h : registerAll m (a :: rest) = registerAll (m.set a 0) rest := rfl
    have ha : a ∉ GoMap.keys m := hdisj a (List.mem_cons_self _ _)
    have hnd' := List.nodup_cons.mp hnd
    rw [h, ih (m.set a 0) hnd'.2, GoMap.length_set, if_neg ha]
    · simp only [List.length_cons]
      omega
    · intro k hk
      rw [GoMap.keys_set, if_neg ha]
      simp only [List.mem_append, List.mem_singleton, not_or]
      refine ⟨hdisj k (List.mem_cons_of_mem _ hk), ?_⟩
      rintro rfl
      exact hnd'.1 hk

theorem keyUnits_le_registerUnits (e : Endpoint) (qs bs : List String)
    (h : keyUnits e ≤ e.ExpectedUniqueHits) :
    keyUnits (registerUnits e qs bs) ≤ (registerUnits e qs bs).ExpectedUniqueHits := by
  have h1 := length_registerAll_le e.ParamsHitsDetails.Query qs
  have h2 := length_registerAll_le e.ParamsHitsDetails.Body bs
  unfold keyUnits at h ⊢
  simp only [GoMap.keys, List.length_map, registerUnits] at h ⊢
  omega

theorem keyUnits_registerUnits_new (path method : String) (qs bs : List String)
    (hq : qs.Nodup) (hb : bs.Nodup) :
    (registerUnits (newEndpoint path method) qs bs).ExpectedUniqueHits
      = keyUnits (registerUnits (newEndpoint path method) qs bs) := by
  have h1 := length_registerAll_of_nodup [] qs hq (by simp [GoMap.keys])
  have h2 := length_registerAll_of_nodup [] bs hb (by simp [GoMap.keys])
  unfold keyUnits
  simp only [GoMap.keys, List.length_map, registerUnits, newEndpoint, h1, h2,
    List.length_nil]
  push_cast
  ring

theorem analyzeLoop_keyUnits_le (lowerRune : Char → Char) (fuel : Nat) (document : Document)
    (filter : String) (c : Coverage) (l : List String) (cov : Coverage)
    (h : analyzeLoop lowerRune fuel document filter c l = some (some cov, none))
    (hc : ∀ p m e, c.endpoint? p m = some e → keyUnits e ≤ e.ExpectedUniqueHits) :
    ∀ p m e, cov.endpoint? p m = some e → keyUnits e ≤ e.ExpectedUniqueHits := by
  refine analyzeLoop_ok_rec lowerRune fuel document filter
    (fun c _ cov => (∀ p m e, c.endpoint? p m = some e → keyUnits e ≤ e.ExpectedUniqueHits) →
      ∀ p m e, cov.endpoint? p m = some e → keyUnits e ≤ e.ExpectedUniqueHits)
    ?_ ?_ ?_ c l cov h hc
  · intro c hc
    exact hc
  · intro c mp rest cov v0 v1 _ _ ih hc
    exact ih hc
  · intro c mp rest cov v0 v1 bs _ _ _ ih hc
    apply ih
    intro p m e he
    rw [endpoint?_storeEndpoint] at he
    split_ifs at he with hpm
    · rw [← Option.some.inj he]
      apply keyUnits_le_registerUnits
      rw [currentEndpoint_eq]
      cases hcur : c.endpoint? (strings.ToLower lowerRune v1) (strings.ToLower lowerRune v0) with
      | none =>
        show keyUnits (newEndpoint _ _) ≤ (newEndpoint _ _).ExpectedUniqueHits
        simp [keyUnits, newEndpoint, GoMap.keys]
      | some e0 => exact hc _ _ e0 hcur
    · exact hc p m e he

theorem analyzeLoop_keyUnits_eq (lowerRune : Char → Char) (fuel : Nat) (document : Document)
    (filter : String)
    (hregs : ∀ method path,
      (queryRegs (document.ParamsFor method path)).Nodup
      ∧ ∀ bs, bodyRegs fuel document.Definitions (document.ParamsFor method path) = some bs →
          bs.Nodup)
    (c : Coverage) (l : List String) (cov : Coverage)
    (h : analyzeLoop lowerRune fuel document filter c l = some (some cov, none))
    (hnd : (l.map (opKey lowerRune)).Nodup)
    (hfresh : ∀ p m, (c.endpoint? p m).isSome → ∀ mp ∈ l, opKey lowerRune mp ≠ [m, p])
    (hc : ∀ p m e, c.endpoint? p m = some e → e.ExpectedUniqueHits = keyUnits e) :
    ∀ p m e, cov.endpoint? p m = some e → e.ExpectedUniqueHits = keyUnits e := by
  refine analyzeLoop_ok_rec lowerRune fuel document filter
    (fun c l cov => (l.map (opKey lowerRune)).Nodup →
      (∀ p m, (c.endpoint? p m).isSome → ∀ mp ∈ l, opKey lowerRune mp ≠ [m, p]) →
      (∀ p m e, c.endpoint? p m = some e → e.ExpectedUniqueHits = keyUnits e) →
      ∀ p m e, cov.endpoint? p m = some e → e.ExpectedUniqueHits = keyUnits e)
    ?_ ?_ ?_ c l cov h hnd hfresh hc
  · intro c _ _ hc
    exact hc
  · intro c mp rest cov v0 v1 _ _ ih hnd hfresh hc
    exact ih (List.nodup_cons.mp hnd).2
      (fun p m hs mp' hmem => hfresh p m hs mp' (List.mem_cons_of_mem _ hmem)) hc
  · intro c mp rest cov v0 v1 bs hsp _ hbs ih hnd hfresh hc
    have hkey : opKey lowerRune mp
        = [strings.ToLower lowerRune v0, strings.ToLower lowerRune v1] := by
      simp [opKey, hsp]
    have hnone : c.endpoint? (strings.ToLower lowerRune v1) (strings.ToLower lowerRune v0)
        = none := by
      cases hcur : c.endpoint? (strings.ToLower lowerRune v1) (strings.ToLower lowerRune v0) with
      | none => rfl
      | some e0 =>
        exact absurd hkey (hfresh _ _ (by simp [hcur]) mp (List.mem_cons_self _ _))
    have hnd' : opKey lowerRune mp ∉ rest.map (opKey lowerRune)
        ∧ (rest.map (opKey lowerRune)).Nodup := by
      rw [List.map_cons] at hnd
      exact List.nodup_cons.mp hnd
    apply ih hnd'.2
    · intro p m hs mp' hmem
      rw [endpoint?_storeEndpoint] at hs
      by_cases hpm : strings.ToLower lowerRune v1 = p ∧ strings.ToLower lowerRune v0 = m
      · obtain ⟨rfl, rfl⟩ := hpm
        intro heq
        apply hnd'.1
        rw [hkey, ← heq]
        exact List.mem_map_of_mem _ hmem
      · rw [if_neg hpm] at hs
        exact hfresh p m hs mp' (List.mem_cons_of_mem _ hmem)
    · intro p m e he
      rw [endpoint?_storeEndpoint] at he
      split_ifs at he with hpm
      · rw [← Option.some.inj he, currentEndpoint_eq, hnone]
        exact keyUnits_registerUnits_new _ _ _ _ (hregs _ _).1 ((hregs _ _).2 bs hbs)
      · exact hc p m e he

/-! ## Claim on the units of an endpoint -/

/-- C10, as stated, fails: the contract with the paths /Foo and /foo is well formed
    and has no definitions, both operation strings reach the endpoint get /foo, and
    each adds 1 for the query parameter limit: ExpectedUniqueHits is 3 while the
    endpoint has one query key and no body key. -/
theorem AnalyzeSwagger_units_counterexample :
    (∀ mp ∈ duplicateDocument.OperationMethodPaths, WellFormedOp mp)
    ∧ Acyclic duplicateDocument.Definitions
    ∧ (∀ fuel, AnalyzeSwagger asciiLower (fuel + 1) duplicateDocument ""
        = some (some duplicateCoverage, none))
    ∧ duplicateCoverage.endpoint? "/foo" "get" = some duplicateEndpoint
    ∧ duplicateEndpoint.ExpectedUniqueHits = 3
    ∧ (GoMap.keys duplicateEndpoint.ParamsHitsDetails.Query).length = 1
    ∧ (GoMap.keys duplicateEndpoint.ParamsHitsDetails.Body).length = 0
    ∧ duplicateEndpoint.ExpectedUniqueHits ≠ keyUnits duplicateEndpoint := by
  refine ⟨by decide, acyclic_of_rank _ (fun _ => 0) (by decide), ?_, by decide, by decide,
    by decide, by decide, by decide⟩
  intro fuel
  exact AnalyzeSwagger_mono asciiLower (Nat.succ_le_succ (Nat.zero_le fuel)) _ _ _ (by decide)

/-- C10, amended: for every document whose operation strings are well formed and
    whose definitions are acyclic, and every filter, AnalyzeSwagger returns a coverage
    in which every endpoint has
    ExpectedUniqueHits ≥ 1 + (number of Query keys) + (number of Body keys): every
    registration adds 1, also that of a key registered before. Equality holds when no
    unit is registered twice: no two operation strings lower-case to the same method
    and path, and the query parameter names and the registered body paths of each
    operation are pairwise distinct. -/
theorem AnalyzeSwagger_units (lowerRune : Char → Char) (document : Document)
    (filter : String) (hwf : ∀ mp ∈ document.OperationMethodPaths, WellFormedOp mp)
    (hac : Acyclic document.Definitions) :
    ∃ cov : Coverage,
      AnalyzeSwagger lowerRune (document.Definitions.length + 1) document filter
        = some (some cov, none)
      ∧ (∀ fuel r, AnalyzeSwagger lowerRune fuel document filter = some r →
          r = (some cov, none))
      ∧ (∀ p m e, cov.endpoint? p m = some e → keyUnits e ≤ e.ExpectedUniqueHits)
      ∧ (DistinctUnits lowerRune (document.Definitions.length + 1) document →
          ∀ p m e, cov.endpoint? p m = some e → e.ExpectedUniqueHits = keyUnits e) := by
  obtain ⟨r, hr⟩ := Option.isSome_iff_exists.mp
    (analyzeLoop_isSome_of_acyclic lowerRune document hac filter emptyCoverage
      document.OperationMethodPaths)
  have hok : ∃ cov, r = (some cov, none) := by
    rcases analyzeLoop_result _ _ _ _ _ _ _ hr with ⟨h1, h2, _⟩ | ⟨_, mp, hmem, h2, _⟩
    · obtain ⟨cov, hcov⟩ := Option.isSome_iff_exists.mp h2
      exact ⟨cov, Prod.ext hcov h1⟩
    · exact absurd (hwf mp hmem) h2
  obtain ⟨cov, rfl⟩ := hok
  have hempty : ∀ p m, emptyCoverage.endpoint? p m = none := fun _ _ => rfl
  refine ⟨cov, hr, fun fuel r' h' => AnalyzeSwagger_unique lowerRune _ _ _ _ _ _ hr h',
    ?_, ?_⟩
  · exact analyzeLoop_keyUnits_le _ _ _ _ _ _ _ hr
      (by intro p m e he; rw [hempty] at he; exact absurd he (by simp))
  · intro hd
    exact analyzeLoop_keyUnits_eq _ _ _ _ hd.2 _ _ _ hr hd.1
      (by intro p m hs; rw [hempty] at hs; exact absurd hs (by simp))
      (by intro p m e he; rw [hempty] at he; exact absurd he (by simp))

theorem widgetDocument_distinctUnits :
    DistinctUnits asciiLower (widgetDocument.Definitions.length + 1) widgetDocument := by
  refine ⟨by decide, ?_⟩
  intro method path
  by_cases h : method = "post" ∧ path = "/widgets"
  · have hp : widgetDocument.ParamsFor method path
        = [("query#Limit", { Name := "limit", In := "query", Schema := none }),
           ("body#Body", bodyParam "body" (refTo "Widget"))] := by
      simp [widgetDocument, h]
    rw [hp]
    refine ⟨by decide, ?_⟩
    intro bs hbs
    have hb : bodyRegs (widgetDocument.Definitions.length + 1) widgetDocument.Definitions
        [("query#Limit", { Name := "limit", In := "query", Schema := none }),
         ("body#Body", bodyParam "body" (refTo "Widget"))]
        = some ["body.name", "body.size"] := by decide
    rw [hb] at hbs
    rw [← Option.some.inj hbs]
    decide
  · have hp : widgetDocument.ParamsFor method path = [] := by
      simp [widgetDocument, h]
    rw [hp]
    refine ⟨by decide, ?_⟩
    intro bs hbs
    simp only [bodyRegs, Option.some.injEq] at hbs
    rw [← hbs]
    exact List.nodup_nil

theorem AnalyzeSwagger_units_witness :
    ∃ cov : Coverage,
      AnalyzeSwagger asciiLower (widgetDocument.Definitions.length + 1) widgetDocument ""
        = some (some cov, none)
      ∧ (∀ p m e, cov.endpoint? p m = some e → keyUnits e ≤ e.ExpectedUniqueHits)
      ∧ (∀ p m e, cov.endpoint? p m = some e → e.ExpectedUniqueHits = keyUnits e) := by
  obtain ⟨cov, h1, _, h3, h4⟩ :=
    AnalyzeSwagger_units asciiLower widgetDocument "" (by decide) widgetDefinitions_acyclic
  exact ⟨cov, h1, h3, h4 widgetDocument_distinctUnits⟩

/-! ## Aggregation: the endpoint map after calculateCoverage -/

theorem calculateMethods_snd (t : Totals) (es : GoMap Endpoint) :
    (calculateMethods t es).2 = es.map (fun me => (me.1, calculateEndpoint me.2)) := by
  induction es generalizing t with
  | nil => rfl
  | cons me rest ih =>
    obtain ⟨m, e⟩ := me
    simp only [calculateMethods, List.map_cons, ih]

theorem calculatePaths_snd (t : Totals) (eps : GoMap (GoMap Endpoint)) :
    (calculatePaths t eps).2
      = eps.map (fun pe => (pe.1, pe.2.map (fun me => (me.1, calculateEndpoint me.2)))) := by
  induction eps generalizing t with
  | nil => rfl
  | cons pe rest ih =>
    obtain ⟨p, es⟩ := pe
    simp only [calculatePaths, List.map_cons, ih, calculateMethods_snd]

theorem calculateCoverage_endpoints (c : Coverage) :
    (calculateCoverage c).Endpoints
      = c.Endpoints.map
          (fun pe => (pe.1, pe.2.map (fun me => (me.1, calculateEndpoint me.2)))) :=
  calculatePaths_snd _ _

theorem GoMap.get?_map_values {V W : Type} (f : V → W) (m : GoMap V) (k : String) :
    GoMap.get? (m.map (fun kv => (kv.1, f kv.2))) k = (GoMap.get? m k).map f := by
  induction m with
  | nil => rfl
  | cons a rest ih =>
    obtain ⟨a1, a2⟩ := a
    by_cases h : a1 = k
    · simp [GoMap.get?, h]
    · simp only [List.map_cons, GoMap.get?, h, if_false]
      exact ih

theorem GoMap.keys_map_values {V W : Type} (f : V → W) (m : GoMap V) :
    GoMap.keys (m.map (fun kv => (kv.1, f kv.2))) = GoMap.keys m := by
  simp [GoMap.keys, List.map_map, Function.comp_def]

theorem endpoint?_calculateCoverage (c : Coverage) (p m : String) :
    (calculateCoverage c).endpoint? p m = (c.endpoint? p m).map calculateEndpoint := by
  unfold Coverage.endpoint?
  rw [calculateCoverage_endpoints]
  have h := GoMap.get?_map_values
    (fun es : GoMap Endpoint => es.map (fun me => (me.1, calculateEndpoint me.2)))
    c.Endpoints p
  simp only at h
  rw [h]
  cases c.Endpoints.get? p with
  | none => rfl
  | some es =>
    simp only [Option.map_some', Option.some_bind]
    exact GoMap.get?_map_values calculateEndpoint es m

theorem calculateEndpoint_percent_zero (e : Endpoint) (h : ¬ e.ExpectedUniqueHits > 0) :
    (calculateEndpoint e).Percent = 0 := by
  unfold calculateEndpoint
  simp only
  split_ifs <;> simp_all

theorem calculateEndpoint_frame (e : Endpoint) :
    calculateEndpoint e
      = { e with
          UniqueHits := (calculateEndpoint e).UniqueHits
          Percent := (calculateEndpoint e).Percent } := by
  unfold calculateEndpoint
  simp only
  split_ifs <;> rfl

theorem addTotals_calculateEndpoint_zero (t : Totals) (e : Endpoint)
    (h : e.ExpectedUniqueHits = 0) : addTotals t (calculateEndpoint e) = t := by
  unfold addTotals
  rw [calculateEndpoint_expected, h]
  simp

theorem sumPositive_filter_ne_zero (f : Endpoint → Int)
    (l : List ((String × String) × Endpoint)) :
    sumPositive f (l.filter (fun a => decide (a.2.ExpectedUniqueHits ≠ 0)))
      = sumPositive f l := by
  unfold sumPositive
  rw [List.filter_filter]
  congr 2
  apply List.filter_congr
  intro a _
  by_cases h : a.2.ExpectedUniqueHits > 0
  · have : a.2.ExpectedUniqueHits ≠ 0 := by omega
    simp [h, this]
  · simp [h]

theorem sumPositive_bounds (l : List ((String × String) × Endpoint))
    (h : ∀ a ∈ l, a.2.ExpectedUniqueHits > 0 →
      0 ≤ a.2.UniqueHits ∧ a.2.UniqueHits ≤ a.2.ExpectedUniqueHits) :
    0 ≤ sumPositive (fun e => e.UniqueHits) l
    ∧ sumPositive (fun e => e.UniqueHits) l
        ≤ sumPositive (fun e => e.ExpectedUniqueHits) l := by
  induction l with
  | nil => simp [sumPositive]
  | cons a rest ih =>
    have ih' := ih (fun x hx => h x (List.mem_cons_of_mem _ hx))
    have ha := h a (List.mem_cons_self _ _)
    unfold sumPositive at ih' ⊢
    simp only at ih' ⊢
    by_cases hpos : a.2.ExpectedUniqueHits > 0
    · simp only [List.filter_cons, hpos, decide_True, if_true, List.map_cons, List.sum_cons]
      have := ha hpos
      omega
    · simp only [List.filter_cons, hpos, decide_False]
      exact ih'

/-! ## Claims on calculateCoverage -/

theorem sumPositive_expected_calculateCoverage (c : Coverage) :
    sumPositive (fun e => e.ExpectedUniqueHits) (calculateCoverage c).entries
      = sumPositive (fun e => e.ExpectedUniqueHits) c.entries := by
  rw [calculateCoverage_entries]
  generalize c.entries = l
  induction l with
  | nil => rfl
  | cons a rest ih =>
    unfold sumPositive at ih ⊢
    simp only [List.map_cons, List.filter_cons, calculateEndpoint_expected]
    by_cases hpos : a.2.ExpectedUniqueHits > 0
    · simp only [hpos, decide_True, if_true, List.map_cons, List.sum_cons,
        calculateEndpoint_expected]
      rw [ih]
    · simp only [hpos, decide_False]
      exact ih

theorem filter_positive_filter_ne_zero (l : List ((String × String) × Endpoint)) :
    (l.filter (fun a => decide (a.2.ExpectedUniqueHits ≠ 0))).filter
        (fun a => decide (a.2.ExpectedUniqueHits > 0))
      = l.filter (fun a => decide (a.2.ExpectedUniqueHits > 0)) := by
  rw [List.filter_filter]
  apply List.filter_congr
  intro a _
  by_cases h : a.2.ExpectedUniqueHits > 0
  · have : a.2.ExpectedUniqueHits ≠ 0 := by omega
    simp [h, this]
  · simp [h]

/-- C13, as stated, fails: the stored totals of the coverage are 0 and the raw
    UniqueHits of its endpoint is maxInt ≥ 0; the credit for the call wraps around
    to minInt, and after calculateCoverage the Percent of the endpoint and the
    Percent of the coverage are negative. -/
theorem calculateCoverage_percent_counterexample :
    maxedCoverage.ExpectedUniqueHits = 0 ∧ maxedCoverage.UniqueHits = 0
    ∧ (∀ a ∈ maxedCoverage.entries, 0 ≤ a.2.UniqueHits)
    ∧ (∃ e, (calculateCoverage maxedCoverage).endpoint? "/widgets" "post" = some e
        ∧ e.Percent < 0)
    ∧ (calculateCoverage maxedCoverage).Percent < 0 := by
  have hu : (calculateEndpoint maxedEndpoint).UniqueHits = -9223372036854775808 := by decide
  have he : (calculateEndpoint maxedEndpoint).ExpectedUniqueHits = 4 := by decide
  have hcu : (calculateCoverage maxedCoverage).UniqueHits = -9223372036854775808 := by decide
  have hce : (calculateCoverage maxedCoverage).ExpectedUniqueHits = 4 := by decide
  refine ⟨rfl, rfl, by decide, ⟨calculateEndpoint maxedEndpoint, ?_, ?_⟩, ?_⟩
  · rw [endpoint?_calculateCoverage]
    rfl
  · rw [calculateEndpoint_percent _ (by rw [he]; decide), hu, he]
    norm_num
  · rw [calculateCoverage_percent, hcu, hce]
    norm_num

/-- C13, amended: for a coverage whose stored totals are 0, whose endpoints all have
    raw UniqueHits ≥ 0, and in which no addition leaves the range of int (raw
    UniqueHits + 1 of every called endpoint, and the sum of ExpectedUniqueHits over the
    endpoints with ExpectedUniqueHits > 0), after calculateCoverage the Percent of every
    endpoint and the Percent of the coverage lie in [0, 100] (percent as the exact
    ratio). -/
theorem calculateCoverage_percent_range (c : Coverage)
    (hE : c.ExpectedUniqueHits = 0) (hU : c.UniqueHits = 0)
    (hraw : ∀ a ∈ c.entries, 0 ≤ a.2.UniqueHits)
    (hcredit : ∀ a ∈ c.entries, a.2.MethodCalled = true → IsGoInt (a.2.UniqueHits + 1))
    (hsum : IsGoInt (sumPositive (fun e => e.ExpectedUniqueHits) c.entries)) :
    (∀ a ∈ (calculateCoverage c).entries, 0 ≤ a.2.Percent ∧ a.2.Percent ≤ 100)
    ∧ 0 ≤ (calculateCoverage c).Percent ∧ (calculateCoverage c).Percent ≤ 100 := by
  have hent : ∀ a ∈ (calculateCoverage c).entries,
      (a.2.ExpectedUniqueHits > 0 →
        0 ≤ a.2.UniqueHits ∧ a.2.UniqueHits ≤ a.2.ExpectedUniqueHits)
      ∧ 0 ≤ a.2.Percent ∧ a.2.Percent ≤ 100 := by
    intro a ha
    rw [calculateCoverage_entries, List.mem_map] at ha
    obtain ⟨b, hb, rfl⟩ := ha
    have hb0 := hraw b hb
    have hbound : (calculateEndpoint b.2).ExpectedUniqueHits > 0 →
        0 ≤ (calculateEndpoint b.2).UniqueHits
        ∧ (calculateEndpoint b.2).UniqueHits ≤ (calculateEndpoint b.2).ExpectedUniqueHits := by
      intro hpos
      rw [calculateEndpoint_expected] at hpos
      rw [calculateEndpoint_hits b.2 (hcredit b hb), calculateEndpoint_expected]
      refine ⟨le_min ?_ (le_of_lt hpos), min_le_right _ _⟩
      split_ifs <;> omega
    refine ⟨hbound, ?_⟩
    show 0 ≤ (calculateEndpoint b.2).Percent ∧ (calculateEndpoint b.2).Percent ≤ 100
    by_cases hpos : (calculateEndpoint b.2).ExpectedUniqueHits > 0
    · obtain ⟨h1, h2⟩ := hbound hpos
      rw [calculateEndpoint_percent b.2 hpos]
      have hq1 : (0 : ℚ) ≤ ((calculateEndpoint b.2).UniqueHits : ℚ) := by exact_mod_cast h1
      have hq2 : ((calculateEndpoint b.2).UniqueHits : ℚ)
          ≤ ((calculateEndpoint b.2).ExpectedUniqueHits : ℚ) := by exact_mod_cast h2
      have hq3 : (0 : ℚ) < ((calculateEndpoint b.2).ExpectedUniqueHits : ℚ) := by
        exact_mod_cast hpos
      constructor
      · positivity
      · rw [div_le_iff₀ hq3]
        linarith
    · rw [calculateEndpoint_expected] at hpos
      rw [calculateEndpoint_percent_zero b.2 hpos]
      norm_num
  refine ⟨fun a ha => (hent a ha).2, ?_⟩
  obtain ⟨s1, s2⟩ := sumPositive_bounds (calculateCoverage c).entries
    (fun a ha => (hent a ha).1)
  have hsum' := hsum
  rw [← sumPositive_expected_calculateCoverage] at hsum'
  have hrangeE : IsGoInt (c.ExpectedUniqueHits
      + sumPositive (fun e => e.ExpectedUniqueHits) (calculateCoverage c).entries) := by
    rw [hE, zero_add]
    exact hsum'
  have hrangeU : IsGoInt (c.UniqueHits
      + sumPositive (fun e => e.UniqueHits) (calculateCoverage c).entries) := by
    rw [hU, zero_add]
    unfold IsGoInt minInt maxInt at hsum' ⊢
    omega
  obtain ⟨t1, t2⟩ := calculateCoverage_totals c hrangeE hrangeU
  rw [hE, zero_add] at t1
  rw [hU, zero_add] at t2
  rw [← t2] at s1 s2
  rw [← t1] at s2
  rw [calculateCoverage_percent]
  split_ifs with hpos
  · have hq1 : (0 : ℚ) ≤ ((calculateCoverage c).UniqueHits : ℚ) := by exact_mod_cast s1
    have hq2 : ((calculateCoverage c).UniqueHits : ℚ)
        ≤ ((calculateCoverage c).ExpectedUniqueHits : ℚ) := by exact_mod_cast s2
    have hq3 : (0 : ℚ) < ((calculateCoverage c).ExpectedUniqueHits : ℚ) := by
      exact_mod_cast hpos
    constructor
    · positivity
    · rw [div_le_iff₀ hq3]
      linarith
  · norm_num

theorem calculateCoverage_percent_range_witness :
    (∀ a ∈ (calculateCoverage (observeWidgets widgetCoverage)).entries,
      0 ≤ a.2.Percent ∧ a.2.Percent ≤ 100)
    ∧ 0 ≤ (calculateCoverage (observeWidgets widgetCoverage)).Percent
    ∧ (calculateCoverage (observeWidgets widgetCoverage)).Percent ≤ 100 :=
  calculateCoverage_percent_range (observeWidgets widgetCoverage) rfl rfl (by decide)
    (by decide) (by decide)

theorem calculateEndpoint_fields (e : Endpoint) :
    (calculateEndpoint e).Path = e.Path ∧ (calculateEndpoint e).Method = e.Method
    ∧ (calculateEndpoint e).MethodCalled = e.MethodCalled
    ∧ (calculateEndpoint e).ParamsHitsDetails = e.ParamsHitsDetails := by
  unfold calculateEndpoint
  simp only
  split_ifs <;> exact ⟨rfl, rfl, rfl, rfl⟩

/-- C14: an endpoint with ExpectedUniqueHits = 0 has Percent = 0 after
    calculateCoverage and adds nothing to the two totals; accordingly the totals and
    the Percent of the coverage are the same as for a coverage with the same stored
    totals from which the entries with ExpectedUniqueHits = 0 are absent. -/
theorem calculateCoverage_degenerate (c c' : Coverage)
    (hE : c'.ExpectedUniqueHits = c.ExpectedUniqueHits) (hU : c'.UniqueHits = c.UniqueHits)
    (habsent : c'.entries
      = c.entries.filter (fun a => decide (a.2.ExpectedUniqueHits ≠ 0))) :
    (∀ a ∈ (calculateCoverage c).entries, a.2.ExpectedUniqueHits = 0 → a.2.Percent = 0)
    ∧ (∀ (t : Totals) (e : Endpoint), e.ExpectedUniqueHits = 0 →
        addTotals t (calculateEndpoint e) = t)
    ∧ (calculateCoverage c').UniqueHits = (calculateCoverage c).UniqueHits
    ∧ (calculateCoverage c').ExpectedUniqueHits = (calculateCoverage c).ExpectedUniqueHits
    ∧ (calculateCoverage c').Percent = (calculateCoverage c).Percent := by
  have hfilter : (calculateCoverage c').entries
      = (calculateCoverage c).entries.filter
          (fun a => decide (a.2.ExpectedUniqueHits ≠ 0)) := by
    rw [calculateCoverage_entries, calculateCoverage_entries, habsent, List.filter_map]
    congr 1
    apply List.filter_congr
    intro a _
    simp [Function.comp_def, calculateEndpoint_expected]
  have hU' : (calculateCoverage c').UniqueHits = (calculateCoverage c).UniqueHits := by
    rw [(calculateCoverage_totals_wrap c').2, (calculateCoverage_totals_wrap c).2, hfilter,
      filter_positive_filter_ne_zero, sumPositive_filter_ne_zero, hU]
  have hE' : (calculateCoverage c').ExpectedUniqueHits
      = (calculateCoverage c).ExpectedUniqueHits := by
    rw [(calculateCoverage_totals_wrap c').1, (calculateCoverage_totals_wrap c).1, hfilter,
      filter_positive_filter_ne_zero, sumPositive_filter_ne_zero, hE]
  refine ⟨?_, addTotals_calculateEndpoint_zero, hU', hE', ?_⟩
  · intro a ha h0
    rw [calculateCoverage_entries, List.mem_map] at ha
    obtain ⟨b, _, rfl⟩ := ha
    have h0' : b.2.ExpectedUniqueHits = 0 := by
      rw [← calculateEndpoint_expected]
      exact h0
    exact calculateEndpoint_percent_zero b.2 (by omega)
  · rw [calculateCoverage_percent, calculateCoverage_percent, hU', hE']

theorem calculateCoverage_degenerate_witness :
    (∀ a ∈ (calculateCoverage degenerateCoverage).entries,
      a.2.ExpectedUniqueHits = 0 → a.2.Percent = 0)
    ∧ (∀ (t : Totals) (e : Endpoint), e.ExpectedUniqueHits = 0 →
        addTotals t (calculateEndpoint e) = t)
    ∧ (calculateCoverage (observeWidgets widgetCoverage)).UniqueHits
        = (calculateCoverage degenerateCoverage).UniqueHits
    ∧ (calculateCoverage (observeWidgets widgetCoverage)).ExpectedUniqueHits
        = (calculateCoverage degenerateCoverage).ExpectedUniqueHits
    ∧ (calculateCoverage (observeWidgets widgetCoverage)).Percent
        = (calculateCoverage degenerateCoverage).Percent :=
  calculateCoverage_degenerate degenerateCoverage (observeWidgets widgetCoverage) rfl rfl
    (by decide)

/-- C15: when an endpoint of the coverage has MethodCalled set and raw
    UniqueHits + 2 ≤ ExpectedUniqueHits (both counters being values of int), one run
    of calculateCoverage leaves it with UniqueHits = raw + 1 and two runs leave it with
    UniqueHits = raw + 2, so that calculateCoverage applied twice differs from
    calculateCoverage applied once. -/
theorem calculateCoverage_twice (c : Coverage) (p m : String) (e : Endpoint)
    (hfound : c.endpoint? p m = some e) (hcalled : e.MethodCalled = true)
    (hroom : e.UniqueHits + 2 ≤ e.ExpectedUniqueHits)
    (hhits : IsGoInt e.UniqueHits) (hexpected : IsGoInt e.ExpectedUniqueHits) :
    ((calculateCoverage c).endpoint? p m).map (fun x => x.UniqueHits)
        = some (e.UniqueHits + 1)
    ∧ ((calculateCoverage (calculateCoverage c)).endpoint? p m).map (fun x => x.UniqueHits)
        = some (e.UniqueHits + 2)
    ∧ calculateCoverage (calculateCoverage c) ≠ calculateCoverage c := by
  have hcalled1 : (calculateEndpoint e).MethodCalled = true := by
    rw [(calculateEndpoint_fields e).2.2.1]
    exact hcalled
  have hr1 : IsGoInt (e.UniqueHits + 1) := by
    unfold IsGoInt minInt maxInt at hhits hexpected ⊢
    omega
  have hr2 : IsGoInt (e.UniqueHits + 1 + 1) := by
    unfold IsGoInt minInt maxInt at hhits hexpected ⊢
    omega
  have h1 : (calculateEndpoint e).UniqueHits = e.UniqueHits + 1 := by
    rw [calculateEndpoint_hits e (fun _ => hr1), hcalled]
    simp only [if_true]
    exact min_eq_left (by omega)
  have h2 : (calculateEndpoint (calculateEndpoint e)).UniqueHits = e.UniqueHits + 2 := by
    rw [calculateEndpoint_hits _ (fun _ => by rw [h1]; exact hr2), hcalled1, h1,
      calculateEndpoint_expected]
    simp only [if_true]
    rw [min_eq_left (by omega)]
    ring
  have r1 : ((calculateCoverage c).endpoint? p m).map (fun x => x.UniqueHits)
      = some (e.UniqueHits + 1) := by
    rw [endpoint?_calculateCoverage, hfound]
    simp [h1]
  have r2 : ((calculateCoverage (calculateCoverage c)).endpoint? p m).map
      (fun x => x.UniqueHits) = some (e.UniqueHits + 2) := by
    rw [endpoint?_calculateCoverage, endpoint?_calculateCoverage, hfound]
    simp [h2]
  refine ⟨r1, r2, ?_⟩
  intro heq
  rw [heq, r1] at r2
  have := Option.some.inj r2
  omega

theorem calculateCoverage_twice_witness :
    ((calculateCoverage calledCoverage).endpoint? "/widgets" "post").map
        (fun x => x.UniqueHits) = some (1 + 1)
    ∧ ((calculateCoverage (calculateCoverage calledCoverage)).endpoint? "/widgets" "post").map
        (fun x => x.UniqueHits) = some (1 + 2)
    ∧ calculateCoverage (calculateCoverage calledCoverage) ≠ calculateCoverage calledCoverage :=
  calculateCoverage_twice calledCoverage "/widgets" "post" calledEndpoint
    (by decide) rfl (by decide) (by decide) (by decide)

/-- C17: calculateCoverage changes nothing of the endpoint map but the UniqueHits
    and the Percent of the endpoints: the path keys and the method keys below every
    path are the same, the endpoint stored at a path and method is the old one with
    new UniqueHits and Percent, and entry by entry the keys, Path, Method,
    ExpectedUniqueHits, MethodCalled and the two maps of ParamsHitsDetails are unchanged. -/
theorem calculateCoverage_frame (c : Coverage) :
    GoMap.keys (calculateCoverage c).Endpoints = GoMap.keys c.Endpoints
    ∧ (∀ p, ((calculateCoverage c).Endpoints.get? p).map GoMap.keys
        = (c.Endpoints.get? p).map GoMap.keys)
    ∧ (∀ p m, (calculateCoverage c).endpoint? p m
        = (c.endpoint? p m).map (fun e =>
            { e with
              UniqueHits := (calculateEndpoint e).UniqueHits
              Percent := (calculateEndpoint e).Percent }))
    ∧ List.Forall₂
        (fun a b => b.1 = a.1 ∧ b.2.Path = a.2.Path ∧ b.2.Method = a.2.Method
          ∧ b.2.ExpectedUniqueHits = a.2.ExpectedUniqueHits
          ∧ b.2.MethodCalled = a.2.MethodCalled
          ∧ b.2.ParamsHitsDetails = a.2.ParamsHitsDetails)
        c.entries (calculateCoverage c).entries := by
  refine ⟨?_, ?_, ?_, ?_⟩
  · rw [calculateCoverage_endpoints]
    exact GoMap.keys_map_values
      (fun es : GoMap Endpoint => es.map (fun me => (me.1, calculateEndpoint me.2))) c.Endpoints
  · intro p
    rw [calculateCoverage_endpoints]
    have h := GoMap.get?_map_values
      (fun es : GoMap Endpoint => es.map (fun me => (me.1, calculateEndpoint me.2)))
      c.Endpoints p
    simp only at h
    rw [h, Option.map_map]
    congr 1
    funext es
    exact GoMap.keys_map_values calculateEndpoint es
  · intro p m
    rw [endpoint?_calculateCoverage]
    congr 1
    funext e
    exact calculateEndpoint_frame e
  · rw [calculateCoverage_entries, List.forall₂_map_right_iff]
    refine List.forall₂_same.mpr (fun a _ => ?_)
    obtain ⟨h1, h2, h3, h4⟩ := calculateEndpoint_fields a.2
    exact ⟨rfl, h1, h2, calculateEndpoint_expected a.2, h3, h4⟩

/-! ## Claims on the classification of parameters and on the base unit -/

/-- C11: one parameter processed by addSwaggerParams: a parameter with In = query
    sets Query[name] = 0 and adds exactly 1 to ExpectedUniqueHits, leaving Body
    unchanged; a parameter with In = body and no schema sets Body[name] = 0 and adds
    exactly 1, leaving Query unchanged; a parameter with any other location leaves the
    endpoint unchanged. This holds for the round of the loop and for a parameter map
    with the one parameter. -/
theorem addSwaggerParams_classification (fuel : Nat) (definitions : Definitions)
    (endpoint : Endpoint) (key : String) (param : Parameter) :
    (param.In = "query" →
      addSwaggerParam fuel definitions endpoint param
        = some { endpoint with
            ParamsHitsDetails := { endpoint.ParamsHitsDetails with
              Query := endpoint.ParamsHitsDetails.Query.set param.Name 0 }
            ExpectedUniqueHits := endpoint.ExpectedUniqueHits + 1 })
    ∧ (param.In = "body" → param.Schema = none →
      addSwaggerParam fuel definitions endpoint param
        = some { endpoint with
            ParamsHitsDetails := { endpoint.ParamsHitsDetails with
              Body := endpoint.ParamsHitsDetails.Body.set param.Name 0 }
            ExpectedUniqueHits := endpoint.ExpectedUniqueHits + 1 })
    ∧ (param.In ≠ "query" → param.In ≠ "body" →
      addSwaggerParam fuel definitions endpoint param = some endpoint)
    ∧ addSwaggerParams fuel endpoint [(key, param)] definitions
        = addSwaggerParam fuel definitions endpoint param := by
  refine ⟨?_, ?_, ?_, ?_⟩
  · intro hq
    have hb : ¬ param.In = "body" := by rw [hq]; decide
    simp [addSwaggerParam, hq, hb]
  · intro hb hs
    simp [addSwaggerParam, hb, hs]
  · intro hq hb
    simp [addSwaggerParam, hq, hb]
  · unfold addSwaggerParams
    rw [List.foldlM_cons]
    cases addSwaggerParam fuel definitions endpoint param <;> rfl

theorem addSwaggerParams_classification_witness :
    addSwaggerParam 0 widgetDefinitions (newEndpoint "/widgets" "post") limitParam
        = some { newEndpoint "/widgets" "post" with
            ParamsHitsDetails := { Query := [("limit", 0)], Body := [] }
            ExpectedUniqueHits := 2 }
    ∧ addSwaggerParam 0 widgetDefinitions (newEndpoint "/widgets" "post") rawBodyParam
        = some { newEndpoint "/widgets" "post" with
            ParamsHitsDetails := { Query := [], Body := [("payload", 0)] }
            ExpectedUniqueHits := 2 }
    ∧ addSwaggerParam 0 widgetDefinitions (newEndpoint "/widgets" "post") headerParam
        = some (newEndpoint "/widgets" "post") :=
  ⟨(addSwaggerParams_classification 0 widgetDefinitions (newEndpoint "/widgets" "post")
      "query#Limit" limitParam).1 rfl,
    (addSwaggerParams_classification 0 widgetDefinitions (newEndpoint "/widgets" "post")
      "body#Payload" rawBodyParam).2.1 rfl rfl,
    (addSwaggerParams_classification 0 widgetDefinitions (newEndpoint "/widgets" "post")
      "header#XTrace" headerParam).2.2.1 (by decide) (by decide)⟩

theorem one_le_keyUnits (e : Endpoint) : 1 ≤ keyUnits e := by
  unfold keyUnits
  omega

/-- C12: for every document whose operation strings are well formed and whose
    definitions are acyclic, and every filter, AnalyzeSwagger returns a coverage in
    which every endpoint has ExpectedUniqueHits ≥ 1. -/
theorem AnalyzeSwagger_base_unit (lowerRune : Char → Char) (document : Document)
    (filter : String) (hwf : ∀ mp ∈ document.OperationMethodPaths, WellFormedOp mp)
    (hac : Acyclic document.Definitions) :
    ∃ cov : Coverage,
      AnalyzeSwagger lowerRune (document.Definitions.length + 1) document filter
        = some (some cov, none)
      ∧ (∀ fuel r, AnalyzeSwagger lowerRune fuel document filter = some r →
          r = (some cov, none))
      ∧ (∀ p m e, cov.endpoint? p m = some e → 1 ≤ e.ExpectedUniqueHits) := by
  obtain ⟨r, hr⟩ := Option.isSome_iff_exists.mp
    (analyzeLoop_isSome_of_acyclic lowerRune document hac filter emptyCoverage
      document.OperationMethodPaths)
  have hok : ∃ cov, r = (some cov, none) := by
    rcases analyzeLoop_result _ _ _ _ _ _ _ hr with ⟨h1, h2, _⟩ | ⟨_, mp, hmem, h2, _⟩
    · obtain ⟨cov, hcov⟩ := Option.isSome_iff_exists.mp h2
      exact ⟨cov, Prod.ext hcov h1⟩
    · exact absurd (hwf mp hmem) h2
  obtain ⟨cov, rfl⟩ := hok
  have hempty : ∀ p m, emptyCoverage.endpoint? p m = none := fun _ _ => rfl
  refine ⟨cov, hr, fun fuel r' h' => AnalyzeSwagger_unique lowerRune _ _ _ _ _ _ hr h', ?_⟩
  intro p m e he
  exact le_trans (one_le_keyUnits e)
    (analyzeLoop_keyUnits_le _ _ _ _ _ _ _ hr
      (by intro p m e he; rw [hempty] at he; exact absurd he (by simp)) p m e he)

theorem AnalyzeSwagger_base_unit_witness :
    ∃ cov : Coverage,
      AnalyzeSwagger asciiLower (widgetDocument.Definitions.length + 1) widgetDocument ""
        = some (some cov, none)
      ∧ (∀ fuel r, AnalyzeSwagger asciiLower fuel widgetDocument "" = some r →
          r = (some cov, none))
      ∧ (∀ p m e, cov.endpoint? p m = some e → 1 ≤ e.ExpectedUniqueHits) :=
  AnalyzeSwagger_base_unit asciiLower widgetDocument "" (by decide) widgetDefinitions_acyclic

/-! ## Claims on the recursion of extractDefParams -/

theorem propLeaves_none_of_mem (r : Schema → String → Option (List String))
    (paramPath : String) (l : List (String × Schema)) (np : String × Schema)
    (hmem : np ∈ l) (href : 0 < np.2.Ref.length)
    (hnone : r np.2 (paramPath ++ "." ++ np.1) = none) :
    propLeaves r paramPath l = none := by
  induction l with
  | nil => simp at hmem
  | cons x rest ih =>
    unfold propLeaves
    rcases List.mem_cons.mp hmem with rfl | hmem
    · simp [href, hnone]
    · rw [ih hmem]
      cases (if 0 < x.2.Ref.length then r x.2 (paramPath ++ "." ++ x.1)
        else some [paramPath ++ "." ++ x.1]) <;> simp

theorem refTarget_eq_some (s : Schema) (a : String) (h : refTarget s = some a) :
    ∃ tl, s.Ref = "definitions" :: a :: tl := by
  unfold refTarget at h
  split at h
  · rename_i refType refName tl heq
    split_ifs at h with h1
    simp only [Option.some.injEq] at h
    exact ⟨tl, by rw [heq, h1, h]⟩
  · simp at h

theorem cycle_step (definitions : Definitions) (a : String)
    (h : Relation.TransGen (RefEdge definitions) a a) :
    ∃ b, RefEdge definitions a b ∧ Relation.TransGen (RefEdge definitions) b b := by
  obtain ⟨b, hab, hba⟩ := Relation.TransGen.head'_iff.mp h
  exact ⟨b, hab, Relation.TransGen.tail' hba hab⟩

/-- A reference to a definition on a cycle of the reference graph is resolved
    within no fuel. -/
theorem leafPaths_cycle (definitions : Definitions) (fuel : Nat) (a : String)
    (hcycle : Relation.TransGen (RefEdge definitions) a a) (schema : Schema)
    (href : refTarget schema = some a) (paramPath : String) :
    leafPaths fuel schema definitions paramPath = none := by
  induction fuel generalizing a schema paramPath with
  | zero => rfl
  | succ fuel ih =>
    obtain ⟨b, ⟨d, hget, np, hmem, htarget⟩, hb⟩ := cycle_step definitions a hcycle
    obtain ⟨tl, hs⟩ := refTarget_eq_some schema a href
    obtain ⟨tl', hs'⟩ := refTarget_eq_some np.2 b htarget
    have hpos : 0 < d.Properties.length := List.length_pos_of_mem hmem
    rw [leafPaths_resolved fuel schema definitions paramPath a tl d hs hget, if_pos hpos]
    exact propLeaves_none_of_mem _ _ _ np hmem (by rw [hs']; simp)
      (ih b hb np.2 htarget _)

/-- C16: when the definition A lies on a cycle of the reference graph (A has a
    property that refers to A, or A refers to B which refers to A, and so on), a schema
    that refers to A is resolved within no recursion depth: extractDefParams returns
    at no fuel, and neither does the round of addSwaggerParams for a body parameter
    with that schema. -/
theorem extractDefParams_cycle (definitions : Definitions) (a : String)
    (hcycle : Relation.TransGen (RefEdge definitions) a a) (schema : Schema)
    (href : refTarget schema = some a) :
    (∀ fuel paramPath params,
      extractDefParams fuel schema definitions paramPath params = none)
    ∧ (∀ fuel endpoint p,
      addSwaggerParam fuel definitions endpoint (bodyParam p schema) = none) := by
  constructor
  · intro fuel paramPath params
    rw [extractDefParams_eq, leafPaths_cycle definitions fuel a hcycle schema href]
    rfl
  · intro fuel endpoint p
    rw [addSwaggerParam_body, leafPaths_cycle definitions fuel a hcycle schema href]
    rfl

theorem cyclicDefinitions_edge : RefEdge cyclicDefinitions "A" "A" :=
  ⟨Schema.mk [] [("next", refTo "A")], rfl, ("next", refTo "A"),
    by simp [Schema.Properties], rfl⟩

theorem mutualDefinitions_edges :
    RefEdge mutualDefinitions "A" "B" ∧ RefEdge mutualDefinitions "B" "A" :=
  ⟨⟨Schema.mk [] [("id", plainSchema), ("b", refTo "B")], rfl, ("b", refTo "B"),
      by simp [Schema.Properties], rfl⟩,
    ⟨Schema.mk [] [("a", refTo "A")], rfl, ("a", refTo "A"), by simp [Schema.Properties], rfl⟩⟩

theorem extractDefParams_cycle_witness :
    (∀ fuel paramPath params,
      extractDefParams fuel (refTo "A") cyclicDefinitions paramPath params = none)
    ∧ (∀ fuel paramPath params,
      extractDefParams fuel (refTo "A") mutualDefinitions paramPath params = none) :=
  ⟨(extractDefParams_cycle cyclicDefinitions "A"
      (Relation.TransGen.single cyclicDefinitions_edge) (refTo "A") rfl).1,
    (extractDefParams_cycle mutualDefinitions "A"
      (Relation.TransGen.tail (Relation.TransGen.single mutualDefinitions_edges.1)
        mutualDefinitions_edges.2) (refTo "A") rfl).1⟩

/-- C20: on a definitions table in which no definition reaches itself,
    extractDefParams returns for every schema and start path: the initial call
    together with a recursion depth (the number of calls nested in it) of at most the
    number of definitions suffices, the result is the same at every fuel at which the
    function returns, and the count is non-negative. -/
theorem extractDefParams_terminates (definitions : Definitions) (hac : Acyclic definitions)
    (schema : Schema) (paramPath : String) (params : GoMap Int) :
    ∃ depth, depth ≤ definitions.length
      ∧ ∃ r, extractDefParams (depth + 1) schema definitions paramPath params = some r
        ∧ 0 ≤ r.1
        ∧ ∀ fuel r', extractDefParams fuel schema definitions paramPath params = some r' →
            r' = r := by
  obtain ⟨ks, hks⟩ := Option.isSome_iff_exists.mp
    (leafPaths_isSome_of_acyclic definitions hac schema paramPath)
  refine ⟨definitions.length, le_refl _, ((ks.length : Int), registerAll params ks), ?_, ?_, ?_⟩
  · rw [extractDefParams_eq, hks]
    rfl
  · exact Int.natCast_nonneg _
  · intro fuel r' h'
    have h1 := extractDefParams_mono (Nat.le_max_left fuel (definitions.length + 1))
      _ _ _ _ _ h'
    have h2 : extractDefParams (definitions.length + 1) schema definitions paramPath params
        = some ((ks.length : Int), registerAll params ks) := by
      rw [extractDefParams_eq, hks]
      rfl
    have h3 := extractDefParams_mono (Nat.le_max_right fuel (definitions.length + 1))
      _ _ _ _ _ h2
    rw [h1] at h3
    exact Option.some.inj h3

theorem extractDefParams_terminates_witness :
    ∃ depth, depth ≤ nestedDefinitions.length
      ∧ ∃ r, extractDefParams (depth + 1) (refTo "Order") nestedDefinitions "body" [] = some r
        ∧ 0 ≤ r.1
        ∧ ∀ fuel r', extractDefParams fuel (refTo "Order") nestedDefinitions "body" []
            = some r' → r' = r :=
  extractDefParams_terminates nestedDefinitions nestedDefinitions_acyclic (refTo "Order")
    "body" []

/-- The bound of the number of definitions on the recursion depth is attained: on
    the table with the one definition A, whose property refers to a missing name, the
    initial call alone does not suffice and one nested call does. -/
theorem extractDefParams_depth_attained :
    Acyclic danglingDefinitions
    ∧ extractDefParams 1 (refTo "A") danglingDefinitions "body" [] = none
    ∧ extractDefParams 2 (refTo "A") danglingDefinitions "body" [] = some (0, []) :=
  ⟨acyclic_of_rank _ (fun a => if a = "A" then 1 else 0) (by decide), by decide, by decide⟩

/-! ## Filtering -/

theorem GoMap.filter_set_of_pos {V : Type} (P : String → Bool) (m : GoMap V) (k : String)
    (v : V) (h : P k = true) :
    (GoMap.set m k v).filter (fun kv => P kv.1) = GoMap.set (m.filter (fun kv => P kv.1)) k v := by
  induction m with
  | nil => simp [GoMap.set, h]
  | cons a rest ih =>
    obtain ⟨a1, a2⟩ := a
    by_cases ha : a1 = k
    · subst ha
      simp [GoMap.set, List.filter_cons, h]
    · by_cases hp : P a1 = true
      · simp [GoMap.set, List.filter_cons, ha, hp, ih]
      · simp [GoMap.set, List.filter_cons, ha, hp, ih]

theorem GoMap.filter_set_of_neg {V : Type} (P : String → Bool) (m : GoMap V) (k : String)
    (v : V) (h : P k = false) :
    (GoMap.set m k v).filter (fun kv => P kv.1) = m.filter (fun kv => P kv.1) := by
  induction m with
  | nil => simp [GoMap.set, h]
  | cons a rest ih =>
    obtain ⟨a1, a2⟩ := a
    by_cases ha : a1 = k
    · subst ha
      simp [GoMap.set, List.filter_cons, h]
    · by_cases hp : P a1 = true
      · simp [GoMap.set, List.filter_cons, ha, hp, ih]
      · simp [GoMap.set, List.filter_cons, ha, hp, ih]

theorem GoMap.get?_filter {V : Type} (P : String → Bool) (m : GoMap V) (k : String) :
    GoMap.get? (m.filter (fun kv => P kv.1)) k = if P k = true then GoMap.get? m k else none := by
  induction m with
  | nil => simp [GoMap.get?]
  | cons a rest ih =>
    obtain ⟨a1, a2⟩ := a
    by_cases ha : a1 = k
    · subst ha
      by_cases hp : P a1 = true
      · simp [GoMap.get?, List.filter_cons, hp]
      · simp [GoMap.get?, List.filter_cons, hp, ih]
    · by_cases hp : P a1 = true
      · simp [GoMap.get?, List.filter_cons, hp, ha, ih]
      · simp [GoMap.get?, List.filter_cons, hp, ha, ih]

theorem strings.HasPrefix_empty (s : String) : strings.HasPrefix s "" = true := by
  simp [strings.HasPrefix]

theorem endpoint?_restrict (c : Coverage) (f p m : String) :
    (c.restrict f).endpoint? p m
      = if strings.HasPrefix p f = true then c.endpoint? p m else none := by
  unfold Coverage.restrict Coverage.endpoint?
  simp only
  rw [GoMap.get?_filter (fun k => strings.HasPrefix k f)]
  split_ifs <;> rfl

theorem storeEndpoint_restrict_of_pos (c : Coverage) (f path method : String)
    (h : strings.HasPrefix path f = true) (qs bs : List String) :
    storeEndpoint (c.restrict f) path method
        (registerUnits (currentEndpoint (c.restrict f) path method) qs bs)
      = (storeEndpoint c path method
          (registerUnits (currentEndpoint c path method) qs bs)).restrict f := by
  have hget : (c.restrict f).Endpoints.get? path = c.Endpoints.get? path := by
    unfold Coverage.restrict
    simp only
    rw [GoMap.get?_filter (fun k => strings.HasPrefix k f), if_pos h]
  have hcur : currentEndpoint (c.restrict f) path method = currentEndpoint c path method := by
    unfold currentEndpoint
    rw [hget]
  unfold storeEndpoint
  rw [hget, hcur]
  unfold Coverage.restrict
  simp only
  rw [GoMap.filter_set_of_pos (fun k => strings.HasPrefix k f) _ _ _ h]

theorem storeEndpoint_restrict_of_neg (c : Coverage) (f path method : String)
    (h : strings.HasPrefix path f = false) (e : Endpoint) :
    (storeEndpoint c path method e).restrict f = c.restrict f := by
  unfold storeEndpoint Coverage.restrict
  simp only
  rw [GoMap.filter_set_of_neg (fun k => strings.HasPrefix k f) _ _ _ h]

/-- The run of the loop with a filter, from the restriction of a coverage, ends in
    the restriction of the result of the run without filter. -/
theorem analyzeLoop_restrict (lowerRune : Char → Char) (fuel : Nat) (document : Document)
    (f : String) (l : List String) (hwf : ∀ mp ∈ l, WellFormedOp mp)
    (c covAll : Coverage)
    (h : analyzeLoop lowerRune fuel document "" c l = some (some covAll, none)) :
    analyzeLoop lowerRune fuel document f (c.restrict f) l
      = some (some (covAll.restrict f), none) := by
  induction l generalizing c with
  | nil =>
    simp only [analyzeLoop, Option.some.injEq, Prod.mk.injEq, and_true] at h
    subst h
    rfl
  | cons mp rest ih =>
    obtain ⟨v0, v1, hsp⟩ := (wellFormedOp_iff mp).mp (hwf mp (List.mem_cons_self _ _))
    have hwf' : ∀ mp ∈ rest, WellFormedOp mp :=
      fun x hx => hwf x (List.mem_cons_of_mem _ hx)
    unfold analyzeLoop at h ⊢
    rw [analyzeOperation_wellFormed _ _ _ _ _ _ _ _ hsp,
      if_pos (strings.HasPrefix_empty _)] at h
    rw [analyzeOperation_wellFormed _ _ _ _ _ _ _ _ hsp]
    cases hb : bodyRegs fuel document.Definitions
        (document.ParamsFor (strings.ToLower lowerRune v0) (strings.ToLower lowerRune v1)) with
    | none => simp [hb] at h
    | some bs =>
      rw [hb] at h
      simp only [Option.map_some'] at h ⊢
      by_cases hp : strings.HasPrefix (strings.ToLower lowerRune v1) f = true
      · rw [if_pos hp]
        simp only
        rw [storeEndpoint_restrict_of_pos _ _ _ _ hp]
        exact ih hwf' _ h
      · rw [if_neg hp]
        simp only
        have := ih hwf' _ h
        rw [storeEndpoint_restrict_of_neg _ _ _ _ (by simpa using hp)] at this
        exact this

/-- C18: for every document whose operation strings are well formed and whose
    definitions are acyclic, and every filter f, the coverage returned by
    AnalyzeSwagger for f is the coverage returned for the empty filter restricted to
    the path keys that start with f: an endpoint whose path starts with f is stored
    with the same content, and no other endpoint is stored. -/
theorem AnalyzeSwagger_restriction (lowerRune : Char → Char) (document : Document)
    (f : String) (hwf : ∀ mp ∈ document.OperationMethodPaths, WellFormedOp mp)
    (hac : Acyclic document.Definitions) :
    ∃ covAll : Coverage,
      AnalyzeSwagger lowerRune (document.Definitions.length + 1) document ""
        = some (some covAll, none)
      ∧ AnalyzeSwagger lowerRune (document.Definitions.length + 1) document f
        = some (some (covAll.restrict f), none)
      ∧ (∀ fuel r, AnalyzeSwagger lowerRune fuel document f = some r →
          r = (some (covAll.restrict f), none))
      ∧ (∀ p m, strings.HasPrefix p f = true →
          (covAll.restrict f).endpoint? p m = covAll.endpoint? p m)
      ∧ (∀ p m, strings.HasPrefix p f = false → (covAll.restrict f).endpoint? p m = none) := by
  obtain ⟨r, hr⟩ := Option.isSome_iff_exists.mp
    (analyzeLoop_isSome_of_acyclic lowerRune document hac "" emptyCoverage
      document.OperationMethodPaths)
  have hok : ∃ cov, r = (some cov, none) := by
    rcases analyzeLoop_result _ _ _ _ _ _ _ hr with ⟨h1, h2, _⟩ | ⟨_, mp, hmem, h2, _⟩
    · obtain ⟨cov, hcov⟩ := Option.isSome_iff_exists.mp h2
      exact ⟨cov, Prod.ext hcov h1⟩
    · exact absurd (hwf mp hmem) h2
  obtain ⟨covAll, rfl⟩ := hok
  have hf : AnalyzeSwagger lowerRune (document.Definitions.length + 1) document f
      = some (some (covAll.restrict f), none) :=
    analyzeLoop_restrict lowerRune _ document f _ hwf emptyCoverage covAll hr
  refine ⟨covAll, hr, hf, fun fuel r' h' => AnalyzeSwagger_unique lowerRune _ _ _ _ _ _ hf h',
    ?_, ?_⟩
  · intro p m hp
    rw [endpoint?_restrict, if_pos hp]
  · intro p m hp
    rw [endpoint?_restrict, if_neg (by simp [hp])]

theorem AnalyzeSwagger_restriction_witness :
    ∃ covAll : Coverage,
      AnalyzeSwagger asciiLower (mixedDocument.Definitions.length + 1) mixedDocument ""
        = some (some covAll, none)
      ∧ AnalyzeSwagger asciiLower (mixedDocument.Definitions.length + 1) mixedDocument "/wid"
        = some (some (covAll.restrict "/wid"), none)
      ∧ (∀ fuel r, AnalyzeSwagger asciiLower fuel mixedDocument "/wid" = some r →
          r = (some (covAll.restrict "/wid"), none))
      ∧ (∀ p m, strings.HasPrefix p "/wid" = true →
          (covAll.restrict "/wid").endpoint? p m = covAll.endpoint? p m)
      ∧ (∀ p m, strings.HasPrefix p "/wid" = false →
          (covAll.restrict "/wid").endpoint? p m = none) :=
  AnalyzeSwagger_restriction asciiLower mixedDocument "/wid" (by decide)
    widgetDefinitions_acyclic

/-! ## Order of enumeration: sameness is an equivalence -/

theorem sameOption_refl {α : Type} {R : α → α → Prop} (hR : ∀ a, R a a) (x : Option α) :
    SameOption R x x := by
  cases x with
  | none => trivial
  | some a => exact hR a

theorem sameOption_symm {α : Type} {R : α → α → Prop} (hR : ∀ a b, R a b → R b a)
    {x y : Option α} (h : SameOption R x y) : SameOption R y x := by
  cases x <;> cases y
  · trivial
  · exact False.elim h
  · exact False.elim h
  · exact hR _ _ h

theorem sameOption_trans {α : Type} {R : α → α → Prop} (hR : ∀ a b c, R a b → R b c → R a c)
    {x y z : Option α} (h1 : SameOption R x y) (h2 : SameOption R y z) : SameOption R x z := by
  cases x <;> cases y <;> cases z
  · trivial
  · exact False.elim h2
  · exact False.elim h1
  · exact False.elim h1
  · exact False.elim h1
  · exact False.elim h1
  · exact False.elim h2
  · exact hR _ _ _ h1 h2

theorem sameOption_mono {α : Type} {R S : α → α → Prop} (hRS : ∀ a b, R a b → S a b)
    {x y : Option α} (h : SameOption R x y) : SameOption S x y := by
  cases x <;> cases y
  · trivial
  · exact False.elim h
  · exact False.elim h
  · exact hRS _ _ h

theorem sameOption_of_eq {α : Type} {R : α → α → Prop} (hR : ∀ a, R a a) {x y : Option α}
    (h : x = y) : SameOption R x y := by
  subst h
  exact sameOption_refl hR x

theorem endpointSame_refl (e : Endpoint) : Endpoint.Same e e :=
  ⟨rfl, rfl, rfl, rfl, rfl, rfl, fun _ => rfl, fun _ => rfl⟩

theorem endpointSame_symm {e1 e2 : Endpoint} (h : Endpoint.Same e1 e2) : Endpoint.Same e2 e1 := by
  obtain ⟨h1, h2, h3, h4, h5, h6, h7, h8⟩ := h
  exact ⟨h1.symm, h2.symm, h3.symm, h4.symm, h5.symm, h6.symm, fun k => (h7 k).symm,
    fun k => (h8 k).symm⟩

theorem endpointSame_trans {e1 e2 e3 : Endpoint} (h : Endpoint.Same e1 e2)
    (h' : Endpoint.Same e2 e3) : Endpoint.Same e1 e3 := by
  obtain ⟨h1, h2, h3, h4, h5, h6, h7, h8⟩ := h
  obtain ⟨g1, g2, g3, g4, g5, g6, g7, g8⟩ := h'
  exact ⟨h1.trans g1, h2.trans g2, h3.trans g3, h4.trans g4, h5.trans g5, h6.trans g6,
    fun k => (h7 k).trans (g7 k), fun k => (h8 k).trans (g8 k)⟩

theorem coverageSame_refl (c : Coverage) : Coverage.Same c c :=
  ⟨rfl, rfl, rfl, fun _ _ => sameOption_refl endpointSame_refl _⟩

theorem coverageSame_symm {c1 c2 : Coverage} (h : Coverage.Same c1 c2) : Coverage.Same c2 c1 := by
  obtain ⟨h1, h2, h3, h4⟩ := h
  exact ⟨h1.symm, h2.symm, h3.symm,
    fun p m => @sameOption_symm _ Endpoint.Same
      (fun _ _ h => endpointSame_symm h) _ _ (h4 p m)⟩

theorem coverageSame_trans {c1 c2 c3 : Coverage} (h : Coverage.Same c1 c2)
    (h' : Coverage.Same c2 c3) : Coverage.Same c1 c3 := by
  obtain ⟨h1, h2, h3, h4⟩ := h
  obtain ⟨g1, g2, g3, g4⟩ := h'
  exact ⟨h1.trans g1, h2.trans g2, h3.trans g3,
    fun p m => @sameOption_trans _ Endpoint.Same
      (fun _ _ _ h h' => endpointSame_trans h h') _ _ _ (h4 p m) (g4 p m)⟩

/-- Coverages with the same totals and the same lookups are the same. -/
theorem coverageSame_of_lookups {c1 c2 : Coverage}
    (h1 : c1.ExpectedUniqueHits = c2.ExpectedUniqueHits) (h2 : c1.UniqueHits = c2.UniqueHits)
    (h3 : c1.Percent = c2.Percent) (h4 : ∀ p m, c1.endpoint? p m = c2.endpoint? p m) :
    Coverage.Same c1 c2 :=
  ⟨h1, h2, h3, fun p m => sameOption_of_eq endpointSame_refl (h4 p m)⟩

/-! ## Order of enumeration: concatenations -/

theorem sameOption_perm_append {β : Type} {u v u' v' : Option (List β)}
    (h : SameOption List.Perm u v) (h' : SameOption List.Perm u' v') :
    SameOption List.Perm (u.bind (fun a => u'.map (fun b => a ++ b)))
      (v.bind (fun a => v'.map (fun b => a ++ b))) := by
  cases u <;> cases v
  · trivial
  · exact False.elim h
  · exact False.elim h
  · cases u' <;> cases v'
    · trivial
    · exact False.elim h'
    · exact False.elim h'
    · exact List.Perm.append h h'

theorem concatM_perm {α β : Type} (g : α → Option (List β)) {l l' : List α}
    (h : l.Perm l') :
    SameOption List.Perm (concatM g l) (concatM g l') := by
  induction h with
  | nil => exact List.Perm.refl _
  | cons x _ ih =>
    unfold concatM
    exact sameOption_perm_append (sameOption_refl List.Perm.refl (g x)) ih
  | swap x y l =>
    simp only [concatM]
    cases g x <;> cases g y <;> cases concatM g l <;> simp [SameOption]
    rw [← List.append_assoc, ← List.append_assoc]
    exact List.Perm.append_right _ List.perm_append_comm
  | trans _ _ ih1 ih2 =>
    exact @sameOption_trans _ List.Perm (fun _ _ _ h h' => List.Perm.trans h h') _ _ _ ih1 ih2

theorem concatM_congr {α β : Type} (g g' : α → Option (List β)) (l : List α)
    (h : ∀ x ∈ l, SameOption List.Perm (g x) (g' x)) :
    SameOption List.Perm (concatM g l) (concatM g' l) := by
  induction l with
  | nil => exact List.Perm.refl _
  | cons x rest ih =>
    have hx := h x (List.mem_cons_self _ _)
    have ih' := ih (fun y hy => h y (List.mem_cons_of_mem _ hy))
    unfold concatM
    exact sameOption_perm_append hx ih'

theorem propLeaves_eq_concatM (r : Schema → String → Option (List String)) (paramPath : String)
    (l : List (String × Schema)) :
    propLeaves r paramPath l
      = concatM (fun np => if 0 < np.2.Ref.length then r np.2 (paramPath ++ "." ++ np.1)
          else some [paramPath ++ "." ++ np.1]) l := by
  induction l with
  | nil => rfl
  | cons np rest ih =>
    unfold propLeaves concatM
    rw [ih]

theorem bodyRegs_eq_concatM (fuel : Nat) (definitions : Definitions) (params : GoMap Parameter) :
    bodyRegs fuel definitions params
      = concatM (fun kp : String × Parameter => paramBodyRegs fuel definitions kp.2) params := by
  induction params with
  | nil => rfl
  | cons kp rest ih =>
    unfold bodyRegs concatM
    rw [ih]

/-! ## Order of enumeration: registrations -/

theorem sameOption_perm_trans {β : Type} {u v w : Option (List β)}
    (h : SameOption List.Perm u v) (h' : SameOption List.Perm v w) :
    SameOption List.Perm u w :=
  @sameOption_trans _ List.Perm (fun _ _ _ h h' => List.Perm.trans h h') _ _ _ h h'

/-- The paths registered for a schema are the same, up to their order, when the
    properties of the definitions are enumerated in another order. -/
theorem leafPaths_permuted (d1 d2 : Definitions) (h : PermutedDefinitions d1 d2) (fuel : Nat)
    (schema : Schema) (paramPath : String) :
    SameOption List.Perm (leafPaths fuel schema d1 paramPath)
      (leafPaths fuel schema d2 paramPath) := by
  induction fuel generalizing schema paramPath with
  | zero => trivial
  | succ fuel ih =>
    unfold leafPaths
    split
    · rename_i refType refName tl heq
      split_ifs with h1
      · exact List.Perm.refl _
      · have hn := h refName
        cases hg1 : GoMap.get? d1 refName with
        | none =>
          cases hg2 : GoMap.get? d2 refName with
          | none => exact List.Perm.refl _
          | some s2 =>
            rw [hg1, hg2] at hn
            exact False.elim hn
        | some s1 =>
          cases hg2 : GoMap.get? d2 refName with
          | none =>
            rw [hg1, hg2] at hn
            exact False.elim hn
          | some s2 =>
            rw [hg1, hg2] at hn
            have hperm : s2.Properties.Perm s1.Properties := hn
            simp only
            rw [hperm.length_eq]
            split_ifs with h2
            · rw [propLeaves_eq_concatM, propLeaves_eq_concatM]
              refine sameOption_perm_trans (concatM_congr _ _ _ ?_) (concatM_perm _ hperm.symm)
              intro np _
              show SameOption List.Perm
                (if 0 < np.2.Ref.length then leafPaths fuel np.2 d1 (paramPath ++ "." ++ np.1)
                  else some [paramPath ++ "." ++ np.1])
                (if 0 < np.2.Ref.length then leafPaths fuel np.2 d2 (paramPath ++ "." ++ np.1)
                  else some [paramPath ++ "." ++ np.1])
              split_ifs
              · exact ih np.2 _
              · exact List.Perm.refl _
            · exact List.Perm.refl _
    · exact List.Perm.refl _

theorem paramBodyRegs_permuted (d1 d2 : Definitions) (h : PermutedDefinitions d1 d2)
    (fuel : Nat) (param : Parameter) :
    SameOption List.Perm (paramBodyRegs fuel d1 param) (paramBodyRegs fuel d2 param) := by
  unfold paramBodyRegs
  split_ifs
  · cases param.Schema with
    | none => exact List.Perm.refl _
    | some schema => exact leafPaths_permuted d1 d2 h fuel schema _
  · exact List.Perm.refl _

theorem bodyRegs_permuted (d1 d2 : Definitions) (h : PermutedDefinitions d1 d2)
    (fuel : Nat) (ps1 ps2 : GoMap Parameter) (hps : ps2.Perm ps1) :
    SameOption List.Perm (bodyRegs fuel d1 ps1) (bodyRegs fuel d2 ps2) := by
  rw [bodyRegs_eq_concatM, bodyRegs_eq_concatM]
  exact sameOption_perm_trans
    (concatM_congr _ _ _ (fun kp _ => paramBodyRegs_permuted d1 d2 h fuel kp.2))
    (concatM_perm _ hps.symm)

theorem queryRegs_permuted (ps1 ps2 : GoMap Parameter) (hps : ps2.Perm ps1) :
    (queryRegs ps1).Perm (queryRegs ps2) := by
  unfold queryRegs
  exact (hps.symm.filter _).map _

theorem registerAll_same (m1 m2 : GoMap Int) (ks1 ks2 : List String)
    (hm : GoMap.Same m1 m2) (hk : ks1.Perm ks2) :
    GoMap.Same (registerAll m1 ks1) (registerAll m2 ks2) := by
  intro k
  rw [get?_registerAll, get?_registerAll, hm k]
  by_cases h : k ∈ ks1
  · rw [if_pos h, if_pos (hk.mem_iff.mp h)]
  · rw [if_neg h, if_neg (fun h' => h (hk.mem_iff.mpr h'))]

theorem registerUnits_same (e1 e2 : Endpoint) (qs1 qs2 bs1 bs2 : List String)
    (he : Endpoint.Same e1 e2) (hq : qs1.Perm qs2) (hb : bs1.Perm bs2) :
    Endpoint.Same (registerUnits e1 qs1 bs1) (registerUnits e2 qs2 bs2) := by
  obtain ⟨h1, h2, h3, h4, h5, h6, h7, h8⟩ := he
  refine ⟨h1, h2, h3, h4, ?_, h6, registerAll_same _ _ _ _ h7 hq,
    registerAll_same _ _ _ _ h8 hb⟩
  show e1.ExpectedUniqueHits + _ + _ = e2.ExpectedUniqueHits + _ + _
  rw [h5, hq.length_eq, hb.length_eq]

theorem permutedDefinitions_refl (d : Definitions) : PermutedDefinitions d d :=
  fun _ => @sameOption_refl _ (fun s s' : Schema => s'.Properties.Perm s.Properties)
    (fun _ => List.Perm.refl _) _

theorem documentPermuted_refl (d : Document) : Document.Permuted d d :=
  ⟨List.Perm.refl _, fun _ _ => List.Perm.refl _, permutedDefinitions_refl _⟩

/-! ## Order of enumeration: the rounds of the loop of AnalyzeSwagger -/

theorem analyzeOperation_eq_opAction (lowerRune : Char → Char) (fuel : Nat)
    (document : Document) (filter : String) (c : Coverage) (mp : String)
    (hwf : WellFormedOp mp) :
    analyzeOperation lowerRune fuel document filter c mp
      = (okStep lowerRune fuel document filter c mp).map LoopStep.next := by
  obtain ⟨v0, v1, hsp⟩ := (wellFormedOp_iff mp).mp hwf
  rw [analyzeOperation_wellFormed _ _ _ _ _ _ _ _ hsp]
  unfold okStep opAction
  rw [hsp]
  simp only
  split_ifs
  · cases bodyRegs fuel document.Definitions
      (document.ParamsFor (strings.ToLower lowerRune v0) (strings.ToLower lowerRune v1)) <;> rfl
  · rfl

theorem analyzeLoop_eq_foldlM (lowerRune : Char → Char) (fuel : Nat) (document : Document)
    (filter : String) (c : Coverage) (l : List String) (hwf : ∀ mp ∈ l, WellFormedOp mp) :
    analyzeLoop lowerRune fuel document filter c l
      = (l.foldlM (okStep lowerRune fuel document filter) c).map
          (fun cov => (some cov, none)) := by
  induction l generalizing c with
  | nil => rfl
  | cons mp rest ih =>
    unfold analyzeLoop
    rw [analyzeOperation_eq_opAction _ _ _ _ _ _ (hwf mp (List.mem_cons_self _ _)),
      List.foldlM_cons]
    cases okStep lowerRune fuel document filter c mp with
    | none => rfl
    | some c' =>
      simp only [Option.map_some', Option.some_bind, Option.bind_eq_bind]
      exact ih c' (fun x hx => hwf x (List.mem_cons_of_mem _ hx))

theorem endpoint?_applyAction (c : Coverage) (path method : String) (qs bs : List String)
    (p m : String) :
    (applyAction c (some (path, method, qs, bs))).endpoint? p m
      = if path = p ∧ method = m then
          some (registerUnits ((c.endpoint? path method).getD (newEndpoint path method)) qs bs)
        else c.endpoint? p m := by
  unfold applyAction
  rw [endpoint?_storeEndpoint, currentEndpoint_eq]

theorem applyAction_totals (c : Coverage)
    (a : Option (String × String × List String × List String)) :
    (applyAction c a).ExpectedUniqueHits = c.ExpectedUniqueHits
    ∧ (applyAction c a).UniqueHits = c.UniqueHits ∧ (applyAction c a).Percent = c.Percent := by
  cases a with
  | none => exact ⟨rfl, rfl, rfl⟩
  | some x =>
    obtain ⟨path, method, qs, bs⟩ := x
    exact ⟨rfl, rfl, rfl⟩

/-- Two actions are the same up to the order of the registrations. -/
theorem applyAction_same (c1 c2 : Coverage) (hc : Coverage.Same c1 c2) (path method : String)
    (qs1 qs2 bs1 bs2 : List String) (hq : qs1.Perm qs2) (hb : bs1.Perm bs2) :
    Coverage.Same (applyAction c1 (some (path, method, qs1, bs1)))
      (applyAction c2 (some (path, method, qs2, bs2))) := by
  obtain ⟨h1, h2, h3, h4⟩ := hc
  refine ⟨h1, h2, h3, ?_⟩
  intro p m
  rw [endpoint?_applyAction, endpoint?_applyAction]
  split_ifs with hpm
  · apply registerUnits_same _ _ _ _ _ _ _ hq hb
    have := h4 path method
    cases hl1 : c1.endpoint? path method <;> cases hl2 : c2.endpoint? path method
    · exact endpointSame_refl _
    · rw [hl1, hl2] at this
      exact False.elim this
    · rw [hl1, hl2] at this
      exact False.elim this
    · rw [hl1, hl2] at this
      exact this
  · exact h4 p m

theorem opAction_permuted (lowerRune : Char → Char) (fuel : Nat) (d1 d2 : Document)
    (hparams : ∀ method path, (d2.ParamsFor method path).Perm (d1.ParamsFor method path))
    (hdefs : PermutedDefinitions d1.Definitions d2.Definitions) (filter : String)
    (mp : String) :
    SameOption
      (fun a1 a2 => SameOption
        (fun x y => x.1 = y.1 ∧ x.2.1 = y.2.1 ∧ x.2.2.1.Perm y.2.2.1 ∧ x.2.2.2.Perm y.2.2.2)
        a1 a2)
      (opAction lowerRune fuel d1 filter mp) (opAction lowerRune fuel d2 filter mp) := by
  unfold opAction
  split
  · rename_i v0 v1 heq
    split_ifs
    · have hb := bodyRegs_permuted d1.Definitions d2.Definitions hdefs fuel _ _
        (hparams (strings.ToLower lowerRune v0) (strings.ToLower lowerRune v1))
      have hq := queryRegs_permuted _ _
        (hparams (strings.ToLower lowerRune v0) (strings.ToLower lowerRune v1))
      cases h1 : bodyRegs fuel d1.Definitions
          (d1.ParamsFor (strings.ToLower lowerRune v0) (strings.ToLower lowerRune v1)) <;>
        cases h2 : bodyRegs fuel d2.Definitions
          (d2.ParamsFor (strings.ToLower lowerRune v0) (strings.ToLower lowerRune v1))
      · trivial
      · rw [h1, h2] at hb
        exact False.elim hb
      · rw [h1, h2] at hb
        exact False.elim hb
      · rw [h1, h2] at hb
        exact ⟨rfl, rfl, hq, hb⟩
    · trivial
  · trivial

theorem okStep_permuted (lowerRune : Char → Char) (fuel : Nat) (d1 d2 : Document)
    (hparams : ∀ method path, (d2.ParamsFor method path).Perm (d1.ParamsFor method path))
    (hdefs : PermutedDefinitions d1.Definitions d2.Definitions) (filter : String)
    (c1 c2 : Coverage) (hc : Coverage.Same c1 c2) (mp : String) :
    SameOption Coverage.Same (okStep lowerRune fuel d1 filter c1 mp)
      (okStep lowerRune fuel d2 filter c2 mp) := by
  have h := opAction_permuted lowerRune fuel d1 d2 hparams hdefs filter mp
  unfold okStep
  cases h1 : opAction lowerRune fuel d1 filter mp <;>
    cases h2 : opAction lowerRune fuel d2 filter mp
  · trivial
  · rw [h1, h2] at h
    exact False.elim h
  · rw [h1, h2] at h
    exact False.elim h
  · rw [h1, h2] at h
    rename_i a1 a2
    cases a1 <;> cases a2
    · exact hc
    · exact False.elim h
    · exact False.elim h
    · rename_i x y
      obtain ⟨p1, m1, q1, b1⟩ := x
      obtain ⟨p2, m2, q2, b2⟩ := y
      obtain ⟨hp, hm, hq, hb⟩ := h
      simp only at hp hm hq hb
      subst hp hm
      exact applyAction_same c1 c2 hc _ _ _ _ _ _ hq hb

/-! ## Order of enumeration: folds -/

theorem foldlM_congr_same {σ α : Type} (R : σ → σ → Prop) (step step' : σ → α → Option σ)
    (hcongr : ∀ s s' a, R s s' → SameOption R (step s a) (step' s' a))
    (l : List α) (s s' : σ) (h : R s s') :
    SameOption R (l.foldlM step s) (l.foldlM step' s') := by
  induction l generalizing s s' with
  | nil => exact h
  | cons a rest ih =>
    rw [List.foldlM_cons, List.foldlM_cons]
    have ha := hcongr s s' a h
    cases h1 : step s a <;> cases h2 : step' s' a
    · trivial
    · rw [h1, h2] at ha
      exact False.elim ha
    · rw [h1, h2] at ha
      exact False.elim ha
    · rw [h1, h2] at ha
      exact ih _ _ ha

theorem foldlM_perm_same {σ α : Type} (R : σ → σ → Prop) (hrefl : ∀ s, R s s)
    (htrans : ∀ a b c, R a b → R b c → R a c) (step : σ → α → Option σ)
    (hcongr : ∀ s s' a, R s s' → SameOption R (step s a) (step s' a))
    (hswap : ∀ s a b, SameOption R ((step s a).bind (fun t => step t b))
      ((step s b).bind (fun t => step t a)))
    {l l' : List α} (h : l.Perm l') (s : σ) :
    SameOption R (l.foldlM step s) (l'.foldlM step s) := by
  induction h generalizing s with
  | nil => exact hrefl s
  | cons a _ ih =>
    rw [List.foldlM_cons, List.foldlM_cons]
    cases step s a with
    | none => trivial
    | some t => exact ih t
  | swap a b l =>
    simp only [List.foldlM_cons]
    have hs := hswap s b a
    cases h1 : step s b with
    | none =>
      rw [h1] at hs
      cases h2 : step s a with
      | none => trivial
      | some t =>
        rw [h2] at hs
        simp only [Option.none_bind, Option.some_bind, Option.bind_eq_bind] at hs ⊢
        cases h3 : step t b with
        | none => trivial
        | some u =>
          rw [h3] at hs
          exact False.elim hs
    | some t =>
      rw [h1] at hs
      simp only [Option.some_bind, Option.bind_eq_bind] at hs ⊢
      cases h2 : step s a with
      | none =>
        rw [h2] at hs
        simp only [Option.none_bind] at hs ⊢
        cases h3 : step t a with
        | none => trivial
        | some u =>
          rw [h3] at hs
          exact False.elim hs
      | some t' =>
        rw [h2] at hs
        simp only [Option.some_bind] at hs ⊢
        cases h3 : step t a <;> cases h4 : step t' b
        · trivial
        · rw [h3, h4] at hs
          exact False.elim hs
        · rw [h3, h4] at hs
          exact False.elim hs
        · rw [h3, h4] at hs
          exact foldlM_congr_same R step step hcongr l _ _ hs
  | trans _ _ ih1 ih2 =>
    exact @sameOption_trans _ R htrans _ _ _ (ih1 s) (ih2 s)

/-! ## Order of enumeration: two rounds of the loop commute -/

theorem opAction_some_spec (lowerRune : Char → Char) (fuel : Nat) (document : Document)
    (filter : String) (mp path method : String) (qs bs : List String)
    (h : opAction lowerRune fuel document filter mp = some (some (path, method, qs, bs))) :
    qs = queryRegs (document.ParamsFor method path)
    ∧ bodyRegs fuel document.Definitions (document.ParamsFor method path) = some bs := by
  unfold opAction at h
  split at h
  · rename_i v0 v1 heq
    split_ifs at h
    · cases hb : bodyRegs fuel document.Definitions
          (document.ParamsFor (strings.ToLower lowerRune v0) (strings.ToLower lowerRune v1)) with
      | none => simp [hb] at h
      | some bs' =>
        rw [hb] at h
        simp only [Option.map_some', Option.some.injEq, Prod.mk.injEq] at h
        obtain ⟨h1, h2, h3, h4⟩ := h
        subst h1 h2 h3 h4
        exact ⟨rfl, hb⟩
    · simp at h
  · simp at h

theorem applyAction_comm (c : Coverage) (pa ma : String) (qa ba : List String)
    (pb mb : String) (qb bb : List String) (hne : ¬ (pa = pb ∧ ma = mb)) :
    Coverage.Same
      (applyAction (applyAction c (some (pa, ma, qa, ba))) (some (pb, mb, qb, bb)))
      (applyAction (applyAction c (some (pb, mb, qb, bb))) (some (pa, ma, qa, ba))) := by
  refine ⟨rfl, rfl, rfl, fun p m => sameOption_of_eq endpointSame_refl ?_⟩
  have hne' : ¬ (pb = pa ∧ mb = ma) := fun h => hne ⟨h.1.symm, h.2.symm⟩
  simp only [endpoint?_applyAction, if_neg hne, if_neg hne']
  by_cases h1 : pa = p ∧ ma = m
  · have h2 : ¬ (pb = p ∧ mb = m) := by
      rintro ⟨rfl, rfl⟩
      exact hne h1
    rw [if_pos h1, if_neg h2, if_pos h1]
  · rw [if_neg h1]
    by_cases h2 : pb = p ∧ mb = m
    · rw [if_pos h2, if_neg h1]
    · rw [if_neg h2, if_neg h1]

theorem okStep_swap (lowerRune : Char → Char) (fuel : Nat) (document : Document)
    (filter : String) (c : Coverage) (a b : String) :
    SameOption Coverage.Same
      ((okStep lowerRune fuel document filter c a).bind
        (fun t => okStep lowerRune fuel document filter t b))
      ((okStep lowerRune fuel document filter c b).bind
        (fun t => okStep lowerRune fuel document filter t a)) := by
  unfold okStep
  cases ha : opAction lowerRune fuel document filter a <;>
    cases hb : opAction lowerRune fuel document filter b
  · trivial
  · trivial
  · trivial
  · rename_i A B
    simp only [Option.map_some', Option.some_bind]
    show Coverage.Same (applyAction (applyAction c A) B) (applyAction (applyAction c B) A)
    cases A with
    | none => exact coverageSame_refl _
    | some x =>
      cases B with
      | none => exact coverageSame_refl _
      | some y =>
        obtain ⟨pa, ma, qa, ba⟩ := x
        obtain ⟨pb, mb, qb, bb⟩ := y
        by_cases hk : pa = pb ∧ ma = mb
        · obtain ⟨rfl, rfl⟩ := hk
          obtain ⟨a1, a2⟩ := opAction_some_spec _ _ _ _ _ _ _ _ _ ha
          obtain ⟨b1, b2⟩ := opAction_some_spec _ _ _ _ _ _ _ _ _ hb
          rw [a2] at b2
          have hbb : ba = bb := Option.some.inj b2
          subst a1 b1 hbb
          exact coverageSame_refl _
        · exact applyAction_comm c pa ma qa ba pb mb qb bb hk

/-! ## Order of enumeration: AnalyzeSwagger and calculateCoverage -/

theorem sameOutcome_of_sameOption (x y : Option Coverage)
    (h : SameOption Coverage.Same x y) :
    SameOutcome (x.map (fun cov => (some cov, none))) (y.map (fun cov => (some cov, none))) := by
  cases x <;> cases y
  · trivial
  · exact False.elim h
  · exact False.elim h
  · exact ⟨h, rfl⟩

/-- With well-formed operation strings, the outcome of AnalyzeSwagger at a fuel is
    the same for a document and for the document enumerated in another order. -/
theorem AnalyzeSwagger_permuted (lowerRune : Char → Char) (d1 d2 : Document)
    (filter : String) (hperm : Document.Permuted d1 d2)
    (hwf : ∀ mp ∈ d1.OperationMethodPaths, WellFormedOp mp) (fuel : Nat) :
    SameOutcome (AnalyzeSwagger lowerRune fuel d1 filter)
      (AnalyzeSwagger lowerRune fuel d2 filter) := by
  obtain ⟨hops, hparams, hdefs⟩ := hperm
  have hwf2 : ∀ mp ∈ d2.OperationMethodPaths, WellFormedOp mp :=
    fun mp hmp => hwf mp (hops.mem_iff.mp hmp)
  unfold AnalyzeSwagger
  rw [analyzeLoop_eq_foldlM _ _ _ _ _ _ hwf, analyzeLoop_eq_foldlM _ _ _ _ _ _ hwf2]
  apply sameOutcome_of_sameOption
  have h1 := foldlM_congr_same Coverage.Same (okStep lowerRune fuel d1 filter)
    (okStep lowerRune fuel d2 filter)
    (fun s s' a hs => okStep_permuted lowerRune fuel d1 d2 hparams hdefs filter s s' hs a)
    d1.OperationMethodPaths emptyCoverage emptyCoverage (coverageSame_refl _)
  have h2 := foldlM_perm_same Coverage.Same coverageSame_refl
    (fun _ _ _ h h' => coverageSame_trans h h') (okStep lowerRune fuel d2 filter)
    (fun s s' a hs => okStep_permuted lowerRune fuel d2 d2 (fun _ _ => List.Perm.refl _)
      (permutedDefinitions_refl _) filter s s' hs a)
    (fun s a b => okStep_swap lowerRune fuel d2 filter s a b) hops.symm emptyCoverage
  exact @sameOption_trans _ Coverage.Same (fun _ _ _ h h' => coverageSame_trans h h')
    _ _ _ h1 h2

theorem refEdge_permuted (d1 d2 : Definitions) (h : PermutedDefinitions d1 d2) (a b : String)
    (hab : RefEdge d2 a b) : RefEdge d1 a b := by
  obtain ⟨s2, hget, np, hmem, htarget⟩ := hab
  have ha := h a
  rw [hget] at ha
  cases hg1 : GoMap.get? d1 a with
  | none =>
    rw [hg1] at ha
    exact False.elim ha
  | some s1 =>
    rw [hg1] at ha
    have hperm : s2.Properties.Perm s1.Properties := ha
    exact ⟨s1, hg1, np, hperm.mem_iff.mp hmem, htarget⟩

theorem acyclic_permuted (d1 d2 : Definitions) (h : PermutedDefinitions d1 d2)
    (hac : Acyclic d1) : Acyclic d2 := by
  intro a haa
  exact hac a (Relation.TransGen.mono (refEdge_permuted d1 d2 h) haa)

theorem sameOutcome_congr {r1 r1' r2 r2' : Option (Option Coverage × Option String)}
    (h1 : r1 = r1') (h2 : r2 = r2') (h : SameOutcome r1 r2) : SameOutcome r1' r2' := by
  subst h1 h2
  exact h

/-- With acyclic definitions, AnalyzeSwagger returns for a document and for the
    document enumerated in another order, with the same outcome. -/
theorem AnalyzeSwagger_permuted_acyclic (lowerRune : Char → Char) (d1 d2 : Document)
    (filter : String) (hperm : Document.Permuted d1 d2) (hac : Acyclic d1.Definitions) :
    (AnalyzeSwagger lowerRune (d1.Definitions.length + 1) d1 filter).isSome
    ∧ (AnalyzeSwagger lowerRune (d2.Definitions.length + 1) d2 filter).isSome
    ∧ SameOutcome (AnalyzeSwagger lowerRune (d1.Definitions.length + 1) d1 filter)
        (AnalyzeSwagger lowerRune (d2.Definitions.length + 1) d2 filter) := by
  have hac2 : Acyclic d2.Definitions := acyclic_permuted _ _ hperm.2.2 hac
  have s1 := analyzeLoop_isSome_of_acyclic lowerRune d1 hac filter emptyCoverage
    d1.OperationMethodPaths
  have s2 := analyzeLoop_isSome_of_acyclic lowerRune d2 hac2 filter emptyCoverage
    d2.OperationMethodPaths
  refine ⟨s1, s2, ?_⟩
  obtain ⟨r1, hr1⟩ := Option.isSome_iff_exists.mp s1
  obtain ⟨r2, hr2⟩ := Option.isSome_iff_exists.mp s2
  by_cases hwf : ∀ mp ∈ d1.OperationMethodPaths, WellFormedOp mp
  · have hsame := AnalyzeSwagger_permuted lowerRune d1 d2 filter hperm hwf
      (max (d1.Definitions.length + 1) (d2.Definitions.length + 1))
    have m1 := AnalyzeSwagger_mono lowerRune (Nat.le_max_left (d1.Definitions.length + 1)
      (d2.Definitions.length + 1)) _ _ _ hr1
    have m2 := AnalyzeSwagger_mono lowerRune (Nat.le_max_right (d1.Definitions.length + 1)
      (d2.Definitions.length + 1)) _ _ _ hr2
    exact sameOutcome_congr (m1.trans hr1.symm) (m2.trans hr2.symm) hsame
  · have hwf2 : ¬ ∀ mp ∈ d2.OperationMethodPaths, WellFormedOp mp :=
      fun h2 => hwf (fun mp hmp => h2 mp (hperm.1.mem_iff.mpr hmp))
    have e1 : r1.1 = none ∧ r1.2.isSome = true := by
      rcases analyzeLoop_result _ _ _ _ _ _ _ hr1 with ⟨_, _, h3⟩ | ⟨h1, mp, _, _, h3⟩
      · exact absurd h3 hwf
      · exact ⟨h1, by rw [h3]; rfl⟩
    have e2 : r2.1 = none ∧ r2.2.isSome = true := by
      rcases analyzeLoop_result _ _ _ _ _ _ _ hr2 with ⟨_, _, h3⟩ | ⟨h1, mp, _, _, h3⟩
      · exact absurd h3 hwf2
      · exact ⟨h1, by rw [h3]; rfl⟩
    refine sameOutcome_congr hr1.symm hr2.symm ?_
    show SameOption Coverage.Same r1.1 r2.1 ∧ r1.2.isSome = r2.2.isSome
    rw [e1.1, e2.1, e1.2, e2.2]
    exact ⟨trivial, rfl⟩

theorem sumPositive_perm (f : Endpoint → Int) {l l' : List ((String × String) × Endpoint)}
    (h : l.Perm l') : sumPositive f l = sumPositive f l' := by
  unfold sumPositive
  exact ((h.filter _).map _).sum_eq

/-- The aggregation does not depend on the order in which the endpoints are visited. -/
theorem calculateCoverage_permuted (c c' : Coverage) (hent : c'.entries.Perm c.entries)
    (hE : c'.ExpectedUniqueHits = c.ExpectedUniqueHits) (hU : c'.UniqueHits = c.UniqueHits) :
    (calculateCoverage c').entries.Perm (calculateCoverage c).entries
    ∧ (calculateCoverage c').ExpectedUniqueHits = (calculateCoverage c).ExpectedUniqueHits
    ∧ (calculateCoverage c').UniqueHits = (calculateCoverage c).UniqueHits
    ∧ (calculateCoverage c').Percent = (calculateCoverage c).Percent := by
  have hp : (calculateCoverage c').entries.Perm (calculateCoverage c).entries := by
    rw [calculateCoverage_entries, calculateCoverage_entries]
    exact hent.map _
  have hnil : ((calculateCoverage c').entries.filter
        (fun a => decide (a.2.ExpectedUniqueHits > 0)) = [])
      ↔ ((calculateCoverage c).entries.filter
        (fun a => decide (a.2.ExpectedUniqueHits > 0)) = []) := by
    rw [← List.length_eq_zero, ← List.length_eq_zero, (hp.filter _).length_eq]
  have hE' : (calculateCoverage c').ExpectedUniqueHits
      = (calculateCoverage c).ExpectedUniqueHits := by
    rw [(calculateCoverage_totals_wrap c').1, (calculateCoverage_totals_wrap c).1, hE,
      sumPositive_perm _ hp]
    exact if_congr hnil rfl rfl
  have hU' : (calculateCoverage c').UniqueHits = (calculateCoverage c).UniqueHits := by
    rw [(calculateCoverage_totals_wrap c').2, (calculateCoverage_totals_wrap c).2, hU,
      sumPositive_perm _ hp]
    exact if_congr hnil rfl rfl
  refine ⟨hp, hE', hU', ?_⟩
  rw [calculateCoverage_percent, calculateCoverage_percent, hE', hU']

/-! ## Claim on the order of enumeration -/

theorem AnalyzeSwagger_malformed_first (lowerRune : Char → Char) (fuel : Nat)
    (document : Document) (filter : String) (mp : String) (rest : List String)
    (hops : document.OperationMethodPaths = mp :: rest) (hmp : ¬ WellFormedOp mp) :
    AnalyzeSwagger lowerRune fuel document filter = some (none, some (invalidPair mp)) := by
  unfold AnalyzeSwagger
  rw [hops]
  unfold analyzeLoop
  rw [analyzeOperation_malformed _ _ _ _ _ _ hmp]

/-- C19, as stated, fails for the order of the operation strings. With the cyclic
    contract, the order POST /a, GET /x EXTRA never returns, while the order
    GET /x EXTRA, POST /a returns an error. With two malformed operation strings, the
    error returned names the one that comes first. -/
theorem AnalyzeSwagger_order_counterexample :
    Document.Permuted cyclicDocument reversedCyclicDocument
    ∧ (∀ fuel, AnalyzeSwagger asciiLower fuel cyclicDocument "" = none)
    ∧ (∀ fuel, AnalyzeSwagger asciiLower fuel reversedCyclicDocument ""
        = some (none, some (invalidPair "GET /x EXTRA")))
    ∧ Document.Permuted twoMalformedDocument twoMalformedReversed
    ∧ (∀ fuel, AnalyzeSwagger asciiLower fuel twoMalformedDocument ""
        = some (none, some "Invalid method:path pair \x27GET /x EXTRA\x27"))
    ∧ (∀ fuel, AnalyzeSwagger asciiLower fuel twoMalformedReversed ""
        = some (none, some "Invalid method:path pair \x27PUT /y EXTRA\x27")) := by
  refine ⟨⟨by decide, fun _ _ => List.Perm.refl _, permutedDefinitions_refl _⟩,
    AnalyzeSwagger_cyclicDocument, ?_,
    ⟨by decide, fun _ _ => List.Perm.refl _, permutedDefinitions_refl _⟩, ?_, ?_⟩
  · intro fuel
    exact AnalyzeSwagger_malformed_first asciiLower fuel reversedCyclicDocument ""
      "GET /x EXTRA" ["POST /a"] rfl (by decide)
  · intro fuel
    exact AnalyzeSwagger_malformed_first asciiLower fuel twoMalformedDocument ""
      "GET /x EXTRA" ["PUT /y EXTRA"] rfl (by decide)
  · intro fuel
    exact AnalyzeSwagger_malformed_first asciiLower fuel twoMalformedReversed ""
      "PUT /y EXTRA" ["GET /x EXTRA"] rfl (by decide)

/-- A well-formed operation string does not make the loop fail. -/
theorem analyzeOperation_wellFormed_next (lowerRune : Char → Char) (fuel : Nat)
    (document : Document) (filter : String) (c : Coverage) (mp : String)
    (hwf : WellFormedOp mp) (s : LoopStep)
    (hs : analyzeOperation lowerRune fuel document filter c mp = some s) :
    ∃ c', s = LoopStep.next c' := by
  obtain ⟨v0, v1, hsp⟩ := (wellFormedOp_iff mp).mp hwf
  rw [analyzeOperation_wellFormed _ _ _ _ _ _ _ _ hsp] at hs
  split_ifs at hs
  · cases hb : bodyRegs fuel document.Definitions
        (document.ParamsFor (strings.ToLower lowerRune v0)
          (strings.ToLower lowerRune v1)) with
    | none => simp [hb] at hs
    | some bs =>
      simp only [hb, Option.map_some', Option.some.injEq] at hs
      exact ⟨_, hs.symm⟩
  · simp only [Option.some.injEq] at hs
    exact ⟨_, hs.symm⟩

/-- When the loop returns on a list whose first malformed operation string is mp,
    it returns no coverage and the error that names mp. -/
theorem analyzeLoop_first_malformed (lowerRune : Char → Char) (fuel : Nat)
    (document : Document) (filter : String) (pre post : List String) (mp : String)
    (hpre : ∀ x ∈ pre, WellFormedOp x) (hmp : ¬ WellFormedOp mp)
    (c : Coverage) (r : Option Coverage × Option String)
    (h : analyzeLoop lowerRune fuel document filter c (pre ++ mp :: post) = some r) :
    r = (none, some (invalidPair mp)) := by
  induction pre generalizing c with
  | nil =>
    simp only [List.nil_append] at h
    unfold analyzeLoop at h
    rw [analyzeOperation_malformed _ _ _ _ _ _ hmp] at h
    simp only [Option.some.injEq] at h
    exact h.symm
  | cons x rest ih =>
    simp only [List.cons_append] at h
    unfold analyzeLoop at h
    cases hs : analyzeOperation lowerRune fuel document filter c x with
    | none => simp [hs] at h
    | some s =>
      obtain ⟨c', rfl⟩ := analyzeOperation_wellFormed_next _ _ _ _ _ _
        (hpre x (List.mem_cons_self _ _)) s hs
      rw [hs] at h
      exact ih (fun y hy => hpre y (List.mem_cons_of_mem _ hy)) c' h

/-- The error of AnalyzeSwagger names the malformed operation string that is
    processed first: at every fuel at which the function returns, and at the fuel
    number of definitions + 1 when the definitions are acyclic. -/
theorem AnalyzeSwagger_first_malformed (lowerRune : Char → Char) (d : Document)
    (filter : String) (pre post : List String) (mp : String)
    (hops : d.OperationMethodPaths = pre ++ mp :: post)
    (hpre : ∀ x ∈ pre, WellFormedOp x) (hmp : ¬ WellFormedOp mp) :
    (∀ fuel r, AnalyzeSwagger lowerRune fuel d filter = some r →
      r = (none, some (invalidPair mp)))
    ∧ (Acyclic d.Definitions →
      AnalyzeSwagger lowerRune (d.Definitions.length + 1) d filter
        = some (none, some (invalidPair mp))) := by
  have h1 : ∀ fuel r, AnalyzeSwagger lowerRune fuel d filter = some r →
      r = (none, some (invalidPair mp)) := by
    intro fuel r h
    unfold AnalyzeSwagger at h
    rw [hops] at h
    exact analyzeLoop_first_malformed _ _ _ _ _ _ _ hpre hmp _ _ h
  refine ⟨h1, fun hac => ?_⟩
  obtain ⟨r, hr⟩ := Option.isSome_iff_exists.mp
    (analyzeLoop_isSome_of_acyclic lowerRune d hac filter emptyCoverage
      d.OperationMethodPaths)
  have hr' : AnalyzeSwagger lowerRune (d.Definitions.length + 1) d filter = some r := hr
  rw [hr', h1 _ r hr']

/-- C19, amended: let a second document be the first enumerated in another order
    (operation strings, parameters of every operation and properties of every
    definition permuted). (1) When the operation strings are well formed, AnalyzeSwagger
    has the same outcome for both at every fuel: it returns for neither, or for both a
    coverage with the same endpoint keys and the same endpoints (ExpectedUniqueHits,
    registered Query and Body keys and counts) and no error. (2) When the definitions
    are acyclic, it returns for both at the fuel number of definitions + 1, for both the
    same coverage and no error, or for both no coverage and an error. (3) The error
    names the malformed operation string that is processed first: for every document
    whose operation strings are well formed up to a malformed string mp, AnalyzeSwagger,
    when it returns, returns no coverage and the error Invalid method:path pair mp, and
    with acyclic definitions it returns. (4) calculateCoverage gives the same entries,
    totals and percent for every order in which the endpoints are visited. -/
theorem AnalyzeSwagger_order_independent (lowerRune : Char → Char) (d1 d2 : Document)
    (filter : String) (hperm : Document.Permuted d1 d2) :
    ((∀ mp ∈ d1.OperationMethodPaths, WellFormedOp mp) →
      ∀ fuel, SameOutcome (AnalyzeSwagger lowerRune fuel d1 filter)
        (AnalyzeSwagger lowerRune fuel d2 filter))
    ∧ (Acyclic d1.Definitions →
      (AnalyzeSwagger lowerRune (d1.Definitions.length + 1) d1 filter).isSome
      ∧ (AnalyzeSwagger lowerRune (d2.Definitions.length + 1) d2 filter).isSome
      ∧ SameOutcome (AnalyzeSwagger lowerRune (d1.Definitions.length + 1) d1 filter)
          (AnalyzeSwagger lowerRune (d2.Definitions.length + 1) d2 filter))
    ∧ (∀ (d : Document) (pre post : List String) (mp : String),
      d.OperationMethodPaths = pre ++ mp :: post → (∀ x ∈ pre, WellFormedOp x) →
      ¬ WellFormedOp mp →
      (∀ fuel r, AnalyzeSwagger lowerRune fuel d filter = some r →
        r = (none, some (invalidPair mp)))
      ∧ (Acyclic d.Definitions →
        AnalyzeSwagger lowerRune (d.Definitions.length + 1) d filter
          = some (none, some (invalidPair mp))))
    ∧ (∀ c c' : Coverage, c'.entries.Perm c.entries →
      c'.ExpectedUniqueHits = c.ExpectedUniqueHits → c'.UniqueHits = c.UniqueHits →
      (calculateCoverage c').entries.Perm (calculateCoverage c).entries
      ∧ (calculateCoverage c').ExpectedUniqueHits = (calculateCoverage c).ExpectedUniqueHits
      ∧ (calculateCoverage c').UniqueHits = (calculateCoverage c).UniqueHits
      ∧ (calculateCoverage c').Percent = (calculateCoverage c).Percent) :=
  ⟨fun hwf fuel => AnalyzeSwagger_permuted lowerRune d1 d2 filter hperm hwf fuel,
    fun hac => AnalyzeSwagger_permuted_acyclic lowerRune d1 d2 filter hperm hac,
    fun d pre post mp hops hpre hmp =>
      AnalyzeSwagger_first_malformed lowerRune d filter pre post mp hops hpre hmp,
    calculateCoverage_permuted⟩

theorem widgetDocument_permuted : Document.Permuted widgetDocument permutedWidgetDocument := by
  refine ⟨by decide, ?_, ?_⟩
  · intro method path
    by_cases h : method = "post" ∧ path = "/widgets"
    · simp only [widgetDocument, permutedWidgetDocument, h, and_self, if_true]
      exact List.Perm.swap _ _ _
    · simp only [widgetDocument, permutedWidgetDocument, h, if_false]
      exact List.Perm.refl _
  · intro name
    by_cases h : "Widget" = name
    · subst h
      show List.Perm _ _
      exact List.Perm.swap _ _ _
    · simp only [widgetDocument, permutedWidgetDocument, widgetDefinitions, GoMap.get?, h,
        if_false]
      trivial

theorem AnalyzeSwagger_order_independent_witness :
    (∀ fuel, SameOutcome (AnalyzeSwagger asciiLower fuel widgetDocument "")
      (AnalyzeSwagger asciiLower fuel permutedWidgetDocument ""))
    ∧ (AnalyzeSwagger asciiLower (widgetDocument.Definitions.length + 1) widgetDocument
        "").isSome
    ∧ (AnalyzeSwagger asciiLower (permutedWidgetDocument.Definitions.length + 1)
        permutedWidgetDocument "").isSome
    ∧ AnalyzeSwagger asciiLower (malformedDocument.Definitions.length + 1) malformedDocument ""
        = some (none, some (invalidPair "GET /x EXTRA")) :=
  ⟨(AnalyzeSwagger_order_independent asciiLower widgetDocument permutedWidgetDocument ""
      widgetDocument_permuted).1 (by decide),
    ((AnalyzeSwagger_order_independent asciiLower widgetDocument permutedWidgetDocument ""
      widgetDocument_permuted).2.1 widgetDefinitions_acyclic).1,
    ((AnalyzeSwagger_order_independent asciiLower widgetDocument permutedWidgetDocument ""
      widgetDocument_permuted).2.1 widgetDefinitions_acyclic).2.1,
    ((AnalyzeSwagger_order_independent asciiLower widgetDocument permutedWidgetDocument ""
      widgetDocument_permuted).2.2.1 malformedDocument ["GET /widgets"] [] "GET /x EXTRA"
      rfl (by decide) (by decide)).2 widgetDefinitions_acyclic⟩

end Analysis
